import Mathlib

/-!
Symbol tables: the linked-list backend and the hash-table backend.

A shallow embedding of `symtablelist.c` and `symtablehash.c`.

* Dynamic storage is a list of cells; the address of a node is its index, a
  freed node leaves an empty cell, and an allocation appends a cell.
* A pointer to a node is an `Option Nat` (`none` is the C `NULL`).
* A key is the list of the bytes of the C string, without the terminator.
* A value (`void *`) is a natural number, `0` being `NULL`.
* Every loop that follows `psNextNode` links takes a step budget; running out of
  budget is reported as `Err.fuel`, an access outside an array or to a cell that
  holds no node as `Err.fault`.
-/

namespace SymTable

/-- Parameters of the C implementation the code is compiled for. -/
structure ABI where
  /-- Width of `size_t` in bits. -/
  sizeBits : Nat
  /-- Whether plain `char` is a signed type. -/
  charSigned : Bool
deriving DecidableEq, Repr

/-- The usual LP64 target with unsigned plain `char` (AArch64 Linux). -/
def abi64 : ABI := { sizeBits := 64, charSigned := false }

abbrev Key := List Nat

abbrev Val := Nat

/-- The `struct Node` of both source files. -/
structure Node where
  pcKey : Key
  pvValue : Val
  psNextNode : Option Nat
deriving DecidableEq, Repr

abbrev Heap := List (Option Node)

abbrev Buckets := List (Option Nat)

/-- Ways in which a run does not produce a result. -/
inductive Err where
  | fault
  | fuel
deriving DecidableEq, Repr

/-- Outcome of the three allocations a call of `SymTable_put` may make. -/
structure Alloc where
  bucketArray : Bool
  node : Bool
  key : Bool
deriving DecidableEq, Repr

/-- Every allocation succeeds. -/
def allocOK : Alloc := { bucketArray := true, node := true, key := true }

/-- Dereference of a node pointer. -/
def readNode (heap : Heap) (a : Nat) : Except Err Node :=
  match heap[a]? with
  | some (some n) => .ok n
  | _ => .error .fault

/-- Read of entry `i` of a bucket array. -/
def readBucket (arr : Buckets) (i : Nat) : Except Err (Option Nat) :=
  match arr[i]? with
  | some p => .ok p
  | none => .error .fault

/-- Decrement of a `size_t` object. -/
def sizeDec (abi : ABI) (n : Nat) : Nat :=
  if n = 0 then 2 ^ abi.sizeBits - 1 else n - 1

/-- The conversion `(size_t)pcKey[u]` of one byte of a key. -/
def charToSize (abi : ABI) (b : Nat) : Nat :=
  if abi.charSigned = true ∧ 128 ≤ b then 2 ^ abi.sizeBits - 256 + b else b

/-- The loop of `SymTable_hash` (symtablehash.c:380-381). -/
def hashLoop (abi : ABI) : Nat → Key → Nat
  | uHash, [] => uHash
  | uHash, b :: rest =>
    hashLoop abi ((uHash * 65599 + charToSize abi b) % 2 ^ abi.sizeBits) rest

/-- Function `SymTable_hash` (symtablehash.c:372-384). -/
def SymTable_hash (abi : ABI) (pcKey : Key) (uBucketCount : Nat) : Nat :=
  hashLoop abi 0 pcKey % uBucketCount

/-- The scan of `SymTable_contains` (symtablehash.c:223-231, symtablelist.c:131-139). -/
def containsLoop : Nat → Heap → Option Nat → Key → Except Err Int
  | _, _, none, _ => .ok 0
  | 0, _, some _, _ => .error .fuel
  | fuel + 1, heap, some cur, pcKey => do
    let node ← readNode heap cur
    if node.pcKey = pcKey then .ok 1
    else containsLoop fuel heap node.psNextNode pcKey

/-- The scan of `SymTable_get` (symtablehash.c:247-255, symtablelist.c:153-161). -/
def getLoop : Nat → Heap → Option Nat → Key → Except Err Val
  | _, _, none, _ => .ok 0
  | 0, _, some _, _ => .error .fuel
  | fuel + 1, heap, some cur, pcKey => do
    let node ← readNode heap cur
    if node.pcKey = pcKey then .ok node.pvValue
    else getLoop fuel heap node.psNextNode pcKey

/-- The scan of `SymTable_replace` (symtablehash.c:198-207, symtablelist.c:112-122). -/
def replaceLoop : Nat → Heap → Option Nat → Key → Val → Except Err (Heap × Val)
  | _, heap, none, _, _ => .ok (heap, 0)
  | 0, _, some _, _, _ => .error .fuel
  | fuel + 1, heap, some cur, pcKey, pvValue => do
    let node ← readNode heap cur
    if node.pcKey = pcKey then
      .ok (heap.set cur (some { node with pvValue := pvValue }), node.pvValue)
    else replaceLoop fuel heap node.psNextNode pcKey pvValue

/-- The scan of `SymTable_remove` (symtablehash.c:274-302, symtablelist.c:177-204).
The result is `none` when the scan falls off the chain, otherwise the storage,
the head pointer of the chain and the removed value. Each node owns the block
its `pcKey` points to, so the test `psCurrentNode->pcKey == head->pcKey` is a
comparison of node addresses once both nodes have been read. -/
def removeLoop : Nat → Heap → Option Nat → Option Nat → Option Nat → Key →
    Except Err (Option (Heap × Option Nat × Val))
  | _, _, _, _, none, _ => .ok none
  | 0, _, _, _, some _, _ => .error .fuel
  | fuel + 1, heap, head, prev, some cur, pcKey => do
    let node ← readNode heap cur
    if node.pcKey = pcKey then
      match head with
      | none => .error .fault
      | some h => do
        let _ ← readNode heap h
        if cur = h then
          .ok (some (heap.set cur none, node.psNextNode, node.pvValue))
        else
          match prev with
          | none => .error .fault
          | some p => do
            let pnode ← readNode heap p
            let heap1 := heap.set p (some { pnode with psNextNode := node.psNextNode })
            .ok (some (heap1.set cur none, head, node.pvValue))
    else removeLoop fuel heap head (some cur) node.psNextNode pcKey

/-- The inner loop of `SymTable_map` (symtablehash.c:315-319, symtablelist.c:215-219):
the arguments of the successive calls of `pfApply`. -/
def mapLoop : Nat → Heap → Option Nat → Except Err (List (Key × Val))
  | _, _, none => .ok []
  | 0, _, some _ => .error .fuel
  | fuel + 1, heap, some cur => do
    let node ← readNode heap cur
    let rest ← mapLoop fuel heap node.psNextNode
    .ok ((node.pcKey, node.pvValue) :: rest)

/-! ## Abstract view of a chain of nodes -/

/-- One stored node as seen from outside: its address and its binding. -/
structure Cell where
  addr : Nat
  key : Key
  val : Val
deriving DecidableEq, Repr

/-- Pointer to the first node of a chain (`none` for the empty chain). -/
def headOf : List Cell → Option Nat
  | [] => none
  | c :: _ => some c.addr

/-- The storage holds the nodes of `L`, each linked to the next one and the last
one to `NULL`. -/
def Linked (heap : Heap) : List Cell → Prop
  | [] => True
  | c :: rest =>
    heap[c.addr]? = some (some { pcKey := c.key, pvValue := c.val, psNextNode := headOf rest })
      ∧ Linked heap rest

/-- The first cell of a chain whose key is `k`. -/
def lookup (k : Key) : List Cell → Option Cell
  | [] => none
  | c :: rest => if c.key = k then some c else lookup k rest

/-- The chain with the value of the first cell of key `k` set to `v`. -/
def replaceFirst (k : Key) (v : Val) : List Cell → List Cell
  | [] => []
  | c :: rest => if c.key = k then { c with val := v } :: rest else c :: replaceFirst k v rest

/-- The chain without its first cell of key `k`. -/
def removeFirst (k : Key) : List Cell → List Cell
  | [] => []
  | c :: rest => if c.key = k then rest else c :: removeFirst k rest

/-- The bindings of a chain, in chain order. -/
def bindings (L : List Cell) : List (Key × Val) := L.map (fun c => (c.key, c.val))

/-- One call of the interface, for runs of several calls. -/
inductive Op where
  | put (k : Key) (v : Val)
  | replace (k : Key) (v : Val)
  | remove (k : Key)
  | get (k : Key)
  | contains (k : Key)
  | getLength
deriving DecidableEq, Repr

/-- The value a call returns. -/
inductive Res where
  | int (i : Int)
  | ptr (v : Val)
  | size (n : Nat)
deriving DecidableEq, Repr

/-- The calls `SymTable_put(t, k, v)` for the bindings of a list, in order. -/
def putOps (kvs : List (Key × Val)) : List Op := kvs.map (fun kv => Op.put kv.1 kv.2)

/-- A two-byte key for each index; the keys of distinct indices differ, and the
bytes are non-zero and below 256 for indices below 65025. -/
def sampleKey (i : Nat) : Key := [1 + i / 255, 1 + i % 255]

/-- The first `n` sample keys, key `i` bound to the value `i + 1`. -/
def sampleBindings (n : Nat) : List (Key × Val) :=
  (List.range n).map (fun i => (sampleKey i, i + 1))

/-- Two bindings, `"a"` bound to `1` and `"b"` bound to `2`. -/
def sampleTwo : List (Key × Val) := [([97], 1), ([98], 2)]

/-- The calls of the example of the specification, on the keys `"a"` and `"b"`. -/
def exampleOps : List Op :=
  [.put [97] 1, .put [98] 2, .put [97] 3, .get [97], .replace [97] 3, .get [97],
   .remove [98], .getLength]

/-- The values the example of the specification expects from `exampleOps`. -/
def exampleResults : List Res :=
  [.int 1, .int 1, .int 0, .ptr 1, .ptr 1, .ptr 3, .ptr 2, .size 1]

/-- The values a run returned, when it completed. -/
def resultsOf {σ : Type} : Except Err (σ × List Res) → Option (List Res)
  | .ok (_, rs) => some rs
  | .error _ => none

/-! ## The linked-list backend (`symtablelist.c`) -/

namespace LinkedList

/-- The `struct SymTable` of symtablelist.c together with the node storage. -/
structure State where
  heap : Heap
  psFirstNode : Option Nat
  length : Nat
deriving DecidableEq, Repr

/-- Function `SymTable_new` (symtablelist.c:31-42). -/
def SymTable_new (allocTable : Bool) (heap : Heap) : Option State :=
  if allocTable = false then none
  else some { heap := heap, psFirstNode := none, length := 0 }

/-- The table `SymTable_new` returns when the node storage is empty. -/
def freshTable : State := { heap := [], psFirstNode := none, length := 0 }

/-- Function `SymTable_getLength` (symtablelist.c:62-65). -/
def SymTable_getLength (s : State) : Nat := s.length

/-- Function `SymTable_contains` (symtablelist.c:125-141). -/
def SymTable_contains (fuel : Nat) (s : State) (pcKey : Key) : Except Err Int :=
  containsLoop fuel s.heap s.psFirstNode pcKey

/-- Function `SymTable_put` (symtablelist.c:67-98). -/
def SymTable_put (al : Alloc) (fuel : Nat) (s : State) (pcKey : Key) (pvValue : Val) :
    Except Err (State × Int) := do
  let c ← SymTable_contains fuel s pcKey
  if c = 1 then .ok (s, 0)
  else if al.node = false then .ok (s, 0)
  else if al.key = false then .ok (s, 0)
  else
    let psNewNode := s.heap.length
    .ok ({ heap := s.heap ++ [some { pcKey := pcKey, pvValue := pvValue,
                                      psNextNode := s.psFirstNode }],
           psFirstNode := some psNewNode,
           length := s.length + 1 }, 1)

/-- Function `SymTable_replace` (symtablelist.c:100-123). -/
def SymTable_replace (fuel : Nat) (s : State) (pcKey : Key) (pvValue : Val) :
    Except Err (State × Val) := do
  let c ← SymTable_contains fuel s pcKey
  if c = 0 then .ok (s, 0)
  else
    let (heap1, old) ← replaceLoop fuel s.heap s.psFirstNode pcKey pvValue
    .ok ({ s with heap := heap1 }, old)

/-- Function `SymTable_get` (symtablelist.c:143-162). -/
def SymTable_get (fuel : Nat) (s : State) (pcKey : Key) : Except Err Val := do
  let c ← SymTable_contains fuel s pcKey
  if c = 0 then .ok 0
  else getLoop fuel s.heap s.psFirstNode pcKey

/-- Function `SymTable_remove` (symtablelist.c:164-205). -/
def SymTable_remove (abi : ABI) (fuel : Nat) (s : State) (pcKey : Key) :
    Except Err (State × Val) := do
  let c ← SymTable_contains fuel s pcKey
  if c = 0 then .ok (s, 0)
  else
    let r ← removeLoop fuel s.heap s.psFirstNode s.psFirstNode s.psFirstNode pcKey
    match r with
    | none => .ok (s, 0)
    | some (heap1, head1, old) =>
      .ok ({ heap := heap1, psFirstNode := head1, length := sizeDec abi s.length }, old)

/-- Function `SymTable_map` (symtablelist.c:207-220): the calls of `pfApply`, in order. -/
def SymTable_map (fuel : Nat) (s : State) : Except Err (List (Key × Val)) :=
  mapLoop fuel s.heap s.psFirstNode

/-- One interface call on the list backend. -/
def step (abi : ABI) (al : Alloc) (fuel : Nat) (s : State) : Op → Except Err (State × Res)
  | .put k v => do let (s1, r) ← SymTable_put al fuel s k v; .ok (s1, .int r)
  | .replace k v => do let (s1, r) ← SymTable_replace fuel s k v; .ok (s1, .ptr r)
  | .remove k => do let (s1, r) ← SymTable_remove abi fuel s k; .ok (s1, .ptr r)
  | .get k => do let r ← SymTable_get fuel s k; .ok (s, .ptr r)
  | .contains k => do let r ← SymTable_contains fuel s k; .ok (s, .int r)
  | .getLength => .ok (s, .size (SymTable_getLength s))

/-- A run of interface calls on the list backend, with the value of each call. -/
def run (abi : ABI) (al : Alloc) (fuel : Nat) : State → List Op → Except Err (State × List Res)
  | s, [] => .ok (s, [])
  | s, op :: ops => do
    let (s1, r) ← step abi al fuel s op
    let (s2, rs) ← run abi al fuel s1 ops
    .ok (s2, r :: rs)

/-- The state a run of calls ends in (the initial state when the run fails). -/
def stateAfter (abi : ABI) (al : Alloc) (fuel : Nat) (s : State) (ops : List Op) : State :=
  match run abi al fuel s ops with
  | .ok (s1, _) => s1
  | .error _ => s

/-- The chain after the successive insertion of new bindings, the new nodes
getting the addresses `a`, `a + 1`, and so on. -/
def chainAfter : List Cell → Nat → List (Key × Val) → List Cell
  | L, _, [] => L
  | L, a, kv :: rest => chainAfter ({ addr := a, key := kv.1, val := kv.2 } :: L) (a + 1) rest

/-- The list-backed table holding the two bindings of `sampleTwo`. -/
def twoTable : State := stateAfter abi64 allocOK 2 freshTable (putOps sampleTwo)

/-- The chain of `twoTable`. -/
def twoChain : List Cell := chainAfter [] 0 sampleTwo

/-- Well-formed list-backed table with chain `L`: the first-node pointer leads
through exactly the nodes of `L`, no node and no key occurs twice, and `length`
is the number of nodes. -/
structure WellFormed (s : State) (L : List Cell) : Prop where
  head : s.psFirstNode = headOf L
  linked : Linked s.heap L
  addrs : (L.map Cell.addr).Nodup
  keys : (L.map Cell.key).Nodup
  count : s.length = L.length

end LinkedList

/-! ## The hash-table backend (`symtablehash.c`) -/

namespace Hash

/-- The table `auBucketCounts` (symtablehash.c:11-13). -/
def auBucketCounts : List Nat := [509, 1021, 2039, 4093, 8191, 16381, 32749, 65521]

/-- The file-scope variable `counter`, the node storage, and the two fields of
the `struct SymTable` of symtablehash.c. -/
structure State where
  counter : Nat
  heap : Heap
  ppsSymNode : Buckets
  length : Nat
deriving DecidableEq, Repr

/-- The read `auBucketCounts[counter]`. -/
def stageCount (counter : Nat) : Except Err Nat :=
  match auBucketCounts[counter]? with
  | some n => .ok n
  | none => .error .fault

/-- Function `SymTable_new` (symtablehash.c:51-68), called when the variable
`counter` and the node storage are as given. -/
def SymTable_new (allocTable allocArray : Bool) (counter : Nat) (heap : Heap) : Option State :=
  if allocTable = false then none
  else if allocArray = false then none
  else
    match auBucketCounts[0]? with
    | some n => some { counter := counter, heap := heap,
                       ppsSymNode := List.replicate n none, length := 0 }
    | none => none

/-- The table `SymTable_new` returns at program start, when `counter` is `0` and
the node storage is empty. -/
def freshTable : State :=
  { counter := 0, heap := [], ppsSymNode := List.replicate 509 none, length := 0 }

/-- Function `SymTable_getLength` (symtablehash.c:91-94). -/
def SymTable_getLength (s : State) : Nat := s.length

/-- Function `SymTable_contains` (symtablehash.c:210-232). -/
def SymTable_contains (abi : ABI) (fuel : Nat) (s : State) (pcKey : Key) : Except Err Int := do
  let n ← stageCount s.counter
  let hashCode := SymTable_hash abi pcKey n
  let head ← readBucket s.ppsSymNode hashCode
  match head with
  | none => .ok 0
  | some h => containsLoop fuel s.heap (some h) pcKey

/-- Helper `SymTable_insert` (symtablehash.c:324-337). -/
def SymTable_insert (heap : Heap) (ppsSymNode : Buckets) (psToInsert : Nat) (hashCode : Nat) :
    Except Err (Heap × Buckets) := do
  let head ← readBucket ppsSymNode hashCode
  let node ← readNode heap psToInsert
  match head with
  | none =>
    .ok (heap.set psToInsert (some { node with psNextNode := none }),
         ppsSymNode.set hashCode (some psToInsert))
  | some h =>
    .ok (heap.set psToInsert (some { node with psNextNode := some h }),
         ppsSymNode.set hashCode (some psToInsert))

/-- The scan of helper `SymTable_delete` (symtablehash.c:347-368). As in
`removeLoop`, the comparison of the two `pcKey` pointers is a comparison of node
addresses. In the branch for a node that is not the head, the code assigns the
current node to `psPreviousNode` first, so the link it writes is the link of the
current node itself. -/
def deleteLoop (abi : ABI) : Nat → State → Nat → Option Nat → Key → Except Err (State × Int)
  | _, s, _, none, _ => .ok (s, 0)
  | 0, _, _, some _, _ => .error .fuel
  | fuel + 1, s, hashCode, some cur, pcKey => do
    let node ← readNode s.heap cur
    if node.pcKey = pcKey then
      let head ← readBucket s.ppsSymNode hashCode
      match head with
      | none => .error .fault
      | some h => do
        let _ ← readNode s.heap h
        if cur = h then
          .ok ({ s with ppsSymNode := s.ppsSymNode.set hashCode node.psNextNode,
                        length := sizeDec abi s.length }, 1)
        else
          .ok ({ s with heap := s.heap.set cur (some { node with psNextNode := node.psNextNode }),
                        length := sizeDec abi s.length }, 1)
    else deleteLoop abi fuel s hashCode node.psNextNode pcKey

/-- Helper `SymTable_delete` (symtablehash.c:340-369). -/
def SymTable_delete (abi : ABI) (fuel : Nat) (s : State) (pcKey : Key) (hashCode : Nat) :
    Except Err (State × Int) := do
  let head ← readBucket s.ppsSymNode hashCode
  deleteLoop abi fuel s hashCode head pcKey

/-- The inner loop of the rehash in `SymTable_put` (symtablehash.c:129-140): the
walk over one chain of the old bucket array, `psNewMem` being the new array. -/
def rehashChain (abi : ABI) (pcKey : Key) :
    Nat → State → Buckets → Option Nat → Except Err (State × Buckets)
  | _, s, psNewMem, none => .ok (s, psNewMem)
  | 0, _, _, some _ => .error .fuel
  | fuel + 1, s, psNewMem, some cur => do
    let node ← readNode s.heap cur
    let cOld ← stageCount (s.counter - 1)
    let cNew ← stageCount s.counter
    let hashCode := SymTable_hash abi node.pcKey cOld
    let newHashCode := SymTable_hash abi node.pcKey cNew
    let (heap1, psNewMem1) ← SymTable_insert s.heap psNewMem cur newHashCode
    let (s1, _) ← SymTable_delete abi fuel { s with heap := heap1 } pcKey hashCode
    let node1 ← readNode s1.heap cur
    rehashChain abi pcKey fuel s1 psNewMem1 node1.psNextNode

/-- The outer loop of the rehash in `SymTable_put` (symtablehash.c:128-141), with
`todo` iterations left and loop counter `i`. -/
def rehashBuckets (abi : ABI) (pcKey : Key) (fuel : Nat) :
    Nat → Nat → State → Buckets → Except Err (State × Buckets)
  | 0, _, s, psNewMem => .ok (s, psNewMem)
  | todo + 1, i, s, psNewMem => do
    let head ← readBucket s.ppsSymNode i
    let (s1, psNewMem1) ← rehashChain abi pcKey fuel s psNewMem head
    rehashBuckets abi pcKey fuel todo (i + 1) s1 psNewMem1

/-- The expansion block of `SymTable_put` (symtablehash.c:110-146). -/
def expand (abi : ABI) (al : Alloc) (fuel : Nat) (s : State) (pcKey : Key) : Except Err State := do
  let s1 := { s with counter := s.counter + 1 }
  let newCount ← stageCount s1.counter
  if al.bucketArray = false then
    .ok { s1 with counter := s1.counter - 1 }
  else
    let bound ← stageCount s1.counter
    let (s2, psNewMem) ← rehashBuckets abi pcKey fuel bound 0 s1 (List.replicate newCount none)
    .ok { s2 with ppsSymNode := psNewMem }

/-- Function `SymTable_put` (symtablehash.c:96-181). The bucket array pointer is
never `NULL` in a state of this model, so the test of line 166 is always false. -/
def SymTable_put (abi : ABI) (al : Alloc) (fuel : Nat) (s : State) (pcKey : Key) (pvValue : Val) :
    Except Err (State × Int) := do
  let c ← SymTable_contains abi fuel s pcKey
  if c = 1 then .ok (s, 0)
  else
    let n ← stageCount s.counter
    let s1 ← if SymTable_getLength s > n then expand abi al fuel s pcKey else .ok s
    if al.node = false then .ok (s1, 0)
    else if al.key = false then .ok (s1, 0)
    else
      let psNewNode := s1.heap.length
      let m ← stageCount s1.counter
      let hashCode := SymTable_hash abi pcKey m
      let head ← readBucket s1.ppsSymNode hashCode
      match head with
      | none =>
        .ok ({ s1 with heap := s1.heap ++ [some { pcKey := pcKey, pvValue := pvValue,
                                                   psNextNode := none }],
                       ppsSymNode := s1.ppsSymNode.set hashCode (some psNewNode),
                       length := s1.length + 1 }, 1)
      | some h =>
        .ok ({ s1 with heap := s1.heap ++ [some { pcKey := pcKey, pvValue := pvValue,
                                                   psNextNode := some h }],
                       ppsSymNode := s1.ppsSymNode.set hashCode (some psNewNode),
                       length := s1.length + 1 }, 1)

/-- Function `SymTable_replace` (symtablehash.c:183-208). -/
def SymTable_replace (abi : ABI) (fuel : Nat) (s : State) (pcKey : Key) (pvValue : Val) :
    Except Err (State × Val) := do
  let c ← SymTable_contains abi fuel s pcKey
  if c = 0 then .ok (s, 0)
  else
    let n ← stageCount s.counter
    let hashCode := SymTable_hash abi pcKey n
    let head ← readBucket s.ppsSymNode hashCode
    let (heap1, old) ← replaceLoop fuel s.heap head pcKey pvValue
    .ok ({ s with heap := heap1 }, old)

/-- Function `SymTable_get` (symtablehash.c:234-256). -/
def SymTable_get (abi : ABI) (fuel : Nat) (s : State) (pcKey : Key) : Except Err Val := do
  let c ← SymTable_contains abi fuel s pcKey
  if c = 0 then .ok 0
  else
    let n ← stageCount s.counter
    let hashCode := SymTable_hash abi pcKey n
    let head ← readBucket s.ppsSymNode hashCode
    getLoop fuel s.heap head pcKey

/-- Function `SymTable_remove` (symtablehash.c:258-303). -/
def SymTable_remove (abi : ABI) (fuel : Nat) (s : State) (pcKey : Key) :
    Except Err (State × Val) := do
  let c ← SymTable_contains abi fuel s pcKey
  if c = 0 then .ok (s, 0)
  else
    let n ← stageCount s.counter
    let hashCode := SymTable_hash abi pcKey n
    let head ← readBucket s.ppsSymNode hashCode
    let r ← removeLoop fuel s.heap head head head pcKey
    match r with
    | none => .ok (s, 0)
    | some (heap1, head1, old) =>
      .ok ({ s with heap := heap1, ppsSymNode := s.ppsSymNode.set hashCode head1,
                    length := sizeDec abi s.length }, old)

/-- The outer loop of `SymTable_map` (symtablehash.c:314-320), with `todo`
iterations left and loop counter `i`. -/
def mapBuckets (fuel : Nat) (s : State) : Nat → Nat → Except Err (List (Key × Val))
  | 0, _ => .ok []
  | todo + 1, i => do
    let head ← readBucket s.ppsSymNode i
    let here ← mapLoop fuel s.heap head
    let rest ← mapBuckets fuel s todo (i + 1)
    .ok (here ++ rest)

/-- Function `SymTable_map` (symtablehash.c:305-321): the calls of `pfApply`, in order. -/
def SymTable_map (fuel : Nat) (s : State) : Except Err (List (Key × Val)) := do
  let n ← stageCount s.counter
  mapBuckets fuel s n 0

/-- One interface call on the hash backend. -/
def step (abi : ABI) (al : Alloc) (fuel : Nat) (s : State) : Op → Except Err (State × Res)
  | .put k v => do let (s1, r) ← SymTable_put abi al fuel s k v; .ok (s1, .int r)
  | .replace k v => do let (s1, r) ← SymTable_replace abi fuel s k v; .ok (s1, .ptr r)
  | .remove k => do let (s1, r) ← SymTable_remove abi fuel s k; .ok (s1, .ptr r)
  | .get k => do let r ← SymTable_get abi fuel s k; .ok (s, .ptr r)
  | .contains k => do let r ← SymTable_contains abi fuel s k; .ok (s, .int r)
  | .getLength => .ok (s, .size (SymTable_getLength s))

/-- A run of interface calls on the hash backend, with the value of each call. -/
def run (abi : ABI) (al : Alloc) (fuel : Nat) : State → List Op → Except Err (State × List Res)
  | s, [] => .ok (s, [])
  | s, op :: ops => do
    let (s1, r) ← step abi al fuel s op
    let (s2, rs) ← run abi al fuel s1 ops
    .ok (s2, r :: rs)

/-- The chain of the bucket that key `k` hashes to, among the chains `B`. -/
def chainOf (abi : ABI) (B : List (List Cell)) (k : Key) : List Cell :=
  (B[SymTable_hash abi k B.length]?).getD []

/-- The state a run of calls ends in (the initial state when the run fails). -/
def stateAfter (abi : ABI) (al : Alloc) (fuel : Nat) (s : State) (ops : List Op) : State :=
  match run abi al fuel s ops with
  | .ok (s1, _) => s1
  | .error _ => s

/-- The chains after the successive insertion of new bindings without expansion,
the new nodes getting the addresses `a`, `a + 1`, and so on. -/
def chainsAfter (abi : ABI) : List (List Cell) → Nat → List (Key × Val) → List (List Cell)
  | B, _, [] => B
  | B, a, kv :: rest =>
    chainsAfter abi
      (B.set (SymTable_hash abi kv.1 B.length)
        ({ addr := a, key := kv.1, val := kv.2 } :: chainOf abi B kv.1))
      (a + 1) rest

/-- The hash-backed table holding the two bindings of `sampleTwo`. -/
def twoTable : State := stateAfter abi64 allocOK 2 freshTable (putOps sampleTwo)

/-- The chains of `twoTable`. -/
def twoChains : List (List Cell) := chainsAfter abi64 (List.replicate 509 []) 0 sampleTwo

/-- The hash-backed table holding the 510 bindings of `sampleBindings 510`. -/
def fullTable : State := stateAfter abi64 allocOK 510 freshTable (putOps (sampleBindings 510))

/-- The chains of `fullTable`. -/
def fullChains : List (List Cell) :=
  chainsAfter abi64 (List.replicate 509 []) 0 (sampleBindings 510)

/-- A table in the middle of an expansion from 509 to 1021 buckets (`counter` is
already `1`): the old bucket 1 holds node 0 (key `[1, 63]`) followed by node 1
(key `[1]`). -/
def twoInOne : State :=
  { counter := 1,
    heap := [some ⟨[1, 63], 5, some 1⟩, some ⟨[1], 6, none⟩],
    ppsSymNode := (List.replicate 509 none).set 1 (some 0),
    length := 2 }

/-- Well-formed hash-backed table with chains `B` (one per bucket): the bucket
array has as many entries as the current stage prescribes, entry `i` leads
through exactly the nodes of chain `i`, every binding sits in the bucket its key
hashes to, no node and no key occurs twice, and `length` is the number of nodes. -/
structure WellFormed (abi : ABI) (s : State) (B : List (List Cell)) : Prop where
  stage : auBucketCounts[s.counter]? = some B.length
  heads : s.ppsSymNode = B.map headOf
  linked : ∀ (i : Nat) (L : List Cell), B[i]? = some L → Linked s.heap L
  addrs : (B.flatten.map Cell.addr).Nodup
  keys : (B.flatten.map Cell.key).Nodup
  placed : ∀ (i : Nat) (L : List Cell), B[i]? = some L →
    ∀ c ∈ L, SymTable_hash abi c.key B.length = i
  count : s.length = B.flatten.length

end Hash

end SymTable

namespace SymTable

/-- The x86-64 System V target, where plain `char` is a signed type. -/
def abiSigned64 : ABI := { sizeBits := 64, charSigned := true }

/-- The accumulator of the specification for `size_t` of width `w`: from `h`, each
byte `b` of the key, taken as its value in 0..255, gives `(h * 65599 + b) mod 2^w`. -/
def specAccumulate (w : Nat) : Nat → List Nat → Nat
  | h, [] => h
  | h, b :: rest => specAccumulate w ((h * 65599 + b) % 2 ^ w) rest

/-- The hash of the specification: the accumulator from 0, reduced modulo the
bucket count `m`. -/
def specHash (w : Nat) (key : List Nat) (m : Nat) : Nat := specAccumulate w 0 key % m

/-- The keys of the `SymTable_put` calls of a run in which every call comes with
the outcome of its allocations. -/
def putKeys : List (Alloc × Op) → List Key
  | [] => []
  | (_, .put k _) :: rest => k :: putKeys rest
  | (_, .replace _ _) :: rest => putKeys rest
  | (_, .remove _) :: rest => putKeys rest
  | (_, .get _) :: rest => putKeys rest
  | (_, .contains _) :: rest => putKeys rest
  | (_, .getLength) :: rest => putKeys rest

/-- A run in which every call has the same outcome `al` of its allocations. -/
def withAlloc (al : Alloc) (ops : List Op) : List (Alloc × Op) := ops.map (fun op => (al, op))

/-- Only the bucket array cannot be allocated. -/
def allocNoArray : Alloc := { bucketArray := false, node := true, key := true }

/-- Only the node cannot be allocated. -/
def allocNoNode : Alloc := { bucketArray := true, node := false, key := true }

/-- Only the copy of the key cannot be allocated. -/
def allocNoKey : Alloc := { bucketArray := true, node := true, key := false }

/-- No allocation succeeds. -/
def allocNothing : Alloc := { bucketArray := false, node := false, key := false }

/-- A run of six calls with a failed allocation, a repeated key, a replacement and
a removal. -/
def mixedOps : List (Alloc × Op) :=
  [(allocOK, .put [97] 1), (allocNoNode, .put [98] 2), (allocOK, .put [97] 3),
   (allocOK, .replace [97] 4), (allocOK, .remove [98]), (allocOK, .put [99] 5)]

/-- The key `"rhhw"`: it hashes to bucket 0 of 509 and to bucket 2 of 1021. -/
def keyA : Key := [114, 104, 104, 119]

/-- The key `"gjuj"`: it hashes to bucket 1 of 509 and to bucket 2 of 1021. -/
def keyC : Key := [103, 106, 117, 106]

/-- The key `"new"`. -/
def keyNew : Key := [110, 101, 119]

/-- The 510 bindings of `sampleKey 0 .. 507`, then `keyA` and `keyC`. -/
def collidingBindings : List (Key × Val) := sampleBindings 508 ++ [(keyA, 509), (keyC, 510)]

namespace LinkedList

/-- A run of interface calls on the list backend, each call with the outcome of
its allocations. -/
def runWith (abi : ABI) (fuel : Nat) : State → List (Alloc × Op) → Except Err (State × List Res)
  | s, [] => .ok (s, [])
  | s, (al, op) :: ops => do
    let (s1, r) ← step abi al fuel s op
    let (s2, rs) ← runWith abi fuel s1 ops
    .ok (s2, r :: rs)

end LinkedList

namespace Hash

/-- A run of interface calls on the hash backend, each call with the outcome of
its allocations. -/
def runWith (abi : ABI) (fuel : Nat) : State → List (Alloc × Op) → Except Err (State × List Res)
  | s, [] => .ok (s, [])
  | s, (al, op) :: ops => do
    let (s1, r) ← step abi al fuel s op
    let (s2, rs) ← runWith abi fuel s1 ops
    .ok (s2, r :: rs)

/-- The state the insertion part of `SymTable_put` (symtablehash.c:148-180) leaves
when both allocations succeed and the current stage has `n` buckets: the new node
gets the next free address and becomes the head of its bucket. -/
def insertNode (abi : ABI) (n : Nat) (s : State) (k : Key) (v : Val) : State :=
  { s with heap := s.heap ++ [some { pcKey := k, pvValue := v,
                                     psNextNode := (s.ppsSymNode[SymTable_hash abi k n]?).getD none }],
           ppsSymNode := s.ppsSymNode.set (SymTable_hash abi k n) (some s.heap.length),
           length := s.length + 1 }

/-- The empty table with `n` buckets, the variable `counter` being `c`. -/
def emptyTable (c n : Nat) : State :=
  { counter := c, heap := [], ppsSymNode := List.replicate n none, length := 0 }

/-- The table with `n` buckets that holds the bindings `kvs`, inserted in this
order by the insertion part of `SymTable_put`. -/
def tableOf (abi : ABI) (c n : Nat) (kvs : List (Key × Val)) : State :=
  kvs.foldl (fun s kv => insertNode abi n s kv.1 kv.2) (emptyTable c n)

/-- The hash-backed table holding the 510 bindings of `collidingBindings`: the
heads of its buckets 0 and 1 are the nodes of `keyA` and `keyC`. -/
def collidingTable : State :=
  stateAfter abi64 allocOK 510 freshTable (putOps collidingBindings)

/-- The chains of `collidingTable`. -/
def collidingChains : List (List Cell) :=
  chainsAfter abi64 (List.replicate 509 []) 0 collidingBindings

end Hash

end SymTable

namespace SymTable

/-- A three-byte key for index `j`: the first two bytes number the index, the third
is the residue that brings the hash of the key to a multiple of 509 (the hash of
`[a, b, c]` is congruent to `281 * a + 447 * b + c` modulo 509). -/
def crowdedKey (j : Nat) : Key :=
  [1 + j / 255, 1 + j % 255,
   (509 - (281 * (1 + j / 255) + 447 * (1 + j % 255)) % 509) % 509]

/-- The 510 bindings `(crowdedKey j, j + 1)`, `j < 1016`, whose key is a C string
(every byte from 1 to 255) that hashes to bucket 0 of 509. -/
def crowdedBindings : List (Key × Val) :=
  ((List.range 1016).map (fun j => (crowdedKey j, j + 1))).filter
    (fun kv => decide (SymTable_hash abi64 kv.1 509 = 0 ∧ ∀ b ∈ kv.1, 0 < b ∧ b < 256))

/-- Three bindings whose keys `[1]`, `[1, 63]` and `[2, 125]` all hash to bucket 1
of 509. -/
def threeBindings : List (Key × Val) := [([1], 10), ([1, 63], 20), ([2, 125], 30)]

namespace LinkedList

/-- The list-backed table holding the three bindings of `threeBindings`; the node
of `[2, 125]` is the first, that of `[1, 63]` the middle and that of `[1]` the
last node. -/
def threeTable : State := stateAfter abi64 allocOK 3 freshTable (putOps threeBindings)

/-- The chain of `threeTable`. -/
def threeChain : List Cell := chainAfter [] 0 threeBindings

end LinkedList

namespace Hash

/-- The hash-backed table holding the three bindings of `threeBindings`, all in
bucket 1: the node of `[2, 125]` is the head, that of `[1, 63]` the middle and
that of `[1]` the last node of the chain. -/
def threeTable : State := stateAfter abi64 allocOK 3 freshTable (putOps threeBindings)

/-- The chains of `threeTable`. -/
def threeChains : List (List Cell) := chainsAfter abi64 (List.replicate 509 []) 0 threeBindings

/-- The hash-backed table holding the 510 bindings of `crowdedBindings`, all in
bucket 0 of its 509 buckets. -/
def crowdedTable : State := stateAfter abi64 allocOK 510 freshTable (putOps crowdedBindings)

/-- The chains of `crowdedTable`. -/
def crowdedChains : List (List Cell) :=
  chainsAfter abi64 (List.replicate 509 []) 0 crowdedBindings

/-- No two chain heads of different buckets fall into the same bucket of a stage
with `m` buckets. -/
def HeadsApart (abi : ABI) (B : List (List Cell)) (m : Nat) : Prop :=
  ∀ (i j : Nat) (a b : Cell) (La Lb : List Cell), B[i]? = some (a :: La) →
    B[j]? = some (b :: Lb) → SymTable_hash abi a.key m = SymTable_hash abi b.key m → i = j

/-- The state `t` and the new array `psNewMem` of the rehash loop of `SymTable_put`
(symtablehash.c:128-141) when its counter `i` has passed the buckets below `i` of
a table `s` with chains `B`, the next stage having `m` buckets: only the storage
has changed, the heads of the buckets from `i` on are untouched, and an entry of
the new array is set only where the head of a bucket below `i` hashes to. -/
structure Rehashed (abi : ABI) (s : State) (B : List (List Cell)) (m i : Nat) (t : State)
    (psNewMem : Buckets) : Prop where
  counter : t.counter = s.counter + 1
  array : t.ppsSymNode = s.ppsSymNode
  length : t.length = s.length
  heads : ∀ (j : Nat) (a : Cell) (La : List Cell), i ≤ j → B[j]? = some (a :: La) →
    t.heap[a.addr]? = some (some { pcKey := a.key, pvValue := a.val, psNextNode := headOf La })
  size : psNewMem.length = m
  entries : ∀ (idx x : Nat), psNewMem[idx]? = some (some x) →
    ∃ (j : Nat) (a : Cell) (La : List Cell), j < i ∧ B[j]? = some (a :: La)
      ∧ SymTable_hash abi a.key m = idx

end Hash

end SymTable

namespace SymTable
namespace Hash

/-- The names of the two tables of a program that uses two of them. -/
inductive Tab where
  | A
  | B
deriving DecidableEq, Repr

/-- Two hash-backed tables of one program: the file-scope variable `counter` and
the node storage exist once, each table has its own `struct SymTable` (bucket
array and length). -/
structure Pair where
  counter : Nat
  heap : Heap
  arrayA : Buckets
  lengthA : Nat
  arrayB : Buckets
  lengthB : Nat
deriving DecidableEq, Repr

/-- Table `A` of a pair, as the functions of symtablehash.c see it. -/
def Pair.tableA (w : Pair) : State :=
  { counter := w.counter, heap := w.heap, ppsSymNode := w.arrayA, length := w.lengthA }

/-- Table `B` of a pair, as the functions of symtablehash.c see it. -/
def Pair.tableB (w : Pair) : State :=
  { counter := w.counter, heap := w.heap, ppsSymNode := w.arrayB, length := w.lengthB }

/-- The pair after a call on table `A` that has left the state `s`. -/
def Pair.afterA (w : Pair) (s : State) : Pair :=
  { counter := s.counter, heap := s.heap, arrayA := s.ppsSymNode, lengthA := s.length,
    arrayB := w.arrayB, lengthB := w.lengthB }

/-- The pair after a call on table `B` that has left the state `s`. -/
def Pair.afterB (w : Pair) (s : State) : Pair :=
  { counter := s.counter, heap := s.heap, arrayA := w.arrayA, lengthA := w.lengthA,
    arrayB := s.ppsSymNode, lengthB := s.length }

/-- One interface call on one of the two tables. -/
def stepOn (abi : ABI) (al : Alloc) (fuel : Nat) (w : Pair) : Tab → Op → Except Err (Pair × Res)
  | .A, op => do let (s1, r) ← step abi al fuel w.tableA op; .ok (w.afterA s1, r)
  | .B, op => do let (s1, r) ← step abi al fuel w.tableB op; .ok (w.afterB s1, r)

/-- A run of interface calls on the two tables, each call with its table and the
outcome of its allocations. -/
def runOn (abi : ABI) (fuel : Nat) : Pair → List (Tab × Alloc × Op) → Except Err (Pair × List Res)
  | w, [] => .ok (w, [])
  | w, (t, al, op) :: ops => do
    let (w1, r) ← stepOn abi al fuel w t op
    let (w2, rs) ← runOn abi fuel w1 ops
    .ok (w2, r :: rs)

/-- The pair of a table `a` and a table `b` created after it: `counter` and the
node storage are as the creation of `b` has left them. -/
def pairOf (a b : State) : Pair :=
  { counter := b.counter, heap := b.heap, arrayA := a.ppsSymNode, lengthA := a.length,
    arrayB := b.ppsSymNode, lengthB := b.length }

/-- Two tables created by `SymTable_new` at program start. -/
def freshPair : Pair := pairOf freshTable freshTable

/-- The calls of a run, made on table `A`. -/
def onA (ops : List (Alloc × Op)) : List (Tab × Alloc × Op) :=
  ops.map (fun x => (Tab.A, x.1, x.2))

/-- The key `"x"`. -/
def keyX : Key := [120]

/-- A run on two tables, all allocations succeeding: `"x"` is bound to 7 in table
`B`, the `n` bindings of `sampleBindings n` are put into table `A`, then table `B`
is asked for `"x"` and for its length. -/
def crossOps (n : Nat) : List (Tab × Alloc × Op) :=
  (Tab.B, allocOK, Op.put keyX 7) :: (onA (withAlloc allocOK (putOps (sampleBindings n)))
    ++ [(Tab.B, allocOK, Op.contains keyX), (Tab.B, allocOK, Op.get keyX),
        (Tab.B, allocOK, Op.getLength)])

/-- The values `crossOps n` is to return. -/
def crossResults (n : Nat) : List Res :=
  Res.int 1 :: (List.replicate n (Res.int 1) ++ [Res.int 1, Res.ptr 7, Res.size 1])

/-- Both tables of a pair are well-formed, with chains `BA` and `BB`, and no node
belongs to both. -/
structure PairWF (abi : ABI) (w : Pair) (BA BB : List (List Cell)) : Prop where
  tableA : WellFormed abi w.tableA BA
  tableB : WellFormed abi w.tableB BB
  apart : ∀ a ∈ BA.flatten.map Cell.addr, a ∉ BB.flatten.map Cell.addr

end Hash
end SymTable

namespace SymTable

theorem headOf_cons (c : Cell) (r : List Cell) : headOf (c :: r) = some c.addr := rfl

theorem headOf_nil : headOf [] = none := rfl

theorem containsLoop_none (fuel : Nat) (heap : Heap) (k : Key) :
    containsLoop fuel heap none k = .ok 0 := by
  cases fuel <;> rfl

theorem getLoop_none (fuel : Nat) (heap : Heap) (k : Key) :
    getLoop fuel heap none k = .ok 0 := by
  cases fuel <;> rfl

theorem mapLoop_none (fuel : Nat) (heap : Heap) :
    mapLoop fuel heap none = .ok [] := by
  cases fuel <;> rfl

theorem readNode_of_get {heap : Heap} {a : Nat} {n : Node} (h : heap[a]? = some (some n)) :
    readNode heap a = .ok n := by
  simp [readNode, h]

theorem Linked.addr_lt {heap : Heap} {L : List Cell} (h : Linked heap L) :
    ∀ c ∈ L, c.addr < heap.length := by
  induction L with
  | nil => intro c hc; cases hc
  | cons d rest ih =>
    intro c hc
    rcases List.mem_cons.1 hc with rfl | hc
    · have := h.1
      by_contra hlt
      rw [List.getElem?_eq_none (Nat.le_of_not_lt hlt)] at this
      cases this
    · exact ih h.2 c hc

theorem Linked.append {heap : Heap} {L : List Cell} (h : Linked heap L) (x : Option Node) :
    Linked (heap ++ [x]) L := by
  induction L with
  | nil => trivial
  | cons d rest ih =>
    refine ⟨?_, ih h.2⟩
    have hlt : d.addr < heap.length := h.addr_lt d (List.mem_cons_self _ _)
    rw [List.getElem?_append_left hlt]
    exact h.1

theorem Linked.set_other {heap : Heap} {L : List Cell} (h : Linked heap L) (a : Nat)
    (x : Option Node) (ha : a ∉ L.map Cell.addr) : Linked (heap.set a x) L := by
  induction L with
  | nil => trivial
  | cons d rest ih =>
    simp only [List.map_cons, List.mem_cons, not_or] at ha
    refine ⟨?_, ih h.2 ha.2⟩
    rw [List.getElem?_set_ne ha.1]
    exact h.1

theorem containsLoop_linked {heap : Heap} {L : List Cell} (h : Linked heap L) (k : Key)
    (fuel : Nat) (hf : L.length ≤ fuel) :
    containsLoop fuel heap (headOf L) k = .ok (if k ∈ L.map Cell.key then 1 else 0) := by
  induction L generalizing fuel with
  | nil => simp [headOf_nil, containsLoop_none]
  | cons d rest ih =>
    cases fuel with
    | zero => simp at hf
    | succ fuel =>
      simp only [headOf_cons, containsLoop, readNode_of_get h.1]
      by_cases hk : d.key = k
      · simp [hk, bind, Except.bind]
      · have hk2 : ¬ k = d.key := fun e => hk e.symm
        simp only [hk, hk2, bind, Except.bind, List.map_cons, List.mem_cons, false_or, if_false]
        exact ih h.2 fuel (by simpa using hf)

theorem getLoop_linked {heap : Heap} {L : List Cell} (h : Linked heap L) (k : Key)
    (fuel : Nat) (hf : L.length ≤ fuel) :
    getLoop fuel heap (headOf L) k = .ok (match lookup k L with | some c => c.val | none => 0) := by
  induction L generalizing fuel with
  | nil => simp [headOf_nil, getLoop_none, lookup]
  | cons d rest ih =>
    cases fuel with
    | zero => simp at hf
    | succ fuel =>
      simp only [headOf_cons, getLoop, readNode_of_get h.1, lookup]
      by_cases hk : d.key = k
      · simp [hk, bind, Except.bind]
      · simp [hk, bind, Except.bind]
        exact ih h.2 fuel (by simpa using hf)

theorem mapLoop_linked {heap : Heap} {L : List Cell} (h : Linked heap L)
    (fuel : Nat) (hf : L.length ≤ fuel) :
    mapLoop fuel heap (headOf L) = .ok (bindings L) := by
  induction L generalizing fuel with
  | nil => simp [headOf_nil, mapLoop_none, bindings]
  | cons d rest ih =>
    cases fuel with
    | zero => simp at hf
    | succ fuel =>
      simp only [headOf_cons, mapLoop, readNode_of_get h.1]
      simp [bind, Except.bind, ih h.2 fuel (by simpa using hf), bindings]

end SymTable

namespace SymTable

theorem Linked.congr {heap heap1 : Heap} {L : List Cell} (h : Linked heap L)
    (hsame : ∀ c ∈ L, heap1[c.addr]? = heap[c.addr]?) : Linked heap1 L := by
  induction L with
  | nil => trivial
  | cons d rest ih =>
    refine ⟨?_, ih h.2 (fun c hc => hsame c (List.mem_cons_of_mem _ hc))⟩
    rw [hsame d (List.mem_cons_self _ _)]
    exact h.1

theorem headOf_replaceFirst (k : Key) (v : Val) (L : List Cell) :
    headOf (replaceFirst k v L) = headOf L := by
  cases L with
  | nil => rfl
  | cons d rest =>
    simp only [replaceFirst]
    split <;> rfl

theorem map_addr_replaceFirst (k : Key) (v : Val) (L : List Cell) :
    (replaceFirst k v L).map Cell.addr = L.map Cell.addr := by
  induction L with
  | nil => rfl
  | cons d rest ih =>
    simp only [replaceFirst]
    split
    · rfl
    · simp [ih]

theorem map_key_replaceFirst (k : Key) (v : Val) (L : List Cell) :
    (replaceFirst k v L).map Cell.key = L.map Cell.key := by
  induction L with
  | nil => rfl
  | cons d rest ih =>
    simp only [replaceFirst]
    split
    · rfl
    · simp [ih]

theorem length_replaceFirst (k : Key) (v : Val) (L : List Cell) :
    (replaceFirst k v L).length = L.length := by
  have := congrArg List.length (map_addr_replaceFirst k v L)
  simpa using this

theorem replaceLoop_linked {heap : Heap} {L : List Cell} (h : Linked heap L)
    (hnd : (L.map Cell.addr).Nodup) (k : Key) (v : Val) (fuel : Nat) (hf : L.length ≤ fuel) :
    ∃ heap1, replaceLoop fuel heap (headOf L) k v
        = .ok (heap1, match lookup k L with | some c => c.val | none => 0)
      ∧ Linked heap1 (replaceFirst k v L)
      ∧ ∀ a, a ∉ L.map Cell.addr → heap1[a]? = heap[a]? := by
  induction L generalizing fuel with
  | nil =>
    refine ⟨heap, ?_, trivial, fun _ _ => rfl⟩
    cases fuel <;> rfl
  | cons d rest ih =>
    cases fuel with
    | zero => simp at hf
    | succ fuel =>
      have hnd2 : d.addr ∉ rest.map Cell.addr ∧ (rest.map Cell.addr).Nodup := by
        simpa using hnd
      simp only [headOf_cons, replaceLoop, readNode_of_get h.1, lookup, replaceFirst]
      by_cases hk : d.key = k
      · refine ⟨heap.set d.addr (some { pcKey := d.key, pvValue := v, psNextNode := headOf rest }),
          ?_, ?_, ?_⟩
        · simp [hk, bind, Except.bind]
        · simp only [hk, if_true]
          refine ⟨?_, h.2.set_other _ _ hnd2.1⟩
          have hlt : d.addr < heap.length := h.addr_lt d (List.mem_cons_self _ _)
          simp [List.getElem?_set_self, hlt, hk]
        · intro a ha
          have : d.addr ≠ a := by
            intro e; apply ha; simp [e]
          rw [List.getElem?_set_ne this]
      · obtain ⟨heap1, h1, h2, h3⟩ := ih h.2 hnd2.2 fuel (by simpa using hf)
        refine ⟨heap1, ?_, ?_, ?_⟩
        · simp only [hk, if_false, bind, Except.bind]
          exact h1
        · simp only [hk, if_false]
          refine ⟨?_, h2⟩
          rw [h3 d.addr hnd2.1, headOf_replaceFirst]
          exact h.1
        · intro a ha
          apply h3
          intro hmem; apply ha; simp [hmem]

theorem headOf_eq_none_iff (L : List Cell) : headOf L = none ↔ L = [] := by
  cases L <;> simp [headOf]

/-- The scan of remove once it has passed the head: `d0` is the node before the
current one. -/
theorem removeLoop_inner {heap : Heap} (hd : Nat) (hdn : Node)
    (hhd : heap[hd]? = some (some hdn)) (k : Key) :
    ∀ (rest : List Cell) (d0 c : Cell) (fuel : Nat),
      Linked heap (d0 :: rest) → ((d0 :: rest).map Cell.addr).Nodup →
      hd ∉ rest.map Cell.addr → lookup k rest = some c → rest.length ≤ fuel →
      ∃ heap1, removeLoop fuel heap (some hd) (some d0.addr) (headOf rest) k
          = .ok (some (heap1, some hd, c.val))
        ∧ Linked heap1 (d0 :: removeFirst k rest)
        ∧ ∀ a, a ∉ (d0 :: rest).map Cell.addr → heap1[a]? = heap[a]? := by
  intro rest
  induction rest with
  | nil => intro d0 c fuel _ _ _ hl; simp [lookup] at hl
  | cons d rest ih =>
    intro d0 c fuel hlk hnd hhdn hl hf
    cases fuel with
    | zero => simp at hf
    | succ fuel =>
      have hnd1 : d0.addr ∉ (d :: rest).map Cell.addr ∧ ((d :: rest).map Cell.addr).Nodup := by
        simpa using hnd
      have hnd2 : d.addr ∉ rest.map Cell.addr ∧ (rest.map Cell.addr).Nodup := by
        simpa using hnd1.2
      have hne0 : d0.addr ≠ d.addr := by
        intro e; apply hnd1.1; simp [e]
      have hhd1 : ¬ d.addr = hd := by
        intro e; apply hhdn; simp [e]
      have hhd2 : hd ∉ rest.map Cell.addr := by
        intro hm; apply hhdn; simp only [List.map_cons, List.mem_cons]; exact Or.inr hm
      simp only [headOf_cons, removeLoop, readNode_of_get hlk.2.1]
      by_cases hk : d.key = k
      · have hc : c = d := by
          simp [lookup, hk] at hl; exact hl.symm
        subst hc
        refine ⟨(heap.set d0.addr (some ⟨d0.key, d0.val, headOf rest⟩)).set c.addr none,
          ?_, ?_, ?_⟩
        · simp [hk, bind, Except.bind, readNode_of_get hhd, hhd1, readNode_of_get hlk.1]
        · simp only [removeFirst, hk, if_true]
          refine ⟨?_, ?_⟩
          · rw [List.getElem?_set_ne (Ne.symm hne0)]
            have hlt : d0.addr < heap.length := hlk.addr_lt d0 (List.mem_cons_self _ _)
            simp [List.getElem?_set_self, hlt]
          · apply Linked.set_other _ _ _ hnd2.1
            apply Linked.set_other hlk.2.2
            intro hm; apply hnd1.1; simp only [List.map_cons, List.mem_cons]; exact Or.inr hm
        · intro a ha
          simp only [List.map_cons, List.mem_cons, not_or] at ha
          rw [List.getElem?_set_ne (Ne.symm ha.2.1), List.getElem?_set_ne (Ne.symm ha.1)]
      · have hl2 : lookup k rest = some c := by
          simpa [lookup, hk] using hl
        obtain ⟨heap1, h1, h2, h3⟩ := ih d c fuel hlk.2 hnd1.2 hhd2 hl2 (by simpa using hf)
        refine ⟨heap1, ?_, ?_, ?_⟩
        · simp only [hk, if_false, bind, Except.bind]
          exact h1
        · simp only [removeFirst, hk, if_false]
          refine ⟨?_, h2⟩
          rw [h3 d0.addr hnd1.1, headOf_cons]
          exact hlk.1
        · intro a ha
          apply h3
          intro hm; apply ha; simp only [List.map_cons, List.mem_cons] at hm ⊢; exact Or.inr hm

theorem removeLoop_linked {heap : Heap} {L : List Cell} (h : Linked heap L)
    (hnd : (L.map Cell.addr).Nodup) (k : Key) (c : Cell) (hl : lookup k L = some c)
    (fuel : Nat) (hf : L.length ≤ fuel) :
    ∃ heap1, removeLoop fuel heap (headOf L) (headOf L) (headOf L) k
        = .ok (some (heap1, headOf (removeFirst k L), c.val))
      ∧ Linked heap1 (removeFirst k L)
      ∧ ∀ a, a ∉ L.map Cell.addr → heap1[a]? = heap[a]? := by
  cases L with
  | nil => simp [lookup] at hl
  | cons d rest =>
    cases fuel with
    | zero => simp at hf
    | succ fuel =>
      have hnd2 : d.addr ∉ rest.map Cell.addr ∧ (rest.map Cell.addr).Nodup := by
        simpa using hnd
      by_cases hk : d.key = k
      · have hc : c = d := by
          simp [lookup, hk] at hl; exact hl.symm
        subst hc
        refine ⟨heap.set c.addr none, ?_, ?_, ?_⟩
        · simp [headOf_cons, removeLoop, readNode_of_get h.1, hk, bind, Except.bind, removeFirst]
        · simp only [removeFirst, hk, if_true]
          exact h.2.set_other _ _ hnd2.1
        · intro a ha
          simp only [List.map_cons, List.mem_cons, not_or] at ha
          rw [List.getElem?_set_ne (Ne.symm ha.1)]
      · have hl2 : lookup k rest = some c := by
          simpa [lookup, hk] using hl
        obtain ⟨heap1, h1, h2, h3⟩ := removeLoop_inner d.addr _ h.1 k rest d c fuel h hnd
          hnd2.1 hl2 (by simpa using hf)
        refine ⟨heap1, ?_, ?_, h3⟩
        · simp only [headOf_cons, removeLoop, readNode_of_get h.1, hk, if_false, bind,
            Except.bind, removeFirst]
          exact h1
        · simpa only [removeFirst, hk, if_false] using h2

end SymTable

namespace SymTable

theorem lookup_eq_none_iff (k : Key) (L : List Cell) :
    lookup k L = none ↔ k ∉ L.map Cell.key := by
  induction L with
  | nil => simp [lookup]
  | cons d rest ih =>
    by_cases hk : d.key = k
    · simp [lookup, hk]
    · have hk2 : ¬ k = d.key := fun e => hk e.symm
      simp [lookup, hk, hk2, ih]

theorem lookup_some_mem {k : Key} {L : List Cell} {c : Cell} (h : lookup k L = some c) :
    c ∈ L ∧ c.key = k := by
  induction L with
  | nil => simp [lookup] at h
  | cons d rest ih =>
    by_cases hk : d.key = k
    · simp [lookup, hk] at h
      subst h
      exact ⟨List.mem_cons_self _ _, hk⟩
    · simp [lookup, hk] at h
      exact ⟨List.mem_cons_of_mem _ (ih h).1, (ih h).2⟩

theorem lookup_of_mem {L : List Cell} (hnd : (L.map Cell.key).Nodup) {c : Cell} (hc : c ∈ L) :
    lookup c.key L = some c := by
  induction L with
  | nil => cases hc
  | cons d rest ih =>
    have hnd2 : d.key ∉ rest.map Cell.key ∧ (rest.map Cell.key).Nodup := by simpa using hnd
    rcases List.mem_cons.1 hc with rfl | hc
    · simp [lookup]
    · have hne : ¬ d.key = c.key := by
        intro e; apply hnd2.1; rw [e]; exact List.mem_map_of_mem _ hc
      simp [lookup, hne, ih hnd2.2 hc]

theorem removeFirst_perm {k : Key} {L : List Cell} {c : Cell} (h : lookup k L = some c) :
    L.Perm (c :: removeFirst k L) := by
  induction L with
  | nil => simp [lookup] at h
  | cons d rest ih =>
    by_cases hk : d.key = k
    · simp [lookup, hk] at h
      subst h
      simp [removeFirst, hk]
    · simp [lookup, hk] at h
      simp only [removeFirst, hk, if_false]
      exact ((ih h).cons d).trans (List.Perm.swap c d _)

theorem removeFirst_sublist (k : Key) (L : List Cell) : (removeFirst k L).Sublist L := by
  induction L with
  | nil => exact List.Sublist.refl _
  | cons d rest ih =>
    simp only [removeFirst]
    split
    · exact List.sublist_cons_self _ _
    · exact ih.cons₂ d

theorem lookup_removeFirst_ne {k k1 : Key} (hne : k1 ≠ k) (L : List Cell) :
    lookup k1 (removeFirst k L) = lookup k1 L := by
  induction L with
  | nil => rfl
  | cons d rest ih =>
    by_cases hk : d.key = k
    · have h1 : ¬ k = k1 := fun e => hne e.symm
      simp [removeFirst, hk, lookup, h1]
    · simp only [removeFirst, hk, if_false, lookup, ih]

theorem lookup_replaceFirst_ne {k k1 : Key} (hne : k1 ≠ k) (v : Val) (L : List Cell) :
    lookup k1 (replaceFirst k v L) = lookup k1 L := by
  induction L with
  | nil => rfl
  | cons d rest ih =>
    by_cases hk : d.key = k
    · have h1 : ¬ k = k1 := fun e => hne e.symm
      simp [replaceFirst, hk, lookup, h1]
    · simp only [replaceFirst, hk, if_false, lookup, ih]

theorem lookup_replaceFirst_self {k : Key} {L : List Cell} {c : Cell} (v : Val)
    (h : lookup k L = some c) :
    lookup k (replaceFirst k v L) = some { c with val := v } := by
  induction L with
  | nil => simp [lookup] at h
  | cons d rest ih =>
    by_cases hk : d.key = k
    · simp [lookup, hk] at h
      subst h
      simp [replaceFirst, hk, lookup]
    · simp [lookup, hk] at h
      simp [replaceFirst, hk, lookup, ih h]

theorem key_not_mem_removeFirst {k : Key} {L : List Cell} (hnd : (L.map Cell.key).Nodup) :
    k ∉ (removeFirst k L).map Cell.key := by
  induction L with
  | nil => simp [removeFirst]
  | cons d rest ih =>
    have hnd2 : d.key ∉ rest.map Cell.key ∧ (rest.map Cell.key).Nodup := by simpa using hnd
    by_cases hk : d.key = k
    · simp only [removeFirst, hk, if_true]
      rw [← hk]; exact hnd2.1
    · simp only [removeFirst, hk, if_false, List.map_cons, List.mem_cons, not_or]
      exact ⟨fun e => hk e.symm, ih hnd2.2⟩

namespace LinkedList

theorem WellFormed.list_new (heap : Heap) :
    ∃ s, SymTable_new true heap = some s ∧ WellFormed s [] := by
  refine ⟨_, rfl, ?_⟩
  exact ⟨rfl, trivial, List.nodup_nil, List.nodup_nil, rfl⟩

theorem WellFormed.list_contains {s : State} {L : List Cell} (h : WellFormed s L) (k : Key) (fuel : Nat)
    (hf : s.length ≤ fuel) :
    SymTable_contains fuel s k = .ok (if k ∈ L.map Cell.key then 1 else 0) := by
  unfold SymTable_contains
  rw [h.head]
  exact containsLoop_linked h.linked k fuel (by rw [← h.count]; exact hf)

theorem WellFormed.list_get {s : State} {L : List Cell} (h : WellFormed s L) (k : Key) (fuel : Nat)
    (hf : s.length ≤ fuel) :
    SymTable_get fuel s k = .ok (match lookup k L with | some c => c.val | none => 0) := by
  have hlen : L.length ≤ fuel := by rw [← h.count]; exact hf
  unfold SymTable_get
  rw [h.list_contains k fuel hf]
  by_cases hk : k ∈ L.map Cell.key
  · simp only [hk, if_true, bind, Except.bind]
    rw [h.head]
    simpa using getLoop_linked h.linked k fuel hlen
  · have := (lookup_eq_none_iff k L).2 hk
    simp [hk, bind, Except.bind, this]

theorem WellFormed.list_put_absent {s : State} {L : List Cell} (h : WellFormed s L) (k : Key) (v : Val)
    (hk : k ∉ L.map Cell.key) (fuel : Nat) (hf : s.length ≤ fuel) :
    ∃ s1, SymTable_put allocOK fuel s k v = .ok (s1, 1)
      ∧ WellFormed s1 ({ addr := s.heap.length, key := k, val := v } :: L)
      ∧ s1.length = s.length + 1 ∧ s1.heap.length = s.heap.length + 1 := by
  refine ⟨{ heap := s.heap ++ [some { pcKey := k, pvValue := v, psNextNode := s.psFirstNode }],
            psFirstNode := some s.heap.length, length := s.length + 1 }, ?_, ?_, rfl,
            by simp⟩
  · unfold SymTable_put
    rw [h.list_contains k fuel hf]
    simp [hk, bind, Except.bind, allocOK]
  · refine ⟨rfl, ⟨?_, h.linked.append _⟩, ?_, ?_, ?_⟩
    · simp [h.head]
    · simp only [List.map_cons, List.nodup_cons]
      refine ⟨?_, h.addrs⟩
      intro hm
      obtain ⟨c, hc, hce⟩ := List.mem_map.1 hm
      have := h.linked.addr_lt c hc
      omega
    · simp only [List.map_cons, List.nodup_cons]
      exact ⟨hk, h.keys⟩
    · simp [h.count]

theorem WellFormed.list_put_present {s : State} {L : List Cell} (h : WellFormed s L) (al : Alloc) (k : Key)
    (v : Val) (hk : k ∈ L.map Cell.key) (fuel : Nat) (hf : s.length ≤ fuel) :
    SymTable_put al fuel s k v = .ok (s, 0) := by
  unfold SymTable_put
  rw [h.list_contains k fuel hf]
  simp [hk, bind, Except.bind]

theorem WellFormed.list_replace_present {s : State} {L : List Cell} (h : WellFormed s L) (k : Key) (v : Val)
    (c : Cell) (hc : lookup k L = some c) (fuel : Nat) (hf : s.length ≤ fuel) :
    ∃ s1, SymTable_replace fuel s k v = .ok (s1, c.val) ∧ WellFormed s1 (replaceFirst k v L) := by
  have hlen : L.length ≤ fuel := by rw [← h.count]; exact hf
  have hk : k ∈ L.map Cell.key := by
    by_contra hn
    rw [(lookup_eq_none_iff k L).2 hn] at hc
    cases hc
  obtain ⟨heap1, h1, h2, _⟩ := replaceLoop_linked h.linked h.addrs k v fuel hlen
  refine ⟨{ s with heap := heap1 }, ?_, ?_⟩
  · unfold SymTable_replace
    rw [h.list_contains k fuel hf, h.head]
    simp [hk, bind, Except.bind, h1, hc]
  · refine ⟨?_, h2, ?_, ?_, ?_⟩
    · simp [h.head, headOf_replaceFirst]
    · rw [map_addr_replaceFirst]; exact h.addrs
    · rw [map_key_replaceFirst]; exact h.keys
    · simp [h.count, length_replaceFirst]

theorem WellFormed.list_replace_absent {s : State} {L : List Cell} (h : WellFormed s L) (k : Key) (v : Val)
    (hk : k ∉ L.map Cell.key) (fuel : Nat) (hf : s.length ≤ fuel) :
    SymTable_replace fuel s k v = .ok (s, 0) := by
  unfold SymTable_replace
  rw [h.list_contains k fuel hf]
  simp [hk, bind, Except.bind]

theorem WellFormed.list_remove_absent {s : State} {L : List Cell} (h : WellFormed s L) (abi : ABI) (k : Key)
    (hk : k ∉ L.map Cell.key) (fuel : Nat) (hf : s.length ≤ fuel) :
    SymTable_remove abi fuel s k = .ok (s, 0) := by
  unfold SymTable_remove
  rw [h.list_contains k fuel hf]
  simp [hk, bind, Except.bind]

theorem WellFormed.list_remove_present {s : State} {L : List Cell} (h : WellFormed s L) (abi : ABI) (k : Key)
    (c : Cell) (hc : lookup k L = some c) (fuel : Nat) (hf : s.length ≤ fuel) :
    ∃ s1, SymTable_remove abi fuel s k = .ok (s1, c.val) ∧ WellFormed s1 (removeFirst k L)
      ∧ s1.length + 1 = s.length := by
  have hlen : L.length ≤ fuel := by rw [← h.count]; exact hf
  have hk : k ∈ L.map Cell.key := by
    by_contra hn
    rw [(lookup_eq_none_iff k L).2 hn] at hc
    cases hc
  have hperm := removeFirst_perm hc
  have hpos : s.length = (removeFirst k L).length + 1 := by
    rw [h.count, hperm.length_eq]; rfl
  obtain ⟨heap1, h1, h2, _⟩ := removeLoop_linked h.linked h.addrs k c hc fuel hlen
  refine ⟨{ heap := heap1, psFirstNode := headOf (removeFirst k L),
            length := sizeDec abi s.length }, ?_, ?_, ?_⟩
  · unfold SymTable_remove
    rw [h.list_contains k fuel hf, h.head]
    simp [hk, bind, Except.bind, h1]
  · refine ⟨rfl, h2, ?_, ?_, ?_⟩
    · exact h.addrs.sublist ((removeFirst_sublist k L).map _)
    · exact h.keys.sublist ((removeFirst_sublist k L).map _)
    · simp [sizeDec, hpos]
  · simp [sizeDec, hpos]

theorem WellFormed.list_map {s : State} {L : List Cell} (h : WellFormed s L) (fuel : Nat)
    (hf : s.length ≤ fuel) : SymTable_map fuel s = .ok (bindings L) := by
  unfold SymTable_map
  rw [h.head]
  exact mapLoop_linked h.linked fuel (by rw [← h.count]; exact hf)

end LinkedList
end SymTable

namespace SymTable

theorem flatten_perm_of_get {α : Type} {B : List (List α)} {i : Nat} {L : List α}
    (h : B[i]? = some L) : B.flatten.Perm (L ++ (B.eraseIdx i).flatten) := by
  induction B generalizing i with
  | nil => simp at h
  | cons M B ih =>
    cases i with
    | zero =>
      simp at h
      subst h
      simp
    | succ i =>
      simp at h
      simp only [List.flatten_cons, List.eraseIdx_cons_succ]
      have := (ih h).append_left M
      refine this.trans ?_
      rw [← List.append_assoc, ← List.append_assoc]
      exact List.Perm.append_right _ List.perm_append_comm

theorem flatten_set_perm {α : Type} {B : List (List α)} {i : Nat} (hi : i < B.length)
    (L1 : List α) : (B.set i L1).flatten.Perm (L1 ++ (B.eraseIdx i).flatten) := by
  induction B generalizing i with
  | nil => simp at hi
  | cons M B ih =>
    cases i with
    | zero => simp
    | succ i =>
      simp only [List.set_cons_succ, List.flatten_cons, List.eraseIdx_cons_succ]
      have hi2 : i < B.length := by simpa using hi
      have := (ih hi2).append_left M
      refine this.trans ?_
      rw [← List.append_assoc, ← List.append_assoc]
      exact List.Perm.append_right _ List.perm_append_comm

theorem mem_flatten_of_get {α : Type} {B : List (List α)} {i : Nat} {L : List α}
    (h : B[i]? = some L) {x : α} (hx : x ∈ L) : x ∈ B.flatten :=
  List.mem_flatten.2 ⟨L, List.getElem?_mem h, hx⟩

theorem exists_get_of_mem_flatten {α : Type} {B : List (List α)} {x : α}
    (hx : x ∈ B.flatten) : ∃ (i : Nat) (L : List α), B[i]? = some L ∧ x ∈ L := by
  obtain ⟨L, hL, hxL⟩ := List.mem_flatten.1 hx
  obtain ⟨i, hi⟩ := List.getElem?_of_mem hL
  exact ⟨i, L, hi, hxL⟩

namespace Hash

theorem stage_pos {c n : Nat} (h : auBucketCounts[c]? = some n) : 0 < n := by
  have hc : c < 8 := by
    by_contra hn
    rw [List.getElem?_eq_none (by simpa [auBucketCounts] using hn)] at h
    cases h
  interval_cases c <;> simp [auBucketCounts] at h <;> omega

theorem hash_lt (abi : ABI) (k : Key) {n : Nat} (hn : 0 < n) : SymTable_hash abi k n < n :=
  Nat.mod_lt _ hn

theorem WellFormed.stageCount {abi : ABI} {s : State} {B : List (List Cell)} (h : WellFormed abi s B) :
    stageCount s.counter = .ok B.length := by
  simp [Hash.stageCount, h.stage]

theorem WellFormed.length_pos {abi : ABI} {s : State} {B : List (List Cell)} (h : WellFormed abi s B) :
    0 < B.length := stage_pos h.stage

theorem WellFormed.get_chain {abi : ABI} {s : State} {B : List (List Cell)} (h : WellFormed abi s B)
    (k : Key) : B[SymTable_hash abi k B.length]? = some (chainOf abi B k) := by
  have hlt := hash_lt abi k h.length_pos
  simp [chainOf, List.getElem?_eq_getElem hlt]

theorem WellFormed.readBucket {abi : ABI} {s : State} {B : List (List Cell)} (h : WellFormed abi s B)
    (k : Key) :
    readBucket s.ppsSymNode (SymTable_hash abi k B.length) = .ok (headOf (chainOf abi B k)) := by
  simp [SymTable.readBucket, h.heads, List.getElem?_map, h.get_chain k]

theorem WellFormed.chain_length_le {abi : ABI} {s : State} {B : List (List Cell)} (h : WellFormed abi s B)
    (k : Key) : (chainOf abi B k).length ≤ s.length := by
  rw [h.count, (flatten_perm_of_get (h.get_chain k)).length_eq]
  simp

theorem WellFormed.mem_chain_of_mem {abi : ABI} {s : State} {B : List (List Cell)} (h : WellFormed abi s B)
    {c : Cell} (hc : c ∈ B.flatten) : c ∈ chainOf abi B c.key := by
  obtain ⟨i, L, hi, hcL⟩ := exists_get_of_mem_flatten hc
  have := h.placed i L hi c hcL
  have h2 := h.get_chain c.key
  rw [this, hi] at h2
  cases h2
  exact hcL

theorem WellFormed.key_mem_iff {abi : ABI} {s : State} {B : List (List Cell)} (h : WellFormed abi s B)
    (k : Key) : k ∈ (chainOf abi B k).map Cell.key ↔ k ∈ B.flatten.map Cell.key := by
  constructor
  · intro hk
    obtain ⟨c, hc, hck⟩ := List.mem_map.1 hk
    rw [← hck]
    exact List.mem_map_of_mem _ (mem_flatten_of_get (h.get_chain _) hc)
  · intro hk
    obtain ⟨c, hc, rfl⟩ := List.mem_map.1 hk
    exact List.mem_map_of_mem _ (h.mem_chain_of_mem hc)

theorem WellFormed.chain_keys_nodup {abi : ABI} {s : State} {B : List (List Cell)} (h : WellFormed abi s B)
    (k : Key) : ((chainOf abi B k).map Cell.key).Nodup := by
  have hp := (flatten_perm_of_get (h.get_chain k)).map Cell.key
  have := hp.nodup_iff.1 h.keys
  rw [List.map_append] at this
  exact (List.nodup_append.1 this).1

theorem WellFormed.chain_addrs_nodup {abi : ABI} {s : State} {B : List (List Cell)} (h : WellFormed abi s B)
    (k : Key) : ((chainOf abi B k).map Cell.addr).Nodup := by
  have hp := (flatten_perm_of_get (h.get_chain k)).map Cell.addr
  have := hp.nodup_iff.1 h.addrs
  rw [List.map_append] at this
  exact (List.nodup_append.1 this).1

theorem WellFormed.chain_lookup_of_mem {abi : ABI} {s : State} {B : List (List Cell)} (h : WellFormed abi s B)
    {c : Cell} (hc : c ∈ B.flatten) : lookup c.key (chainOf abi B c.key) = some c :=
  SymTable.lookup_of_mem (h.chain_keys_nodup c.key) (h.mem_chain_of_mem hc)

theorem WellFormed.lookup_absent {abi : ABI} {s : State} {B : List (List Cell)} (h : WellFormed abi s B)
    {k : Key} (hk : k ∉ B.flatten.map Cell.key) : lookup k (chainOf abi B k) = none :=
  (lookup_eq_none_iff k _).2 (fun hm => hk ((h.key_mem_iff k).1 hm))

theorem WellFormed.contains {abi : ABI} {s : State} {B : List (List Cell)} (h : WellFormed abi s B)
    (k : Key) (fuel : Nat) (hf : s.length ≤ fuel) :
    SymTable_contains abi fuel s k = .ok (if k ∈ B.flatten.map Cell.key then 1 else 0) := by
  have hlen : (chainOf abi B k).length ≤ fuel := le_trans (h.chain_length_le k) hf
  have hl := containsLoop_linked (h.linked _ _ (h.get_chain k)) k fuel hlen
  unfold SymTable_contains
  simp only [h.stageCount, bind, Except.bind, h.readBucket k]
  have hiff := h.key_mem_iff k
  cases hh : headOf (chainOf abi B k) with
  | none =>
    have h0 : chainOf abi B k = [] := (headOf_eq_none_iff _).1 hh
    rw [h0] at hiff
    have : k ∉ B.flatten.map Cell.key := fun hm => by simpa using hiff.2 hm
    simp only [this, if_false]
  | some a =>
    rw [hh] at hl
    simp only [hl]
    by_cases hk : k ∈ (chainOf abi B k).map Cell.key
    · simp only [hk, hiff.1 hk, if_true]
    · have : k ∉ B.flatten.map Cell.key := fun hm => hk (hiff.2 hm)
      simp only [hk, this, if_false]

theorem WellFormed.get {abi : ABI} {s : State} {B : List (List Cell)} (h : WellFormed abi s B)
    (k : Key) (fuel : Nat) (hf : s.length ≤ fuel) :
    SymTable_get abi fuel s k
      = .ok (match lookup k (chainOf abi B k) with | some c => c.val | none => 0) := by
  have hlen : (chainOf abi B k).length ≤ fuel := le_trans (h.chain_length_le k) hf
  unfold SymTable_get
  rw [h.contains k fuel hf]
  by_cases hk : k ∈ B.flatten.map Cell.key
  · simp only [hk, if_true, bind, Except.bind, h.stageCount, h.readBucket k]
    simpa using getLoop_linked (h.linked _ _ (h.get_chain k)) k fuel hlen
  · rw [if_neg hk, h.lookup_absent hk]
    rfl

theorem WellFormed.put_present {abi : ABI} {s : State} {B : List (List Cell)} (h : WellFormed abi s B)
    (al : Alloc) (k : Key) (v : Val) (hk : k ∈ B.flatten.map Cell.key) (fuel : Nat)
    (hf : s.length ≤ fuel) : SymTable_put abi al fuel s k v = .ok (s, 0) := by
  unfold SymTable_put
  rw [h.contains k fuel hf, if_pos hk]
  rfl

theorem WellFormed.replace_absent {abi : ABI} {s : State} {B : List (List Cell)} (h : WellFormed abi s B)
    (k : Key) (v : Val) (hk : k ∉ B.flatten.map Cell.key) (fuel : Nat)
    (hf : s.length ≤ fuel) : SymTable_replace abi fuel s k v = .ok (s, 0) := by
  unfold SymTable_replace
  rw [h.contains k fuel hf, if_neg hk]
  rfl

theorem WellFormed.remove_absent {abi : ABI} {s : State} {B : List (List Cell)} (h : WellFormed abi s B)
    (k : Key) (hk : k ∉ B.flatten.map Cell.key) (fuel : Nat)
    (hf : s.length ≤ fuel) : SymTable_remove abi fuel s k = .ok (s, 0) := by
  unfold SymTable_remove
  rw [h.contains k fuel hf, if_neg hk]
  rfl

end Hash
end SymTable

namespace SymTable
namespace Hash

theorem WellFormed.rest_mem {abi : ABI} {s : State} {B : List (List Cell)} (_h : WellFormed abi s B)
    (k : Key) {i : Nat} {L : List Cell} (hi : i ≠ SymTable_hash abi k B.length)
    (hL : B[i]? = some L) {c : Cell} (hc : c ∈ L) :
    c ∈ (B.eraseIdx (SymTable_hash abi k B.length)).flatten :=
  List.mem_flatten.2 ⟨L, List.mem_eraseIdx_iff_getElem?.2 ⟨i, hi, hL⟩, hc⟩

theorem WellFormed.split_addrs {abi : ABI} {s : State} {B : List (List Cell)} (h : WellFormed abi s B)
    (k : Key) :
    ((chainOf abi B k ++ (B.eraseIdx (SymTable_hash abi k B.length)).flatten).map
      Cell.addr).Nodup :=
  ((flatten_perm_of_get (h.get_chain k)).map Cell.addr).nodup_iff.1 h.addrs

theorem WellFormed.split_keys {abi : ABI} {s : State} {B : List (List Cell)} (h : WellFormed abi s B)
    (k : Key) :
    ((chainOf abi B k ++ (B.eraseIdx (SymTable_hash abi k B.length)).flatten).map
      Cell.key).Nodup :=
  ((flatten_perm_of_get (h.get_chain k)).map Cell.key).nodup_iff.1 h.keys

theorem WellFormed.split_length {abi : ABI} {s : State} {B : List (List Cell)} (h : WellFormed abi s B)
    (k : Key) :
    s.length = (chainOf abi B k).length
      + (B.eraseIdx (SymTable_hash abi k B.length)).flatten.length := by
  rw [h.count, (flatten_perm_of_get (h.get_chain k)).length_eq, List.length_append]

theorem WellFormed.frame {abi : ABI} {s : State} {B : List (List Cell)} (h : WellFormed abi s B)
    (k : Key) (heap1 : Heap)
    (hsame : ∀ a, a ∉ (chainOf abi B k).map Cell.addr → heap1[a]? = s.heap[a]?) :
    ∀ (i : Nat) (L : List Cell), i ≠ SymTable_hash abi k B.length → B[i]? = some L →
      Linked heap1 L := by
  intro i L hi hL
  refine (h.linked i L hL).congr (fun c hc => hsame _ ?_)
  intro hm
  have hnd := h.split_addrs k
  rw [List.map_append] at hnd
  have hdis := (List.nodup_append.1 hnd).2.2
  exact hdis hm (List.mem_map_of_mem _ (h.rest_mem k hi hL hc))

theorem WellFormed.update {abi : ABI} {s : State} {B : List (List Cell)} (h : WellFormed abi s B)
    (k : Key) (L1 : List Cell) (heap1 : Heap) (len1 : Nat)
    (hlink : Linked heap1 L1)
    (hframe : ∀ (i : Nat) (L : List Cell), i ≠ SymTable_hash abi k B.length →
      B[i]? = some L → Linked heap1 L)
    (hplace : ∀ c ∈ L1, SymTable_hash abi c.key B.length = SymTable_hash abi k B.length)
    (haddr : ((L1 ++ (B.eraseIdx (SymTable_hash abi k B.length)).flatten).map
      Cell.addr).Nodup)
    (hkeys : ((L1 ++ (B.eraseIdx (SymTable_hash abi k B.length)).flatten).map
      Cell.key).Nodup)
    (hlen : len1 = L1.length + (B.eraseIdx (SymTable_hash abi k B.length)).flatten.length) :
    WellFormed abi
      { counter := s.counter, heap := heap1,
        ppsSymNode := s.ppsSymNode.set (SymTable_hash abi k B.length) (headOf L1),
        length := len1 }
      (B.set (SymTable_hash abi k B.length) L1) := by
  have hlt := hash_lt abi k h.length_pos
  have hperm := flatten_set_perm hlt L1
  refine ⟨?_, ?_, ?_, ?_, ?_, ?_, ?_⟩
  · simpa using h.stage
  · simp [h.heads, List.map_set]
  · intro i L hL
    rw [List.getElem?_set] at hL
    by_cases hi : SymTable_hash abi k B.length = i
    · simp only [hi, if_true] at hL
      split at hL
      · cases hL; exact hlink
      · cases hL
    · simp only [hi, if_false] at hL
      exact hframe i L (fun e => hi e.symm) hL
  · exact ((hperm.map Cell.addr).nodup_iff).2 haddr
  · exact ((hperm.map Cell.key).nodup_iff).2 hkeys
  · intro i L hL
    rw [List.getElem?_set] at hL
    rw [List.length_set]
    by_cases hi : SymTable_hash abi k B.length = i
    · simp only [hi, if_true] at hL
      split at hL
      · cases hL
        intro c hc
        rw [hplace c hc, hi]
      · cases hL
    · simp only [hi, if_false] at hL
      exact h.placed i L hL
  · simp only [hlen, hperm.length_eq, List.length_append]

theorem WellFormed.insert {abi : ABI} {s : State} {B : List (List Cell)} (h : WellFormed abi s B)
    (k : Key) (v : Val) (hk : k ∉ B.flatten.map Cell.key) :
    WellFormed abi
      { counter := s.counter,
        heap := s.heap ++ [some { pcKey := k, pvValue := v,
                                  psNextNode := headOf (chainOf abi B k) }],
        ppsSymNode := s.ppsSymNode.set (SymTable_hash abi k B.length) (some s.heap.length),
        length := s.length + 1 }
      (B.set (SymTable_hash abi k B.length)
        ({ addr := s.heap.length, key := k, val := v } :: chainOf abi B k)) := by
  have hnew : ∀ c ∈ B.flatten, c.addr ≠ s.heap.length := by
    intro c hc
    obtain ⟨i, L, hi, hcL⟩ := exists_get_of_mem_flatten hc
    have := (h.linked i L hi).addr_lt c hcL
    omega
  have hrest : ∀ c ∈ (B.eraseIdx (SymTable_hash abi k B.length)).flatten,
      c ∈ B.flatten := by
    intro c hc
    obtain ⟨L, hL, hcL⟩ := List.mem_flatten.1 hc
    exact List.mem_flatten.2 ⟨L, List.mem_of_mem_eraseIdx hL, hcL⟩
  have hchain : ∀ c ∈ chainOf abi B k, c ∈ B.flatten :=
    fun c hc => mem_flatten_of_get (h.get_chain k) hc
  have := h.update k ({ addr := s.heap.length, key := k, val := v } :: chainOf abi B k)
    (s.heap ++ [some { pcKey := k, pvValue := v, psNextNode := headOf (chainOf abi B k) }])
    (s.length + 1) ?_ ?_ ?_ ?_ ?_ ?_
  · simpa [headOf_cons] using this
  · refine ⟨?_, (h.linked _ _ (h.get_chain k)).append _⟩
    simp
  · intro i L _ hL
    exact (h.linked i L hL).append _
  · intro c hc
    rcases List.mem_cons.1 hc with rfl | hc
    · rfl
    · exact h.placed _ _ (h.get_chain k) c hc
  · rw [List.cons_append, List.map_cons, List.nodup_cons]
    refine ⟨?_, h.split_addrs k⟩
    intro hm
    obtain ⟨c, hc, hce⟩ := List.mem_map.1 hm
    rcases List.mem_append.1 hc with hc | hc
    · exact hnew c (hchain c hc) hce
    · exact hnew c (hrest c hc) hce
  · rw [List.cons_append, List.map_cons, List.nodup_cons]
    refine ⟨?_, h.split_keys k⟩
    intro hm
    apply hk
    obtain ⟨c, hc, hce⟩ := List.mem_map.1 hm
    have hce2 : c.key = k := hce
    rw [← hce2]
    rcases List.mem_append.1 hc with hc | hc
    · exact List.mem_map_of_mem _ (hchain c hc)
    · exact List.mem_map_of_mem _ (hrest c hc)
  · rw [h.split_length k]; simp; omega

theorem WellFormed.put_absent_of {abi : ABI} {s : State} {B : List (List Cell)} (h : WellFormed abi s B)
    (k : Key) (v : Val) (hk : k ∉ B.flatten.map Cell.key) (hsmall : s.length ≤ B.length)
    (fuel : Nat) (hc : SymTable_contains abi fuel s k = .ok 0) :
    ∃ s1, SymTable_put abi allocOK fuel s k v = .ok (s1, 1)
      ∧ WellFormed abi s1 (B.set (SymTable_hash abi k B.length)
          ({ addr := s.heap.length, key := k, val := v } :: chainOf abi B k))
      ∧ s1.length = s.length + 1 ∧ s1.counter = s.counter
      ∧ s1.heap.length = s.heap.length + 1 := by
  refine ⟨{ counter := s.counter,
            heap := s.heap ++ [some { pcKey := k, pvValue := v,
                                      psNextNode := headOf (chainOf abi B k) }],
            ppsSymNode := s.ppsSymNode.set (SymTable_hash abi k B.length) (some s.heap.length),
            length := s.length + 1 }, ?_, h.insert k v hk, rfl, rfl, by simp⟩
  unfold SymTable_put
  rw [hc]
  have hng : ¬ SymTable_getLength s > B.length := by
    simp only [SymTable_getLength]; omega
  simp only [bind, Except.bind, h.stageCount, hng, if_false, allocOK]
  simp only [h.stageCount, h.readBucket k]
  cases hh : headOf (chainOf abi B k) <;> simp

theorem WellFormed.put_absent {abi : ABI} {s : State} {B : List (List Cell)} (h : WellFormed abi s B)
    (k : Key) (v : Val) (hk : k ∉ B.flatten.map Cell.key) (hsmall : s.length ≤ B.length)
    (fuel : Nat) (hf : s.length ≤ fuel) :
    ∃ s1, SymTable_put abi allocOK fuel s k v = .ok (s1, 1)
      ∧ WellFormed abi s1 (B.set (SymTable_hash abi k B.length)
          ({ addr := s.heap.length, key := k, val := v } :: chainOf abi B k))
      ∧ s1.length = s.length + 1 ∧ s1.counter = s.counter
      ∧ s1.heap.length = s.heap.length + 1 :=
  h.put_absent_of k v hk hsmall fuel (by rw [h.contains k fuel hf, if_neg hk])

theorem WellFormed.put_perm {abi : ABI} {s : State} {B : List (List Cell)} (h : WellFormed abi s B)
    (k : Key) (c : Cell) :
    (B.set (SymTable_hash abi k B.length) (c :: chainOf abi B k)).flatten.Perm
      (c :: B.flatten) := by
  have h1 := flatten_set_perm (hash_lt abi k h.length_pos) (c :: chainOf abi B k)
  have h2 := flatten_perm_of_get (h.get_chain k)
  exact h1.trans ((h2.symm).cons c)

theorem WellFormed.replace_present {abi : ABI} {s : State} {B : List (List Cell)} (h : WellFormed abi s B)
    (k : Key) (v : Val) (c : Cell) (hc : lookup k (chainOf abi B k) = some c) (fuel : Nat)
    (hf : s.length ≤ fuel) :
    ∃ s1, SymTable_replace abi fuel s k v = .ok (s1, c.val)
      ∧ WellFormed abi s1 (B.set (SymTable_hash abi k B.length) (replaceFirst k v (chainOf abi B k)))
      ∧ s1.length = s.length ∧ s1.counter = s.counter := by
  have hlen : (chainOf abi B k).length ≤ fuel := le_trans (h.chain_length_le k) hf
  have hk : k ∈ B.flatten.map Cell.key := by
    by_contra hn
    rw [h.lookup_absent hn] at hc
    cases hc
  obtain ⟨heap1, h1, h2, h3⟩ := replaceLoop_linked (h.linked _ _ (h.get_chain k))
    (h.chain_addrs_nodup k) k v fuel hlen
  refine ⟨{ s with heap := heap1 }, ?_, ?_, rfl, rfl⟩
  · unfold SymTable_replace
    rw [h.contains k fuel hf, if_pos hk]
    simp [bind, Except.bind, h.stageCount, h.readBucket k, h1, hc]
  · have := h.update k (replaceFirst k v (chainOf abi B k)) heap1 s.length h2
      (h.frame k heap1 h3) ?_ ?_ ?_ ?_
    · have hset : s.ppsSymNode.set (SymTable_hash abi k B.length)
          (headOf (replaceFirst k v (chainOf abi B k))) = s.ppsSymNode := by
        rw [headOf_replaceFirst, h.heads]
        apply List.ext_getElem?
        intro i
        rw [List.getElem?_set]
        by_cases hi : SymTable_hash abi k B.length = i
        · subst hi
          simp [List.getElem?_map, h.get_chain k]
          exact hash_lt abi k h.length_pos
        · simp [hi]
      rw [hset] at this
      exact this
    · intro d hd
      have hmem : d.key ∈ (chainOf abi B k).map Cell.key := by
        rw [← map_key_replaceFirst k v]; exact List.mem_map_of_mem _ hd
      obtain ⟨e, he, hek⟩ := List.mem_map.1 hmem
      rw [← hek]
      exact h.placed _ _ (h.get_chain k) e he
    · rw [List.map_append, map_addr_replaceFirst, ← List.map_append]
      exact h.split_addrs k
    · rw [List.map_append, map_key_replaceFirst, ← List.map_append]
      exact h.split_keys k
    · rw [length_replaceFirst]; exact h.split_length k

theorem WellFormed.remove_present {abi : ABI} {s : State} {B : List (List Cell)} (h : WellFormed abi s B)
    (k : Key) (c : Cell) (hc : lookup k (chainOf abi B k) = some c) (fuel : Nat)
    (hf : s.length ≤ fuel) :
    ∃ s1, SymTable_remove abi fuel s k = .ok (s1, c.val)
      ∧ WellFormed abi s1 (B.set (SymTable_hash abi k B.length) (removeFirst k (chainOf abi B k)))
      ∧ s1.length + 1 = s.length ∧ s1.counter = s.counter := by
  have hlen : (chainOf abi B k).length ≤ fuel := le_trans (h.chain_length_le k) hf
  have hk : k ∈ B.flatten.map Cell.key := by
    by_contra hn
    rw [h.lookup_absent hn] at hc
    cases hc
  have hperm := removeFirst_perm hc
  have hsub := removeFirst_sublist k (chainOf abi B k)
  have hpos : s.length = (removeFirst k (chainOf abi B k)).length
      + (B.eraseIdx (SymTable_hash abi k B.length)).flatten.length + 1 := by
    rw [h.split_length k, hperm.length_eq]; simp; omega
  obtain ⟨heap1, h1, h2, h3⟩ := removeLoop_linked (h.linked _ _ (h.get_chain k))
    (h.chain_addrs_nodup k) k c hc fuel hlen
  refine ⟨{ s with heap := heap1,
                   ppsSymNode := s.ppsSymNode.set (SymTable_hash abi k B.length)
                     (headOf (removeFirst k (chainOf abi B k))),
                   length := sizeDec abi s.length }, ?_, ?_, ?_, rfl⟩
  · unfold SymTable_remove
    rw [h.contains k fuel hf, if_pos hk]
    simp [bind, Except.bind, h.stageCount, h.readBucket k, h1]
  · refine h.update k (removeFirst k (chainOf abi B k)) heap1 (sizeDec abi s.length) h2
      (h.frame k heap1 h3) ?_ ?_ ?_ ?_
    · intro d hd
      exact h.placed _ _ (h.get_chain k) d (hsub.subset hd)
    · exact (h.split_addrs k).sublist ((hsub.append_right _).map _)
    · exact (h.split_keys k).sublist ((hsub.append_right _).map _)
    · simp [sizeDec, hpos]
  · simp [sizeDec, hpos]

end Hash
end SymTable

namespace SymTable

theorem containsLoop_linked_any {heap : Heap} {L : List Cell} (h : Linked heap L) (k : Key)
    (fuel : Nat) :
    containsLoop fuel heap (headOf L) k = .error .fuel
      ∨ containsLoop fuel heap (headOf L) k = .ok (if k ∈ L.map Cell.key then 1 else 0) := by
  induction L generalizing fuel with
  | nil => right; simp [headOf_nil, containsLoop_none]
  | cons d rest ih =>
    cases fuel with
    | zero => left; rfl
    | succ fuel =>
      simp only [headOf_cons, containsLoop, readNode_of_get h.1]
      by_cases hk : d.key = k
      · right; simp [hk, bind, Except.bind]
      · have hk2 : ¬ k = d.key := fun e => hk e.symm
        simp only [hk, hk2, bind, Except.bind, List.map_cons, List.mem_cons, false_or, if_false]
        exact ih h.2 fuel

namespace Hash

theorem WellFormed.empty (abi : ABI) (counter n : Nat) (heap : Heap)
    (hn : auBucketCounts[counter]? = some n) :
    WellFormed abi
      { counter := counter, heap := heap, ppsSymNode := List.replicate n none, length := 0 }
      (List.replicate n []) := by
  have hflat : (List.replicate n ([] : List Cell)).flatten = [] := by
    rw [List.flatten_eq_nil_iff]
    intro L hL
    exact List.eq_of_mem_replicate hL
  refine ⟨by simpa using hn, ?_, ?_, ?_, ?_, ?_, ?_⟩
  · simp [headOf_nil]
  · intro i L hL
    rw [List.eq_of_mem_replicate (List.getElem?_mem hL)]
    trivial
  · rw [hflat]; exact List.nodup_nil
  · rw [hflat]; exact List.nodup_nil
  · intro i L hL c hc
    rw [List.eq_of_mem_replicate (List.getElem?_mem hL)] at hc
    cases hc
  · rw [hflat]; rfl

theorem WellFormed.new (abi : ABI) (heap : Heap) :
    ∃ s, SymTable_new true true 0 heap = some s ∧ WellFormed abi s (List.replicate 509 [])
      ∧ s.length = 0 ∧ s.counter = 0 ∧ s.heap = heap :=
  ⟨{ counter := 0, heap := heap, ppsSymNode := List.replicate 509 none, length := 0 },
    rfl, WellFormed.empty abi 0 509 heap rfl, rfl, rfl, rfl⟩

theorem WellFormed.length_le_of_get {abi : ABI} {s : State} {B : List (List Cell)}
    (h : WellFormed abi s B) {i : Nat} {L : List Cell} (hL : B[i]? = some L) :
    L.length ≤ s.length := by
  rw [h.count, (flatten_perm_of_get hL).length_eq]
  simp

theorem WellFormed.mapBuckets {abi : ABI} {s : State} {B : List (List Cell)} (h : WellFormed abi s B)
    (fuel : Nat) (hf : s.length ≤ fuel) :
    ∀ (todo i : Nat), i + todo = B.length →
      mapBuckets fuel s todo i = .ok (bindings (B.drop i).flatten) := by
  intro todo
  induction todo with
  | zero =>
    intro i hi
    simp only [Nat.add_zero] at hi
    simp [Hash.mapBuckets, hi, bindings]
  | succ todo ih =>
    intro i hi
    have hlt : i < B.length := by omega
    have hget : B[i]? = some B[i] := List.getElem?_eq_getElem hlt
    have hrb : SymTable.readBucket s.ppsSymNode i = .ok (headOf B[i]) := by
      simp [SymTable.readBucket, h.heads, List.getElem?_map, hget]
    have hml := mapLoop_linked (h.linked i _ hget) fuel (le_trans (h.length_le_of_get hget) hf)
    simp only [Hash.mapBuckets, hrb, bind, Except.bind, hml, ih (i + 1) (by omega)]
    rw [List.drop_eq_getElem_cons hlt]
    simp only [bindings, List.flatten_cons, List.map_append]

theorem WellFormed.map {abi : ABI} {s : State} {B : List (List Cell)} (h : WellFormed abi s B)
    (fuel : Nat) (hf : s.length ≤ fuel) :
    SymTable_map fuel s = .ok (bindings B.flatten) := by
  unfold SymTable_map
  simp only [h.stageCount, bind, Except.bind]
  simpa using h.mapBuckets fuel hf B.length 0 (by simp)

theorem WellFormed.contains_any {abi : ABI} {s : State} {B : List (List Cell)} (h : WellFormed abi s B)
    (k : Key) (fuel : Nat) :
    SymTable_contains abi fuel s k = .error .fuel
      ∨ SymTable_contains abi fuel s k
          = .ok (if k ∈ B.flatten.map Cell.key then 1 else 0) := by
  have hl := containsLoop_linked_any (h.linked _ _ (h.get_chain k)) k fuel
  unfold SymTable_contains
  simp only [h.stageCount, bind, Except.bind, h.readBucket k]
  have hiff := h.key_mem_iff k
  cases hh : headOf (chainOf abi B k) with
  | none =>
    have h0 : chainOf abi B k = [] := (headOf_eq_none_iff _).1 hh
    rw [h0] at hiff
    have : k ∉ B.flatten.map Cell.key := fun hm => by simpa using hiff.2 hm
    right
    simp only [this, if_false]
  | some a =>
    rw [hh] at hl
    rcases hl with hl | hl
    · left; simp only [hl]
    · right
      simp only [hl]
      by_cases hk : k ∈ (chainOf abi B k).map Cell.key
      · simp only [hk, hiff.1 hk, if_true]
      · have : k ∉ B.flatten.map Cell.key := fun hm => hk (hiff.2 hm)
        simp only [hk, this, if_false]

/-! ### The expansion never completes -/

theorem deleteLoop_frame (abi : ABI) (k : Key) (hashCode : Nat) :
    ∀ (fuel : Nat) (s : State) (cur : Option Nat) (s1 : State) (r : Int),
      deleteLoop abi fuel s hashCode cur k = .ok (s1, r) →
      s1.ppsSymNode.length = s.ppsSymNode.length ∧ s1.counter = s.counter := by
  intro fuel
  induction fuel with
  | zero =>
    intro s cur s1 r h
    cases cur with
    | none => simp [deleteLoop] at h; rw [← h.1]; exact ⟨rfl, rfl⟩
    | some c => simp [deleteLoop] at h
  | succ fuel ih =>
    intro s cur s1 r h
    cases cur with
    | none => simp [deleteLoop] at h; rw [← h.1]; exact ⟨rfl, rfl⟩
    | some c =>
      simp only [deleteLoop, bind, Except.bind] at h
      split at h
      · cases h
      · rename_i node _
        split at h
        · split at h
          · cases h
          · rename_i head _
            cases head with
            | none => cases h
            | some hd =>
              simp only at h
              split at h
              · cases h
              · split at h
                · simp at h; rw [← h.1]; simp
                · simp at h; rw [← h.1]; simp
        · exact ih s _ s1 r h

theorem SymTable_delete_frame (abi : ABI) (fuel : Nat) (s : State) (k : Key) (hashCode : Nat)
    (s1 : State) (r : Int) (h : SymTable_delete abi fuel s k hashCode = .ok (s1, r)) :
    s1.ppsSymNode.length = s.ppsSymNode.length ∧ s1.counter = s.counter := by
  simp only [SymTable_delete, bind, Except.bind] at h
  split at h
  · cases h
  · exact deleteLoop_frame abi k hashCode fuel s _ s1 r h

theorem rehashChain_frame (abi : ABI) (k : Key) :
    ∀ (fuel : Nat) (s : State) (m : Buckets) (cur : Option Nat) (s1 : State) (m1 : Buckets),
      rehashChain abi k fuel s m cur = .ok (s1, m1) →
      s1.ppsSymNode.length = s.ppsSymNode.length ∧ s1.counter = s.counter := by
  intro fuel
  induction fuel with
  | zero =>
    intro s m cur s1 m1 h
    cases cur with
    | none => simp [rehashChain] at h; rw [← h.1]; exact ⟨rfl, rfl⟩
    | some c => simp [rehashChain] at h
  | succ fuel ih =>
    intro s m cur s1 m1 h
    cases cur with
    | none => simp [rehashChain] at h; rw [← h.1]; exact ⟨rfl, rfl⟩
    | some c =>
      simp only [rehashChain, bind, Except.bind] at h
      split at h
      · cases h
      · split at h
        · cases h
        · split at h
          · cases h
          · split at h
            · cases h
            · rename_i ins _
              split at h
              · cases h
              · rename_i del hdel
                split at h
                · cases h
                · have h1 := SymTable_delete_frame abi fuel _ k _ del.1 del.2 hdel
                  have h2 := ih _ _ _ s1 m1 h
                  exact ⟨h2.1.trans h1.1, h2.2.trans h1.2⟩

theorem rehashBuckets_fails (abi : ABI) (k : Key) (fuel : Nat) :
    ∀ (todo i : Nat) (s : State) (m : Buckets), i ≤ s.ppsSymNode.length →
      s.ppsSymNode.length < i + todo → ∀ r, rehashBuckets abi k fuel todo i s m ≠ .ok r := by
  intro todo
  induction todo with
  | zero => intro i s m hle hlt; omega
  | succ todo ih =>
    intro i s m hle hlt r h
    simp only [rehashBuckets, bind, Except.bind] at h
    split at h
    · cases h
    · rename_i head hhead
      have hi : i < s.ppsSymNode.length := by
        by_contra hn
        simp [SymTable.readBucket, List.getElem?_eq_none (Nat.le_of_not_lt hn)] at hhead
      split at h
      · cases h
      · rename_i st hst
        have hfr := rehashChain_frame abi k fuel s m head st.1 st.2 hst
        exact ih (i + 1) st.1 st.2 (by rw [hfr.1]; omega) (by rw [hfr.1]; omega) r h

end Hash
end SymTable

namespace SymTable

theorem sampleKey_injective : Function.Injective sampleKey := by
  intro i j h
  simp only [sampleKey, List.cons.injEq, and_true] at h
  have h1 := Nat.div_add_mod i 255
  have h2 := Nat.div_add_mod j 255
  omega

theorem sampleBindings_keys_nodup (n : Nat) : ((sampleBindings n).map Prod.fst).Nodup := by
  simp only [sampleBindings, List.map_map]
  exact (List.nodup_range n).map sampleKey_injective

theorem sampleBindings_length (n : Nat) : (sampleBindings n).length = n := by
  simp [sampleBindings]

namespace Hash

theorem stage_strict {c n m : Nat} (hn : auBucketCounts[c]? = some n)
    (hm : auBucketCounts[c + 1]? = some m) : n < m := by
  have hc : c + 1 < 8 := by
    by_contra hlt
    rw [List.getElem?_eq_none (by simpa [auBucketCounts] using hlt)] at hm
    cases hm
  have hc7 : c < 7 := by omega
  interval_cases c <;> simp [auBucketCounts] at hn hm <;> omega

theorem expand_fails (abi : ABI) (al : Alloc) (fuel : Nat) (s : State) (k : Key)
    (hal : al.bucketArray = true) {n : Nat} (hn : auBucketCounts[s.counter]? = some n)
    (hlen : s.ppsSymNode.length = n) : ∀ r, expand abi al fuel s k ≠ .ok r := by
  intro r h
  simp only [expand, bind, Except.bind] at h
  split at h
  · cases h
  · rename_i m hm
    simp only [hal, Bool.true_eq_false, if_false] at h
    have hm2 : auBucketCounts[s.counter + 1]? = some m := by
      simp only [stageCount] at hm
      split at hm
      · rename_i x hx; cases hm; exact hx
      · cases hm
    have hlt := stage_strict hn hm2
    split at h
    · cases h
    · rename_i st hst
      exact rehashBuckets_fails abi k fuel m 0 _ _ (Nat.zero_le _)
        (by simp only [hlen]; omega) st hst

theorem WellFormed.put_grow_fails {abi : ABI} {s : State} {B : List (List Cell)} (h : WellFormed abi s B)
    (k : Key) (v : Val) (hk : k ∉ B.flatten.map Cell.key) (hbig : B.length < s.length)
    (al : Alloc) (hal : al.bucketArray = true) (fuel : Nat) :
    ∀ r, SymTable_put abi al fuel s k v ≠ .ok r := by
  intro r hr
  unfold SymTable_put at hr
  rcases h.contains_any k fuel with hc | hc
  · rw [hc] at hr; cases hr
  · rw [hc, if_neg hk] at hr
    have hg : SymTable_getLength s > B.length := hbig
    have h01 : ¬ ((0 : Int) = 1) := by decide
    simp only [bind, Except.bind, h.stageCount, hg, if_true, h01, if_false] at hr
    have hlen : s.ppsSymNode.length = B.length := by simp [h.heads]
    split at hr
    · cases hr
    · rename_i s2 hs2
      exact expand_fails abi al fuel s k hal h.stage hlen s2 hs2

theorem run_cons (abi : ABI) (al : Alloc) (fuel : Nat) (s : State) (op : Op) (ops : List Op) :
    run abi al fuel s (op :: ops) = (do
      let (s1, r) ← step abi al fuel s op
      let (s2, rs) ← run abi al fuel s1 ops
      .ok (s2, r :: rs)) := rfl

/-- Successive insertions of new keys while no expansion is due. -/
theorem WellFormed.run_puts {abi : ABI} (fuel : Nat) :
    ∀ (kvs : List (Key × Val)) (s : State) (B : List (List Cell)), WellFormed abi s B →
      (kvs.map Prod.fst).Nodup → (∀ kv ∈ kvs, kv.1 ∉ B.flatten.map Cell.key) →
      s.length + kvs.length ≤ B.length + 1 →
      (run abi allocOK fuel s (putOps kvs) = .error .fuel ∧ fuel < s.length + kvs.length)
      ∨ ∃ s1, run abi allocOK fuel s (putOps kvs)
            = .ok (s1, List.replicate kvs.length (Res.int 1))
          ∧ WellFormed abi s1 (chainsAfter abi B s.heap.length kvs)
          ∧ (chainsAfter abi B s.heap.length kvs).length = B.length
          ∧ s1.length = s.length + kvs.length
          ∧ s1.counter = s.counter
          ∧ (∀ c ∈ B.flatten, c ∈ (chainsAfter abi B s.heap.length kvs).flatten)
          ∧ (∀ kv ∈ kvs, ∃ c ∈ (chainsAfter abi B s.heap.length kvs).flatten,
                c.key = kv.1 ∧ c.val = kv.2)
          ∧ (∀ k, k ∈ (chainsAfter abi B s.heap.length kvs).flatten.map Cell.key →
                k ∈ B.flatten.map Cell.key ∨ k ∈ kvs.map Prod.fst) := by
  intro kvs
  induction kvs with
  | nil =>
    intro s B h _ _ _
    right
    exact ⟨s, rfl, h, rfl, rfl, rfl, fun c hc => hc, fun kv hkv => (by cases hkv),
      fun k hk => Or.inl hk⟩
  | cons kv rest ih =>
    intro s B h hnd hdis hsmall
    have hnd2 : kv.1 ∉ rest.map Prod.fst ∧ (rest.map Prod.fst).Nodup := by simpa using hnd
    have hkv : kv.1 ∉ B.flatten.map Cell.key := hdis kv (List.mem_cons_self _ _)
    have hlen : (kv :: rest).length = rest.length + 1 := rfl
    have hs : s.length ≤ B.length := by omega
    have hcont : (SymTable_contains abi fuel s kv.1 = .error .fuel ∧ fuel < s.length)
        ∨ SymTable_contains abi fuel s kv.1 = .ok 0 := by
      by_cases hf : s.length ≤ fuel
      · right; rw [h.contains kv.1 fuel hf, if_neg hkv]
      · rcases h.contains_any kv.1 fuel with hc | hc
        · left; exact ⟨hc, by omega⟩
        · right; rw [hc, if_neg hkv]
    rcases hcont with ⟨hc, hlt⟩ | hc
    · left
      refine ⟨?_, by omega⟩
      simp only [putOps, List.map_cons, run_cons, step, SymTable_put, hc, bind, Except.bind]
    · obtain ⟨s1, hput, hrep1, hl1, hc1, hh1⟩ := h.put_absent_of kv.1 kv.2 hkv hs fuel hc
      have hperm := h.put_perm kv.1 { addr := s.heap.length, key := kv.1, val := kv.2 }
      have hdis1 : ∀ kv1 ∈ rest, kv1.1 ∉ (B.set (SymTable_hash abi kv.1 B.length)
          ({ addr := s.heap.length, key := kv.1, val := kv.2 } :: chainOf abi B kv.1)).flatten.map
          Cell.key := by
        intro kv1 hkv1 hm
        have hm2 := ((hperm.map Cell.key).mem_iff).1 hm
        rcases List.mem_cons.1 hm2 with he | hm3
        · apply hnd2.1
          have he2 : kv1.1 = kv.1 := he
          rw [← he2]
          exact List.mem_map_of_mem _ hkv1
        · exact hdis kv1 (List.mem_cons_of_mem _ hkv1) hm3
      have hstep : run abi allocOK fuel s (putOps (kv :: rest)) = (do
          let (s2, rs) ← run abi allocOK fuel s1 (putOps rest)
          .ok (s2, Res.int 1 :: rs)) := by
        simp only [putOps, List.map_cons, run_cons, step, hput, bind, Except.bind]
      have hunf : chainsAfter abi B s.heap.length (kv :: rest)
          = chainsAfter abi (B.set (SymTable_hash abi kv.1 B.length)
              ({ addr := s.heap.length, key := kv.1, val := kv.2 } :: chainOf abi B kv.1))
              s1.heap.length rest := by
        rw [hh1]; rfl
      rw [hunf]
      rcases ih s1 _ hrep1 hnd2.2 hdis1 (by rw [hl1, List.length_set]; omega) with
        ⟨he, hlt⟩ | ⟨s2, hrun, hrep2, hB2, hl2, hc2, hold, hnew, hkeys⟩
      · left
        refine ⟨?_, by rw [hl1] at hlt; omega⟩
        rw [hstep, he]; rfl
      · right
        refine ⟨s2, ?_, hrep2, ?_, ?_, ?_, ?_, ?_, ?_⟩
        · rw [hstep, hrun]; rfl
        · rw [hB2, List.length_set]
        · rw [hl2, hl1]; omega
        · rw [hc2, hc1]
        · intro c hc
          exact hold c (hperm.mem_iff.2 (List.mem_cons_of_mem _ hc))
        · intro kv1 hkv1
          rcases List.mem_cons.1 hkv1 with rfl | hkv1
          · exact ⟨_, hold _ (hperm.mem_iff.2 (List.mem_cons_self _ _)), rfl, rfl⟩
          · exact hnew kv1 hkv1
        · intro k hk
          rcases hkeys k hk with hk1 | hk1
          · have hm2 := ((hperm.map Cell.key).mem_iff).1 hk1
            rcases List.mem_cons.1 hm2 with he | hm3
            · right
              have he2 : k = kv.1 := he
              rw [he2]; simp
            · exact Or.inl hm3
          · right; simp only [List.map_cons, List.mem_cons]; exact Or.inr hk1

/-- One insertion too many: the run does not complete. -/
theorem WellFormed.run_puts_overflow {abi : ABI} (fuel : Nat) :
    ∀ (kvs : List (Key × Val)) (s : State) (B : List (List Cell)), WellFormed abi s B →
      (kvs.map Prod.fst).Nodup → (∀ kv ∈ kvs, kv.1 ∉ B.flatten.map Cell.key) →
      s.length ≤ B.length + 1 → B.length + 1 < s.length + kvs.length →
      ∀ r, run abi allocOK fuel s (putOps kvs) ≠ .ok r := by
  intro kvs
  induction kvs with
  | nil => intro s B _ _ _ h1 h2; simp at h2; omega
  | cons kv rest ih =>
    intro s B h hnd hdis h1 h2 r hr
    have hnd2 : kv.1 ∉ rest.map Prod.fst ∧ (rest.map Prod.fst).Nodup := by simpa using hnd
    have hkv : kv.1 ∉ B.flatten.map Cell.key := hdis kv (List.mem_cons_self _ _)
    simp only [putOps, List.map_cons, run_cons, step, bind, Except.bind] at hr
    split at hr
    · cases hr
    · rename_i st hst
      split at hst
      · cases hst
      · rename_i pr hput
        by_cases hbig : B.length < s.length
        · exact h.put_grow_fails kv.1 kv.2 hkv hbig allocOK rfl fuel pr hput
        · have hs : s.length ≤ B.length := by omega
          have hc : SymTable_contains abi fuel s kv.1 = .ok 0 := by
            rcases h.contains_any kv.1 fuel with hc | hc
            · simp only [SymTable_put, hc, bind, Except.bind] at hput
              cases hput
            · rw [hc, if_neg hkv]
          obtain ⟨s1, hput1, hrep1, hl1, _, _⟩ := h.put_absent_of kv.1 kv.2 hkv hs fuel hc
          have hperm := h.put_perm kv.1 { addr := s.heap.length, key := kv.1, val := kv.2 }
          rw [hput1] at hput
          cases hput
          cases hst
          simp only at hr
          split at hr
          · cases hr
          · rename_i st2 hst2
            refine ih s1 _ hrep1 hnd2.2 ?_ (by rw [hl1, List.length_set]; omega)
              (by rw [hl1, List.length_set]; simp at h2; omega) st2 hst2
            intro kv1 hkv1 hm
            have hm2 := ((hperm.map Cell.key).mem_iff).1 hm
            rcases List.mem_cons.1 hm2 with he | hm3
            · apply hnd2.1
              have he2 : kv1.1 = kv.1 := he
              rw [← he2]
              exact List.mem_map_of_mem _ hkv1
            · exact hdis kv1 (List.mem_cons_of_mem _ hkv1) hm3

theorem freshTable_repr (abi : ABI) : WellFormed abi freshTable (List.replicate 509 []) :=
  WellFormed.empty abi 0 509 [] rfl

end Hash
end SymTable

namespace SymTable

namespace LinkedList

theorem list_run_cons (abi : ABI) (al : Alloc) (fuel : Nat) (s : State) (op : Op) (ops : List Op) :
    run abi al fuel s (op :: ops) = (do
      let (s1, r) ← step abi al fuel s op
      let (s2, rs) ← run abi al fuel s1 ops
      .ok (s2, r :: rs)) := rfl

theorem WellFormed.list_run_puts (abi : ABI) (fuel : Nat) :
    ∀ (kvs : List (Key × Val)) (s : State) (L : List Cell), WellFormed s L →
      (kvs.map Prod.fst).Nodup → (∀ kv ∈ kvs, kv.1 ∉ L.map Cell.key) →
      s.length + kvs.length ≤ fuel →
      ∃ s1, run abi allocOK fuel s (putOps kvs) = .ok (s1, List.replicate kvs.length (Res.int 1))
        ∧ WellFormed s1 (chainAfter L s.heap.length kvs)
        ∧ s1.length = s.length + kvs.length
        ∧ (∀ c ∈ L, c ∈ chainAfter L s.heap.length kvs)
        ∧ (∀ kv ∈ kvs, ∃ c ∈ chainAfter L s.heap.length kvs, c.key = kv.1 ∧ c.val = kv.2) := by
  intro kvs
  induction kvs with
  | nil =>
    intro s L h _ _ _
    exact ⟨s, rfl, h, rfl, fun c hc => hc, fun kv hkv => (by cases hkv)⟩
  | cons kv rest ih =>
    intro s L h hnd hdis hf
    have hnd2 : kv.1 ∉ rest.map Prod.fst ∧ (rest.map Prod.fst).Nodup := by simpa using hnd
    have hkv : kv.1 ∉ L.map Cell.key := hdis kv (List.mem_cons_self _ _)
    have hlen : (kv :: rest).length = rest.length + 1 := rfl
    obtain ⟨s1, hput, hrep1, hl1, hh1⟩ := h.list_put_absent kv.1 kv.2 hkv fuel (by omega)
    have hdis1 : ∀ kv1 ∈ rest,
        kv1.1 ∉ ({ addr := s.heap.length, key := kv.1, val := kv.2 } :: L).map Cell.key := by
      intro kv1 hkv1 hm
      rcases List.mem_cons.1 hm with he | hm3
      · apply hnd2.1
        have he2 : kv1.1 = kv.1 := he
        rw [← he2]
        exact List.mem_map_of_mem _ hkv1
      · exact hdis kv1 (List.mem_cons_of_mem _ hkv1) hm3
    have hstep : run abi allocOK fuel s (putOps (kv :: rest)) = (do
        let (s2, rs) ← run abi allocOK fuel s1 (putOps rest)
        .ok (s2, Res.int 1 :: rs)) := by
      simp only [putOps, List.map_cons, list_run_cons, step, hput, bind, Except.bind]
    have hunf : chainAfter L s.heap.length (kv :: rest)
        = chainAfter ({ addr := s.heap.length, key := kv.1, val := kv.2 } :: L)
            s1.heap.length rest := by
      rw [hh1]; rfl
    rw [hunf]
    obtain ⟨s2, hrun, hrep2, hl2, hold, hnew⟩ := ih s1 _ hrep1 hnd2.2 hdis1 (by omega)
    refine ⟨s2, ?_, hrep2, ?_, ?_, ?_⟩
    · rw [hstep, hrun]; rfl
    · rw [hl2, hl1]; omega
    · intro c hc
      exact hold c (List.mem_cons_of_mem _ hc)
    · intro kv1 hkv1
      rcases List.mem_cons.1 hkv1 with rfl | hkv1
      · exact ⟨_, hold _ (List.mem_cons_self _ _), rfl, rfl⟩
      · exact hnew kv1 hkv1

theorem list_freshTable_repr : WellFormed freshTable [] :=
  ⟨rfl, trivial, List.nodup_nil, List.nodup_nil, rfl⟩

/-- The table reached by inserting distinct keys into the fresh table. -/
theorem list_built_repr (abi : ABI) (kvs : List (Key × Val)) (hnd : (kvs.map Prod.fst).Nodup)
    (fuel : Nat) (hf : kvs.length ≤ fuel) :
    run abi allocOK fuel freshTable (putOps kvs)
        = .ok (stateAfter abi allocOK fuel freshTable (putOps kvs),
               List.replicate kvs.length (Res.int 1))
      ∧ WellFormed (stateAfter abi allocOK fuel freshTable (putOps kvs)) (chainAfter [] 0 kvs)
      ∧ (stateAfter abi allocOK fuel freshTable (putOps kvs)).length = kvs.length
      ∧ (∀ kv ∈ kvs, ∃ c ∈ chainAfter [] 0 kvs, c.key = kv.1 ∧ c.val = kv.2) := by
  obtain ⟨s1, hrun, hrep, hl, _, hnew⟩ := WellFormed.list_run_puts abi fuel kvs _ _ list_freshTable_repr hnd
    (fun kv _ hm => by cases hm) (by simpa [freshTable] using hf)
  have hst : stateAfter abi allocOK fuel freshTable (putOps kvs) = s1 := by
    simp only [stateAfter, hrun]
  rw [hst]
  exact ⟨hrun, hrep, by simpa [freshTable] using hl, hnew⟩

end LinkedList

namespace Hash

theorem chainOf_set (abi : ABI) (B : List (List Cell)) (i : Nat) (hi : i < B.length)
    (L1 : List Cell) (k : Key) :
    chainOf abi (B.set i L1) k
      = if SymTable_hash abi k B.length = i then L1 else chainOf abi B k := by
  unfold chainOf
  rw [List.length_set, List.getElem?_set]
  by_cases h : i = SymTable_hash abi k B.length
  · subst h
    simp [hi]
  · have h2 : ¬ SymTable_hash abi k B.length = i := fun e => h e.symm
    simp [h, h2]

/-- The table reached by inserting at most 510 distinct keys into the fresh table. -/
theorem built_repr (abi : ABI) (kvs : List (Key × Val)) (hnd : (kvs.map Prod.fst).Nodup)
    (hlen : kvs.length ≤ 510) (fuel : Nat) (hf : kvs.length ≤ fuel) :
    run abi allocOK fuel freshTable (putOps kvs)
        = .ok (stateAfter abi allocOK fuel freshTable (putOps kvs),
               List.replicate kvs.length (Res.int 1))
      ∧ WellFormed abi (stateAfter abi allocOK fuel freshTable (putOps kvs))
          (chainsAfter abi (List.replicate 509 []) 0 kvs)
      ∧ (chainsAfter abi (List.replicate 509 []) 0 kvs).length = 509
      ∧ (stateAfter abi allocOK fuel freshTable (putOps kvs)).length = kvs.length
      ∧ (∀ kv ∈ kvs, ∃ c ∈ (chainsAfter abi (List.replicate 509 []) 0 kvs).flatten,
            c.key = kv.1 ∧ c.val = kv.2)
      ∧ (∀ k, k ∈ (chainsAfter abi (List.replicate 509 []) 0 kvs).flatten.map Cell.key →
            k ∈ kvs.map Prod.fst) := by
  have hflat : (List.replicate 509 ([] : List Cell)).flatten = [] := by
    rw [List.flatten_eq_nil_iff]
    intro L hL
    exact List.eq_of_mem_replicate hL
  have hl509 : (List.replicate 509 ([] : List Cell)).length = 509 := List.length_replicate _ _
  rcases WellFormed.run_puts fuel kvs _ _ (freshTable_repr abi) hnd
      (fun kv _ hm => by rw [hflat] at hm; cases hm)
      (by rw [hl509]; show 0 + kvs.length ≤ 509 + 1; omega) with
    ⟨_, hlt⟩ | ⟨s1, hrun, hrep, hB, hl, _, _, hnew, hkeys⟩
  · have h0 : freshTable.length = 0 := rfl
    rw [h0] at hlt; omega
  · have hst : stateAfter abi allocOK fuel freshTable (putOps kvs) = s1 := by
      simp only [stateAfter, hrun]
    have h0 : freshTable.heap.length = 0 := rfl
    have h1 : freshTable.length = 0 := rfl
    rw [h0] at hrep hB hnew hkeys
    rw [hst]
    refine ⟨hrun, hrep, by rw [hB, hl509], by rw [hl, h1]; omega, hnew, ?_⟩
    intro k hk
    rcases hkeys k hk with h1 | h1
    · rw [hflat] at h1; cases h1
    · exact h1

end Hash
end SymTable

namespace SymTable

theorem sampleTwo_nodup : (sampleTwo.map Prod.fst).Nodup := by decide

namespace Hash

theorem twoTable_facts :
    WellFormed abi64 twoTable twoChains ∧ twoTable.length = 2
      ∧ (∀ kv ∈ sampleTwo, ∃ c ∈ twoChains.flatten, c.key = kv.1 ∧ c.val = kv.2)
      ∧ (∀ k, k ∈ twoChains.flatten.map Cell.key → k ∈ sampleTwo.map Prod.fst) := by
  obtain ⟨_, h2, _, h4, h5, h6⟩ :=
    built_repr abi64 sampleTwo sampleTwo_nodup (by decide) 2 (by decide)
  exact ⟨h2, h4, h5, h6⟩

theorem WellFormed.get_of_mem {abi : ABI} {s : State} {B : List (List Cell)} (h : WellFormed abi s B)
    {k : Key} {v : Val} (hb : ∃ c ∈ B.flatten, c.key = k ∧ c.val = v) (fuel : Nat)
    (hf : s.length ≤ fuel) : SymTable_get abi fuel s k = .ok v := by
  obtain ⟨c, hc, rfl, rfl⟩ := hb
  rw [h.get c.key fuel hf, h.chain_lookup_of_mem hc]

theorem WellFormed.key_mem_of_bound {B : List (List Cell)} {k : Key} {v : Val}
    (hb : ∃ c ∈ B.flatten, c.key = k ∧ c.val = v) : k ∈ B.flatten.map Cell.key := by
  obtain ⟨c, hc, rfl, _⟩ := hb
  exact List.mem_map_of_mem _ hc

end Hash

namespace LinkedList

theorem list_twoTable_facts :
    WellFormed twoTable twoChain ∧ twoTable.length = 2
      ∧ (∀ kv ∈ sampleTwo, ∃ c ∈ twoChain, c.key = kv.1 ∧ c.val = kv.2) := by
  obtain ⟨_, h2, h3, h4⟩ := list_built_repr abi64 sampleTwo sampleTwo_nodup 2 (by decide)
  exact ⟨h2, h3, h4⟩

theorem WellFormed.list_get_of_mem {s : State} {L : List Cell} (h : WellFormed s L)
    {k : Key} {v : Val} (hb : ∃ c ∈ L, c.key = k ∧ c.val = v) (fuel : Nat)
    (hf : s.length ≤ fuel) : SymTable_get fuel s k = .ok v := by
  obtain ⟨c, hc, rfl, rfl⟩ := hb
  rw [h.list_get c.key fuel hf, lookup_of_mem h.keys hc]

theorem WellFormed.list_key_mem_of_bound {L : List Cell} {k : Key} {v : Val}
    (hb : ∃ c ∈ L, c.key = k ∧ c.val = v) : k ∈ L.map Cell.key := by
  obtain ⟨c, hc, rfl, _⟩ := hb
  exact List.mem_map_of_mem _ hc

end LinkedList

/-- C4. In both backends, `SymTable_put` of a key that a well-formed table already
binds returns `0` and hands back the very same table: counter, bucket array,
storage and length are untouched (so no expansion is started, whatever the
outcome of allocations would be), and `SymTable_get` still returns the old value. -/
theorem put_existing_key_rejected (abi : ABI) (al : Alloc) (fuel : Nat) (k : Key) (v1 v2 : Val)
    (s : Hash.State) (B : List (List Cell)) (hs : Hash.WellFormed abi s B)
    (hb : ∃ c ∈ B.flatten, c.key = k ∧ c.val = v1) (hf : s.length ≤ fuel)
    (t : LinkedList.State) (L : List Cell) (ht : LinkedList.WellFormed t L)
    (hl : ∃ c ∈ L, c.key = k ∧ c.val = v1) (hg : t.length ≤ fuel) :
    (Hash.SymTable_put abi al fuel s k v2 = .ok (s, 0)
        ∧ Hash.SymTable_get abi fuel s k = .ok v1)
      ∧ (LinkedList.SymTable_put al fuel t k v2 = .ok (t, 0)
        ∧ LinkedList.SymTable_get fuel t k = .ok v1) :=
  ⟨⟨hs.put_present al k v2 (Hash.WellFormed.key_mem_of_bound hb) fuel hf, hs.get_of_mem hb fuel hf⟩,
   ⟨ht.list_put_present al k v2 (LinkedList.WellFormed.list_key_mem_of_bound hl) fuel hg,
    ht.list_get_of_mem hl fuel hg⟩⟩

theorem put_existing_key_rejected_witness :
    (Hash.WellFormed abi64 Hash.twoTable Hash.twoChains
      ∧ (∃ c ∈ Hash.twoChains.flatten, c.key = [97] ∧ c.val = 1)
      ∧ LinkedList.WellFormed LinkedList.twoTable LinkedList.twoChain
      ∧ (∃ c ∈ LinkedList.twoChain, c.key = [97] ∧ c.val = 1))
    ∧ ((Hash.SymTable_put abi64 allocOK 2 Hash.twoTable [97] 3 = .ok (Hash.twoTable, 0)
        ∧ Hash.SymTable_get abi64 2 Hash.twoTable [97] = .ok 1)
      ∧ (LinkedList.SymTable_put allocOK 2 LinkedList.twoTable [97] 3
            = .ok (LinkedList.twoTable, 0)
        ∧ LinkedList.SymTable_get 2 LinkedList.twoTable [97] = .ok 1)) :=
  have hH := Hash.twoTable_facts
  have hL := LinkedList.list_twoTable_facts
  have hbH := hH.2.2.1 ([97], 1) (by decide)
  have hbL := hL.2.2 ([97], 1) (by decide)
  ⟨⟨hH.1, hbH, hL.1, hbL⟩,
   put_existing_key_rejected abi64 allocOK 2 [97] 1 3 Hash.twoTable Hash.twoChains hH.1 hbH
     (by rw [hH.2.1]) LinkedList.twoTable LinkedList.twoChain hL.1 hbL (by rw [hL.2.1])⟩

/-- C7. In both backends, on a well-formed table that does not bind `k`,
`SymTable_get`, `SymTable_replace` and `SymTable_remove` return `NULL`, and the
two mutators hand back the very same table (same length, same bindings). -/
theorem absent_key_operations_are_noops (abi : ABI) (fuel : Nat) (k : Key) (v : Val)
    (s : Hash.State) (B : List (List Cell)) (hs : Hash.WellFormed abi s B)
    (hk : k ∉ B.flatten.map Cell.key) (hf : s.length ≤ fuel)
    (t : LinkedList.State) (L : List Cell) (ht : LinkedList.WellFormed t L)
    (hl : k ∉ L.map Cell.key) (hg : t.length ≤ fuel) :
    (Hash.SymTable_get abi fuel s k = .ok 0
        ∧ Hash.SymTable_replace abi fuel s k v = .ok (s, 0)
        ∧ Hash.SymTable_remove abi fuel s k = .ok (s, 0))
      ∧ (LinkedList.SymTable_get fuel t k = .ok 0
        ∧ LinkedList.SymTable_replace fuel t k v = .ok (t, 0)
        ∧ LinkedList.SymTable_remove abi fuel t k = .ok (t, 0)) := by
  refine ⟨⟨?_, hs.replace_absent k v hk fuel hf, hs.remove_absent k hk fuel hf⟩,
    ⟨?_, ht.list_replace_absent k v hl fuel hg, ht.list_remove_absent abi k hl fuel hg⟩⟩
  · rw [hs.get k fuel hf, hs.lookup_absent hk]
  · rw [ht.list_get k fuel hg, (lookup_eq_none_iff k L).2 hl]

theorem absent_key_operations_are_noops_witness :
    (Hash.WellFormed abi64 Hash.twoTable Hash.twoChains
      ∧ [99] ∉ Hash.twoChains.flatten.map Cell.key
      ∧ LinkedList.WellFormed LinkedList.twoTable LinkedList.twoChain
      ∧ [99] ∉ LinkedList.twoChain.map Cell.key)
    ∧ ((Hash.SymTable_get abi64 2 Hash.twoTable [99] = .ok 0
        ∧ Hash.SymTable_replace abi64 2 Hash.twoTable [99] 7 = .ok (Hash.twoTable, 0)
        ∧ Hash.SymTable_remove abi64 2 Hash.twoTable [99] = .ok (Hash.twoTable, 0))
      ∧ (LinkedList.SymTable_get 2 LinkedList.twoTable [99] = .ok 0
        ∧ LinkedList.SymTable_replace 2 LinkedList.twoTable [99] 7
            = .ok (LinkedList.twoTable, 0)
        ∧ LinkedList.SymTable_remove abi64 2 LinkedList.twoTable [99]
            = .ok (LinkedList.twoTable, 0))) :=
  have hH := Hash.twoTable_facts
  have hL := LinkedList.list_twoTable_facts
  have hkH : [99] ∉ Hash.twoChains.flatten.map Cell.key :=
    fun hm => absurd (hH.2.2.2 [99] hm) (by decide)
  have hkL : [99] ∉ LinkedList.twoChain.map Cell.key := by decide
  ⟨⟨hH.1, hkH, hL.1, hkL⟩,
   absent_key_operations_are_noops abi64 2 [99] 7 Hash.twoTable Hash.twoChains hH.1 hkH
     (by rw [hH.2.1]) LinkedList.twoTable LinkedList.twoChain hL.1 hkL (by rw [hL.2.1])⟩

end SymTable

namespace SymTable

set_option maxRecDepth 100000 in
theorem example_run_hash :
    resultsOf (Hash.run abi64 allocOK 2 Hash.freshTable exampleOps) = some exampleResults := by
  decide

theorem example_run_list :
    resultsOf (LinkedList.run abi64 allocOK 2 LinkedList.freshTable exampleOps)
      = some exampleResults := by
  decide

namespace Hash

theorem WellFormed.remove_spec {abi : ABI} {s : State} {B : List (List Cell)} (hs : WellFormed abi s B)
    {k : Key} {v : Val} (hb : ∃ c ∈ B.flatten, c.key = k ∧ c.val = v) (fuel : Nat)
    (hf : s.length ≤ fuel) :
    ∃ s1, SymTable_remove abi fuel s k = .ok (s1, v)
      ∧ SymTable_getLength s1 + 1 = SymTable_getLength s
      ∧ SymTable_contains abi fuel s1 k = .ok 0
      ∧ SymTable_get abi fuel s1 k = .ok 0
      ∧ WellFormed abi s1 (B.set (SymTable_hash abi k B.length) (removeFirst k (chainOf abi B k))) := by
  obtain ⟨c, hc, rfl, rfl⟩ := hb
  obtain ⟨s1, hrem, hrep, hlen, _⟩ :=
    hs.remove_present c.key c (hs.chain_lookup_of_mem hc) fuel hf
  have hf1 : s1.length ≤ fuel := by omega
  have hlt := hash_lt abi c.key hs.length_pos
  have hchain : chainOf abi (B.set (SymTable_hash abi c.key B.length)
      (removeFirst c.key (chainOf abi B c.key))) c.key
        = removeFirst c.key (chainOf abi B c.key) := by
    rw [chainOf_set abi B _ hlt, if_pos rfl]
  have hnot : c.key ∉ (B.set (SymTable_hash abi c.key B.length)
      (removeFirst c.key (chainOf abi B c.key))).flatten.map Cell.key := by
    intro hm
    have := (hrep.key_mem_iff c.key).2 hm
    rw [hchain] at this
    exact key_not_mem_removeFirst (hs.chain_keys_nodup c.key) this
  refine ⟨s1, hrem, hlen, ?_, ?_, hrep⟩
  · rw [hrep.contains c.key fuel hf1, if_neg hnot]
  · rw [hrep.get c.key fuel hf1, hrep.lookup_absent hnot]

theorem WellFormed.replace_spec {abi : ABI} {s : State} {B : List (List Cell)} (hs : WellFormed abi s B)
    {k : Key} {v1 : Val} (hb : ∃ c ∈ B.flatten, c.key = k ∧ c.val = v1) (v2 : Val)
    (fuel : Nat) (hf : s.length ≤ fuel) :
    ∃ s1, SymTable_replace abi fuel s k v2 = .ok (s1, v1)
      ∧ SymTable_get abi fuel s1 k = .ok v2
      ∧ SymTable_getLength s1 = SymTable_getLength s
      ∧ (∀ k1, k1 ≠ k → SymTable_get abi fuel s1 k1 = SymTable_get abi fuel s k1)
      ∧ WellFormed abi s1
          (B.set (SymTable_hash abi k B.length) (replaceFirst k v2 (chainOf abi B k))) := by
  obtain ⟨c, hc, rfl, rfl⟩ := hb
  have hlook := hs.chain_lookup_of_mem hc
  obtain ⟨s1, hrepl, hrep, hlen, _⟩ := hs.replace_present c.key v2 c hlook fuel hf
  have hf1 : s1.length ≤ fuel := by omega
  have hlt := hash_lt abi c.key hs.length_pos
  refine ⟨s1, hrepl, ?_, hlen, ?_, hrep⟩
  · rw [hrep.get c.key fuel hf1, chainOf_set abi B _ hlt, if_pos rfl,
      lookup_replaceFirst_self v2 hlook]
  · intro k1 hne
    rw [hrep.get k1 fuel hf1, hs.get k1 fuel hf, chainOf_set abi B _ hlt]
    by_cases hh : SymTable_hash abi k1 B.length = SymTable_hash abi c.key B.length
    · rw [if_pos hh, lookup_replaceFirst_ne hne]
      have : chainOf abi B k1 = chainOf abi B c.key := by
        unfold chainOf; rw [hh]
      rw [this]
    · rw [if_neg hh]

end Hash

namespace LinkedList

theorem WellFormed.list_remove_spec {s : State} {L : List Cell} (hs : WellFormed s L) (abi : ABI)
    {k : Key} {v : Val} (hb : ∃ c ∈ L, c.key = k ∧ c.val = v) (fuel : Nat)
    (hf : s.length ≤ fuel) :
    ∃ s1, SymTable_remove abi fuel s k = .ok (s1, v)
      ∧ SymTable_getLength s1 + 1 = SymTable_getLength s
      ∧ SymTable_contains fuel s1 k = .ok 0
      ∧ SymTable_get fuel s1 k = .ok 0
      ∧ WellFormed s1 (removeFirst k L) := by
  obtain ⟨c, hc, rfl, rfl⟩ := hb
  obtain ⟨s1, hrem, hrep, hlen⟩ :=
    hs.list_remove_present abi c.key c (lookup_of_mem hs.keys hc) fuel hf
  have hf1 : s1.length ≤ fuel := by omega
  have hnot : c.key ∉ (removeFirst c.key L).map Cell.key := key_not_mem_removeFirst hs.keys
  refine ⟨s1, hrem, hlen, ?_, ?_, hrep⟩
  · rw [hrep.list_contains c.key fuel hf1, if_neg hnot]
  · rw [hrep.list_get c.key fuel hf1, (lookup_eq_none_iff _ _).2 hnot]

theorem WellFormed.list_replace_spec {s : State} {L : List Cell} (hs : WellFormed s L)
    {k : Key} {v1 : Val} (hb : ∃ c ∈ L, c.key = k ∧ c.val = v1) (v2 : Val)
    (fuel : Nat) (hf : s.length ≤ fuel) :
    ∃ s1, SymTable_replace fuel s k v2 = .ok (s1, v1)
      ∧ SymTable_get fuel s1 k = .ok v2
      ∧ SymTable_getLength s1 = SymTable_getLength s
      ∧ (∀ k1, k1 ≠ k → SymTable_get fuel s1 k1 = SymTable_get fuel s k1)
      ∧ WellFormed s1 (replaceFirst k v2 L) := by
  obtain ⟨c, hc, rfl, rfl⟩ := hb
  have hlook := lookup_of_mem hs.keys hc
  obtain ⟨s1, hrepl, hrep⟩ := hs.list_replace_present c.key v2 c hlook fuel hf
  have hlen : s1.length = s.length := by
    rw [hrep.count, hs.count, length_replaceFirst]
  have hf1 : s1.length ≤ fuel := by omega
  refine ⟨s1, hrepl, ?_, hlen, ?_, hrep⟩
  · rw [hrep.list_get c.key fuel hf1, lookup_replaceFirst_self v2 hlook]
  · intro k1 hne
    rw [hrep.list_get k1 fuel hf1, hs.list_get k1 fuel hf, lookup_replaceFirst_ne hne]

end LinkedList

/-- C5. In both backends, `SymTable_remove` of a key that a well-formed table binds
to `v` (wherever its node sits in its chain) returns `v`, the length goes down by
exactly one, and afterwards `SymTable_contains` gives `0` and `SymTable_get` gives
`NULL` for that key; the table stays well-formed, its chain having lost that node. -/
theorem remove_present_key (abi : ABI) (fuel : Nat) (k : Key) (v : Val)
    (s : Hash.State) (B : List (List Cell)) (hs : Hash.WellFormed abi s B)
    (hb : ∃ c ∈ B.flatten, c.key = k ∧ c.val = v) (hf : s.length ≤ fuel)
    (t : LinkedList.State) (L : List Cell) (ht : LinkedList.WellFormed t L)
    (hl : ∃ c ∈ L, c.key = k ∧ c.val = v) (hg : t.length ≤ fuel) :
    (∃ s1, Hash.SymTable_remove abi fuel s k = .ok (s1, v)
        ∧ Hash.SymTable_getLength s1 + 1 = Hash.SymTable_getLength s
        ∧ Hash.SymTable_contains abi fuel s1 k = .ok 0
        ∧ Hash.SymTable_get abi fuel s1 k = .ok 0
        ∧ Hash.WellFormed abi s1
            (B.set (SymTable_hash abi k B.length) (removeFirst k (Hash.chainOf abi B k))))
      ∧ (∃ t1, LinkedList.SymTable_remove abi fuel t k = .ok (t1, v)
        ∧ LinkedList.SymTable_getLength t1 + 1 = LinkedList.SymTable_getLength t
        ∧ LinkedList.SymTable_contains fuel t1 k = .ok 0
        ∧ LinkedList.SymTable_get fuel t1 k = .ok 0
        ∧ LinkedList.WellFormed t1 (removeFirst k L)) :=
  ⟨hs.remove_spec hb fuel hf, ht.list_remove_spec abi hl fuel hg⟩

theorem remove_present_key_witness :
    (Hash.WellFormed abi64 Hash.twoTable Hash.twoChains
      ∧ (∃ c ∈ Hash.twoChains.flatten, c.key = [97] ∧ c.val = 1)
      ∧ LinkedList.WellFormed LinkedList.twoTable LinkedList.twoChain
      ∧ (∃ c ∈ LinkedList.twoChain, c.key = [97] ∧ c.val = 1))
    ∧ ((∃ s1, Hash.SymTable_remove abi64 2 Hash.twoTable [97] = .ok (s1, 1)
        ∧ Hash.SymTable_getLength s1 + 1 = Hash.SymTable_getLength Hash.twoTable
        ∧ Hash.SymTable_contains abi64 2 s1 [97] = .ok 0
        ∧ Hash.SymTable_get abi64 2 s1 [97] = .ok 0
        ∧ Hash.WellFormed abi64 s1
            (Hash.twoChains.set (SymTable_hash abi64 [97] Hash.twoChains.length)
              (removeFirst [97] (Hash.chainOf abi64 Hash.twoChains [97]))))
      ∧ (∃ t1, LinkedList.SymTable_remove abi64 2 LinkedList.twoTable [97] = .ok (t1, 1)
        ∧ LinkedList.SymTable_getLength t1 + 1
            = LinkedList.SymTable_getLength LinkedList.twoTable
        ∧ LinkedList.SymTable_contains 2 t1 [97] = .ok 0
        ∧ LinkedList.SymTable_get 2 t1 [97] = .ok 0
        ∧ LinkedList.WellFormed t1 (removeFirst [97] LinkedList.twoChain))) :=
  have hH := Hash.twoTable_facts
  have hL := LinkedList.list_twoTable_facts
  have hbH := hH.2.2.1 ([97], 1) (by decide)
  have hbL := hL.2.2 ([97], 1) (by decide)
  ⟨⟨hH.1, hbH, hL.1, hbL⟩,
   remove_present_key abi64 2 [97] 1 Hash.twoTable Hash.twoChains hH.1 hbH
     (by rw [hH.2.1]) LinkedList.twoTable LinkedList.twoChain hL.1 hbL (by rw [hL.2.1])⟩

/-- C6. In both backends, `SymTable_replace` of a key that a well-formed table binds
to `v1` returns `v1`; afterwards `SymTable_get` of that key returns the new value
`v2`, the length is unchanged, and `SymTable_get` of every other key returns what
it returned before. The example of the specification (put a=1, put b=2, put a=3
rejected, get a = 1, replace a by 3 returns 1, get a = 3, remove b returns 2,
length 1) runs as stated on both backends. -/
theorem replace_present_key (abi : ABI) (fuel : Nat) (k : Key) (v1 v2 : Val)
    (s : Hash.State) (B : List (List Cell)) (hs : Hash.WellFormed abi s B)
    (hb : ∃ c ∈ B.flatten, c.key = k ∧ c.val = v1) (hf : s.length ≤ fuel)
    (t : LinkedList.State) (L : List Cell) (ht : LinkedList.WellFormed t L)
    (hl : ∃ c ∈ L, c.key = k ∧ c.val = v1) (hg : t.length ≤ fuel) :
    (∃ s1, Hash.SymTable_replace abi fuel s k v2 = .ok (s1, v1)
        ∧ Hash.SymTable_get abi fuel s1 k = .ok v2
        ∧ Hash.SymTable_getLength s1 = Hash.SymTable_getLength s
        ∧ (∀ k1, k1 ≠ k → Hash.SymTable_get abi fuel s1 k1 = Hash.SymTable_get abi fuel s k1)
        ∧ Hash.WellFormed abi s1
            (B.set (SymTable_hash abi k B.length) (replaceFirst k v2 (Hash.chainOf abi B k))))
      ∧ (∃ t1, LinkedList.SymTable_replace fuel t k v2 = .ok (t1, v1)
        ∧ LinkedList.SymTable_get fuel t1 k = .ok v2
        ∧ LinkedList.SymTable_getLength t1 = LinkedList.SymTable_getLength t
        ∧ (∀ k1, k1 ≠ k → LinkedList.SymTable_get fuel t1 k1 = LinkedList.SymTable_get fuel t k1)
        ∧ LinkedList.WellFormed t1 (replaceFirst k v2 L))
      ∧ resultsOf (Hash.run abi64 allocOK 2 Hash.freshTable exampleOps) = some exampleResults
      ∧ resultsOf (LinkedList.run abi64 allocOK 2 LinkedList.freshTable exampleOps)
          = some exampleResults :=
  ⟨hs.replace_spec hb v2 fuel hf, ht.list_replace_spec hl v2 fuel hg, example_run_hash,
    example_run_list⟩

theorem replace_present_key_witness :
    (Hash.WellFormed abi64 Hash.twoTable Hash.twoChains
      ∧ (∃ c ∈ Hash.twoChains.flatten, c.key = [97] ∧ c.val = 1)
      ∧ LinkedList.WellFormed LinkedList.twoTable LinkedList.twoChain
      ∧ (∃ c ∈ LinkedList.twoChain, c.key = [97] ∧ c.val = 1))
    ∧ (∃ s1, Hash.SymTable_replace abi64 2 Hash.twoTable [97] 3 = .ok (s1, 1)
        ∧ Hash.SymTable_get abi64 2 s1 [97] = .ok 3)
    ∧ (∃ t1, LinkedList.SymTable_replace 2 LinkedList.twoTable [97] 3 = .ok (t1, 1)
        ∧ LinkedList.SymTable_get 2 t1 [97] = .ok 3) :=
  have hH := Hash.twoTable_facts
  have hL := LinkedList.list_twoTable_facts
  have hbH := hH.2.2.1 ([97], 1) (by decide)
  have hbL := hL.2.2 ([97], 1) (by decide)
  have h := replace_present_key abi64 2 [97] 1 3 Hash.twoTable Hash.twoChains hH.1 hbH
     (by rw [hH.2.1]) LinkedList.twoTable LinkedList.twoChain hL.1 hbL (by rw [hL.2.1])
  ⟨⟨hH.1, hbH, hL.1, hbL⟩,
   h.1.elim (fun s1 h1 => ⟨s1, h1.1, h1.2.1⟩),
   h.2.1.elim (fun t1 h1 => ⟨t1, h1.1, h1.2.1⟩)⟩

end SymTable

namespace SymTable

namespace Hash

theorem fullTable_facts :
    WellFormed abi64 fullTable fullChains ∧ fullChains.length = 509 ∧ fullTable.length = 510
      ∧ (∀ k, k ∈ fullChains.flatten.map Cell.key →
            k ∈ (sampleBindings 510).map Prod.fst) := by
  obtain ⟨_, h2, h3, h4, _, h6⟩ :=
    built_repr abi64 (sampleBindings 510) (sampleBindings_keys_nodup 510)
      (by rw [sampleBindings_length]) 510 (by rw [sampleBindings_length])
  rw [sampleBindings_length] at h4
  exact ⟨h2, h3, h4, h6⟩

theorem getLength_eq (s : State) : SymTable_getLength s = s.length := rfl

theorem sampleKey_not_in_full (i : Nat) (hi : 510 ≤ i) :
    sampleKey i ∉ fullChains.flatten.map Cell.key := by
  intro hm
  have := fullTable_facts.2.2.2 _ hm
  simp only [sampleBindings, List.map_map, List.mem_map, List.mem_range] at this
  obtain ⟨j, hj, he⟩ := this
  have := sampleKey_injective he
  omega

end Hash

/-- C9. Starting from the table `SymTable_new` returns at program start (`counter`
is `0`, 509 buckets), putting 510 pairwise distinct keys in order returns `1` every
time; afterwards `SymTable_getLength` is 510 and `SymTable_get` returns for every
key the value it was put with. No expansion takes place during these 510 calls:
the length exceeds 509 only once the 510th call has returned. -/
theorem put_510_distinct_keys (abi : ABI) (heap : Heap) (s0 : Hash.State)
    (hnew : Hash.SymTable_new true true 0 heap = some s0) (kvs : List (Key × Val))
    (hnd : (kvs.map Prod.fst).Nodup) (hlen : kvs.length = 510) (fuel : Nat)
    (hf : 510 ≤ fuel) :
    ∃ s, Hash.run abi allocOK fuel s0 (putOps kvs) = .ok (s, List.replicate 510 (Res.int 1))
      ∧ Hash.SymTable_getLength s = 510
      ∧ ∀ kv ∈ kvs, Hash.SymTable_get abi fuel s kv.1 = .ok kv.2 := by
  obtain ⟨s, hs, hrep, hl0, _, _⟩ := Hash.WellFormed.new abi heap
  rw [hs] at hnew
  cases hnew
  have hflat : (List.replicate 509 ([] : List Cell)).flatten = [] := by
    rw [List.flatten_eq_nil_iff]
    intro L hL
    exact List.eq_of_mem_replicate hL
  have hl509 : (List.replicate 509 ([] : List Cell)).length = 509 := List.length_replicate _ _
  rcases Hash.WellFormed.run_puts fuel kvs _ _ hrep hnd
      (fun kv _ hm => by rw [hflat] at hm; cases hm)
      (by rw [hl509, hl0, hlen]) with
    ⟨_, hlt⟩ | ⟨s1, hrun, hrep1, _, hl1, _, _, hnew1, _⟩
  · rw [hl0, hlen] at hlt; omega
  · rw [hlen] at hrun
    have hlen1 : s1.length = 510 := by rw [hl1, hl0, hlen]
    refine ⟨s1, hrun, hlen1, ?_⟩
    intro kv hkv
    exact hrep1.get_of_mem (hnew1 kv hkv) fuel (by rw [hlen1]; exact hf)

theorem put_510_distinct_keys_witness :
    (Hash.SymTable_new true true 0 [] = some Hash.freshTable
      ∧ ((sampleBindings 510).map Prod.fst).Nodup ∧ (sampleBindings 510).length = 510)
    ∧ ∃ s, Hash.run abi64 allocOK 510 Hash.freshTable (putOps (sampleBindings 510))
          = .ok (s, List.replicate 510 (Res.int 1))
      ∧ Hash.SymTable_getLength s = 510
      ∧ ∀ kv ∈ sampleBindings 510, Hash.SymTable_get abi64 510 s kv.1 = .ok kv.2 :=
  ⟨⟨rfl, sampleBindings_keys_nodup 510, sampleBindings_length 510⟩,
   put_510_distinct_keys abi64 [] Hash.freshTable rfl (sampleBindings 510)
     (sampleBindings_keys_nodup 510) (sampleBindings_length 510) 510 (Nat.le_refl _)⟩

/-- C10. On a well-formed table `SymTable_map` calls the visitor on exactly the
bindings of the bucket chains concatenated in increasing bucket index, each chain
from its head (hash backend), respectively of the single chain from its head (list
backend). So the number of calls is `SymTable_getLength`, no key is visited twice,
and the keys visited are exactly the keys of the table. -/
theorem map_visits_every_binding_once (abi : ABI) (fuel : Nat)
    (s : Hash.State) (B : List (List Cell)) (hs : Hash.WellFormed abi s B) (hf : s.length ≤ fuel)
    (t : LinkedList.State) (L : List Cell) (ht : LinkedList.WellFormed t L) (hg : t.length ≤ fuel) :
    (Hash.SymTable_map fuel s = .ok (bindings B.flatten)
        ∧ (bindings B.flatten).length = Hash.SymTable_getLength s
        ∧ ((bindings B.flatten).map Prod.fst).Nodup
        ∧ (bindings B.flatten).map Prod.fst = B.flatten.map Cell.key)
      ∧ (LinkedList.SymTable_map fuel t = .ok (bindings L)
        ∧ (bindings L).length = LinkedList.SymTable_getLength t
        ∧ ((bindings L).map Prod.fst).Nodup
        ∧ (bindings L).map Prod.fst = L.map Cell.key) := by
  have hkeys : ∀ M : List Cell, (bindings M).map Prod.fst = M.map Cell.key := by
    intro M
    simp [bindings, List.map_map, Function.comp_def]
  refine ⟨⟨hs.map fuel hf, ?_, ?_, hkeys _⟩, ⟨ht.list_map fuel hg, ?_, ?_, hkeys _⟩⟩
  · rw [bindings, List.length_map]; exact hs.count.symm
  · rw [hkeys]; exact hs.keys
  · rw [bindings, List.length_map]; exact ht.count.symm
  · rw [hkeys]; exact ht.keys

theorem map_visits_every_binding_once_witness :
    (Hash.WellFormed abi64 Hash.twoTable Hash.twoChains ∧ Hash.twoTable.length ≤ 2
      ∧ LinkedList.WellFormed LinkedList.twoTable LinkedList.twoChain
      ∧ LinkedList.twoTable.length ≤ 2)
    ∧ Hash.SymTable_map 2 Hash.twoTable = .ok (bindings Hash.twoChains.flatten)
    ∧ LinkedList.SymTable_map 2 LinkedList.twoTable = .ok (bindings LinkedList.twoChain)
    ∧ bindings LinkedList.twoChain = [([98], 2), ([97], 1)] :=
  have hH := Hash.twoTable_facts
  have hL := LinkedList.list_twoTable_facts
  have h := map_visits_every_binding_once abi64 2 Hash.twoTable Hash.twoChains hH.1
    (by rw [hH.2.1]) LinkedList.twoTable LinkedList.twoChain hL.1 (by rw [hL.2.1])
  ⟨⟨hH.1, by rw [hH.2.1], hL.1, by rw [hL.2.1]⟩, h.1.1, h.2.1, by decide⟩

/-- C1 fails on the code. The table reached from the fresh table by putting the 510
keys `sampleKey 0 .. sampleKey 509` is well-formed, has length 510 on 509 buckets and
does not bind `sampleKey 510`; yet, with every allocation succeeding and whatever the
step budget, `SymTable_put` of `sampleKey 510` returns nothing at all (neither `1`
nor `0`): the expansion it starts never completes. -/
theorem put_into_full_table_never_returns :
    Hash.WellFormed abi64 Hash.fullTable Hash.fullChains
      ∧ Hash.SymTable_getLength Hash.fullTable = 510
      ∧ Hash.SymTable_contains abi64 510 Hash.fullTable (sampleKey 510) = .ok 0
      ∧ ∀ fuel r, Hash.SymTable_put abi64 allocOK fuel Hash.fullTable (sampleKey 510) 511
          ≠ .ok r := by
  have h := Hash.fullTable_facts
  have hk := Hash.sampleKey_not_in_full 510 (Nat.le_refl 510)
  refine ⟨h.1, (Hash.getLength_eq _).trans h.2.2.1, ?_, ?_⟩
  · rw [h.1.contains _ 510 (by rw [h.2.2.1]), if_neg hk]
  · intro fuel
    exact h.1.put_grow_fails _ _ hk (by rw [h.2.1, h.2.2.1]; decide) allocOK rfl fuel

set_option maxRecDepth 100000 in
/-- The rehash of one chain, on the old bucket 1 holding node 0 (key `[1, 63]`)
followed by node 1 (key `[1]`): node 0 lands in the new bucket 318 with its link
cleared, the walk stops there, and node 1 is in no bucket of the new array. -/
theorem rehashChain_moves_only_head :
    (Hash.rehashChain abi64 [9] 5 Hash.twoInOne (List.replicate 1021 none) (some 0)).toOption
      = some ({ Hash.twoInOne with
                  heap := [some ⟨[1, 63], 5, none⟩, some ⟨[1], 6, none⟩] },
              (List.replicate 1021 none).set 318 (some 0)) := by
  decide

/-- C2 fails on the code. For every well-formed table whose length exceeds its
bucket count (at any stage), `SymTable_put` of a key the table does not bind, with
the allocation of the new bucket array succeeding, never returns, whatever the
step budget: the rehash loop runs its counter up to the new bucket count over the
old array, or the read of the next stage fails at the last stage. No state is
reached in which the earlier bindings could be looked up. -/
theorem put_with_expansion_never_returns (abi : ABI) (s : Hash.State) (B : List (List Cell))
    (hs : Hash.WellFormed abi s B) (k : Key) (v : Val) (hk : k ∉ B.flatten.map Cell.key)
    (hbig : B.length < s.length) (al : Alloc) (hal : al.bucketArray = true) (fuel : Nat) :
    ∀ r, Hash.SymTable_put abi al fuel s k v ≠ .ok r :=
  hs.put_grow_fails k v hk hbig al hal fuel

theorem put_with_expansion_never_returns_witness :
    (Hash.WellFormed abi64 Hash.fullTable Hash.fullChains
      ∧ sampleKey 600 ∉ Hash.fullChains.flatten.map Cell.key
      ∧ Hash.fullChains.length < Hash.fullTable.length ∧ allocOK.bucketArray = true)
    ∧ ∀ r, Hash.SymTable_put abi64 allocOK 1000 Hash.fullTable (sampleKey 600) 7 ≠ .ok r :=
  have h := Hash.fullTable_facts
  have hk := Hash.sampleKey_not_in_full 600 (by decide)
  have hbig : Hash.fullChains.length < Hash.fullTable.length := by
    rw [h.2.1, h.2.2.1]; decide
  ⟨⟨h.1, hk, hbig, rfl⟩,
   put_with_expansion_never_returns abi64 Hash.fullTable Hash.fullChains h.1 (sampleKey 600) 7
     hk hbig allocOK rfl 1000⟩

/-- C3 fails on the code. On the run that puts the 511 distinct keys
`sampleKey 0 .. sampleKey 510` into a fresh table, the list backend returns `1` at
every call, whereas the hash backend does not complete the run, whatever the step
budget: its 511th call starts an expansion that never returns. -/
theorem backends_differ_on_511_puts :
    (∃ t, LinkedList.run abi64 allocOK 511 LinkedList.freshTable (putOps (sampleBindings 511))
        = .ok (t, List.replicate 511 (Res.int 1)))
      ∧ ∀ fuel r, Hash.run abi64 allocOK fuel Hash.freshTable (putOps (sampleBindings 511))
          ≠ .ok r := by
  constructor
  · have h := LinkedList.list_built_repr abi64 (sampleBindings 511) (sampleBindings_keys_nodup 511)
      511 (by rw [sampleBindings_length])
    rw [sampleBindings_length] at h
    exact ⟨_, h.1⟩
  · intro fuel
    have hflat : (List.replicate 509 ([] : List Cell)).flatten = [] := by
      rw [List.flatten_eq_nil_iff]
      intro L hL
      exact List.eq_of_mem_replicate hL
    have hl509 : (List.replicate 509 ([] : List Cell)).length = 509 :=
      List.length_replicate _ _
    have h0 : Hash.freshTable.length = 0 := rfl
    exact Hash.WellFormed.run_puts_overflow fuel (sampleBindings 511) _ _
      (Hash.freshTable_repr abi64) (sampleBindings_keys_nodup 511)
      (fun kv _ hm => by rw [hflat] at hm; cases hm)
      (by rw [h0]; omega) (by rw [hl509, h0, sampleBindings_length]; omega)

/-- C8 fails on the code. A run of `SymTable_put` calls with more than 510 pairwise
distinct keys on the fresh table never completes, whatever the step budget, so
there is no length to compare with the number of successful calls: the first 510
calls return `1`, the next one starts an expansion that never returns. -/
theorem puts_beyond_510_never_complete (abi : ABI) (kvs : List (Key × Val))
    (hnd : (kvs.map Prod.fst).Nodup) (hlen : 510 < kvs.length) (fuel : Nat) :
    ∀ r, Hash.run abi allocOK fuel Hash.freshTable (putOps kvs) ≠ .ok r := by
  have hflat : (List.replicate 509 ([] : List Cell)).flatten = [] := by
    rw [List.flatten_eq_nil_iff]
    intro L hL
    exact List.eq_of_mem_replicate hL
  have hl509 : (List.replicate 509 ([] : List Cell)).length = 509 :=
    List.length_replicate _ _
  have h0 : Hash.freshTable.length = 0 := rfl
  exact Hash.WellFormed.run_puts_overflow fuel kvs _ _ (Hash.freshTable_repr abi) hnd
    (fun kv _ hm => by rw [hflat] at hm; cases hm)
    (by rw [h0]; omega) (by rw [hl509, h0]; omega)

theorem puts_beyond_510_never_complete_witness :
    (((sampleBindings 600).map Prod.fst).Nodup ∧ 510 < (sampleBindings 600).length)
    ∧ ∀ r, Hash.run abi64 allocOK 1000 Hash.freshTable (putOps (sampleBindings 600)) ≠ .ok r :=
  ⟨⟨sampleBindings_keys_nodup 600, by rw [sampleBindings_length]; decide⟩,
   puts_beyond_510_never_complete abi64 (sampleBindings 600) (sampleBindings_keys_nodup 600)
     (by rw [sampleBindings_length]; decide) 1000⟩

end SymTable

namespace SymTable
namespace Hash

/-- The round trip of `SymTable_put` and `SymTable_get` on a well-formed table
whose length does not exceed its bucket count, so that no expansion is due. -/
theorem WellFormed.put_then_get {abi : ABI} {s : State} {B : List (List Cell)}
    (h : WellFormed abi s B) (k : Key) (v : Val) (hk : k ∉ B.flatten.map Cell.key)
    (hsmall : s.length ≤ B.length) (fuel : Nat) (hf : s.length + 1 ≤ fuel) :
    ∃ s1, SymTable_put abi allocOK fuel s k v = .ok (s1, 1)
      ∧ SymTable_contains abi fuel s1 k = .ok 1
      ∧ SymTable_get abi fuel s1 k = .ok v := by
  obtain ⟨s1, hput, hrep, hl, _, _⟩ := h.put_absent k v hk hsmall fuel (by omega)
  have hf1 : s1.length ≤ fuel := by omega
  have hmem : ({ addr := s.heap.length, key := k, val := v } : Cell)
      ∈ (B.set (SymTable_hash abi k B.length)
          ({ addr := s.heap.length, key := k, val := v } :: chainOf abi B k)).flatten :=
    (h.put_perm k _).mem_iff.2 (List.mem_cons_self _ _)
  refine ⟨s1, hput, ?_, hrep.get_of_mem ⟨_, hmem, rfl, rfl⟩ fuel hf1⟩
  rw [hrep.contains k fuel hf1, if_pos (List.mem_map_of_mem Cell.key hmem)]

/-- A call of `SymTable_put` that returns leaves the variable `counter` as it was. -/
theorem WellFormed.put_counter {abi : ABI} {s : State} {B : List (List Cell)}
    (h : WellFormed abi s B) (al : Alloc) (k : Key) (v : Val) (fuel : Nat) (s1 : State)
    (r : Int) (hput : SymTable_put abi al fuel s k v = .ok (s1, r)) :
    s1.counter = s.counter := by
  unfold SymTable_put at hput
  rcases h.contains_any k fuel with hc | hc
  · rw [hc] at hput; cases hput
  · rw [hc] at hput
    by_cases hk : k ∈ B.flatten.map Cell.key
    · rw [if_pos hk] at hput
      simp only [bind, Except.bind, if_true] at hput
      cases hput
      rfl
    · rw [if_neg hk] at hput
      have h01 : ¬ ((0 : Int) = 1) := by decide
      simp only [bind, Except.bind, h.stageCount, h01, if_false] at hput
      by_cases hg : SymTable_getLength s > B.length
      · rw [if_pos hg] at hput
        by_cases hal : al.bucketArray = true
        · have hfail := expand_fails abi al fuel s k hal h.stage (by simp [h.heads])
          split at hput
          · cases hput
          · rename_i s2 hs2
            exact absurd hs2 (hfail s2)
        · have hal2 : al.bucketArray = false := by simpa using hal
          have hexp : expand abi al fuel s k = Except.error Err.fault
              ∨ expand abi al fuel s k = Except.ok { s with counter := s.counter + 1 - 1 } := by
            simp only [expand, bind, Except.bind]
            cases hst : Hash.stageCount (s.counter + 1) with
            | error e =>
              left
              simp only [Hash.stageCount] at hst
              split at hst
              · cases hst
              · cases hst; rfl
            | ok m => right; simp [hal2]
          rcases hexp with he | he
          · rw [he] at hput; cases hput
          · rw [he] at hput
            simp only at hput
            repeat' first
              | (cases hput <;> (show s.counter + 1 - 1 = s.counter) <;> omega)
              | split at hput
      · rw [if_neg hg] at hput
        repeat' first
          | (cases hput <;> rfl)
          | split at hput

end Hash
end SymTable

namespace SymTable
namespace Hash

/-! ### Insertion with any outcome of the allocations -/

theorem WellFormed.bucket_entry {abi : ABI} {s : State} {B : List (List Cell)}
    (h : WellFormed abi s B) (k : Key) :
    s.ppsSymNode[SymTable_hash abi k B.length]? = some (headOf (chainOf abi B k)) := by
  simp [h.heads, List.getElem?_map, h.get_chain k]

theorem WellFormed.insertNode_eq {abi : ABI} {s : State} {B : List (List Cell)}
    (h : WellFormed abi s B) (k : Key) (v : Val) :
    insertNode abi B.length s k v
      = { counter := s.counter,
          heap := s.heap ++ [some { pcKey := k, pvValue := v,
                                    psNextNode := headOf (chainOf abi B k) }],
          ppsSymNode := s.ppsSymNode.set (SymTable_hash abi k B.length) (some s.heap.length),
          length := s.length + 1 } := by
  simp only [insertNode, h.bucket_entry k, Option.getD_some]

theorem WellFormed.insertNode {abi : ABI} {s : State} {B : List (List Cell)}
    (h : WellFormed abi s B) (k : Key) (v : Val) (hk : k ∉ B.flatten.map Cell.key) :
    WellFormed abi (Hash.insertNode abi B.length s k v)
      (B.set (SymTable_hash abi k B.length)
        ({ addr := s.heap.length, key := k, val := v } :: chainOf abi B k)) := by
  rw [h.insertNode_eq k v]
  exact h.insert k v hk

theorem expand_alloc_fail (abi : ABI) (al : Alloc) (fuel : Nat) (s : State) (k : Key)
    (hal : al.bucketArray = false) {m : Nat} (hm : auBucketCounts[s.counter + 1]? = some m) :
    expand abi al fuel s k = .ok s := by
  simp only [expand, bind, Except.bind, stageCount, hm, hal, if_true]
  cases s
  simp

theorem expand_no_stage (abi : ABI) (al : Alloc) (fuel : Nat) (s : State) (k : Key)
    (hm : auBucketCounts[s.counter + 1]? = none) :
    expand abi al fuel s k = .error .fault := by
  simp only [expand, bind, Except.bind, stageCount, hm]

/-- A put of a new key that does not expand the table, or whose expansion is
abandoned because the bucket array cannot be allocated: it inserts the node when
both node allocations succeed, and otherwise returns 0 with the state untouched. -/
theorem WellFormed.put_absent_any {abi : ABI} {s : State} {B : List (List Cell)}
    (h : WellFormed abi s B) (k : Key) (v : Val) (hk : k ∉ B.flatten.map Cell.key)
    (al : Alloc) (fuel : Nat) (hf : s.length ≤ fuel)
    (hgo : s.length ≤ B.length
      ∨ (al.bucketArray = false ∧ ∃ m, auBucketCounts[s.counter + 1]? = some m)) :
    SymTable_put abi al fuel s k v
      = .ok (if al.node = true ∧ al.key = true then (Hash.insertNode abi B.length s k v, 1)
             else (s, 0)) := by
  have hexp : SymTable_getLength s > B.length → expand abi al fuel s k = .ok s := by
    intro hg
    rcases hgo with hsmall | ⟨hal, m, hm⟩
    · simp only [SymTable_getLength] at hg; omega
    · exact expand_alloc_fail abi al fuel s k hal hm
  have h01 : ¬ ((0 : Int) = 1) := by decide
  unfold SymTable_put
  rw [h.contains k fuel hf, if_neg hk]
  simp only [bind, Except.bind, h.stageCount, h01, if_false]
  by_cases hg : SymTable_getLength s > B.length
  on_goal 1 => rw [if_pos hg, hexp hg]
  on_goal 2 => rw [if_neg hg]
  all_goals
    cases hn : al.node
    · simp
    · cases hkey : al.key
      · simp
      · simp only [h.stageCount, h.readBucket k, h.insertNode_eq k v]
        cases hh : headOf (chainOf abi B k) <;> simp

/-- At the last stage the expansion block reads `auBucketCounts[8]`. -/
theorem WellFormed.put_no_stage {abi : ABI} {s : State} {B : List (List Cell)}
    (h : WellFormed abi s B) (k : Key) (v : Val) (hk : k ∉ B.flatten.map Cell.key)
    (hbig : B.length < s.length) (hm : auBucketCounts[s.counter + 1]? = none)
    (al : Alloc) (fuel : Nat) (hf : s.length ≤ fuel) :
    SymTable_put abi al fuel s k v = .error .fault := by
  have hg : SymTable_getLength s > B.length := hbig
  have h01 : ¬ ((0 : Int) = 1) := by decide
  unfold SymTable_put
  rw [h.contains k fuel hf, if_neg hk]
  simp only [bind, Except.bind, h.stageCount, h01, if_false, hg, if_true,
    expand_no_stage abi al fuel s k hm]

/-! ### Tables given by their bindings -/

theorem WellFormed.foldl_insert {abi : ABI} (kvs : List (Key × Val)) :
    ∀ (s : State) (B : List (List Cell)), WellFormed abi s B → (kvs.map Prod.fst).Nodup →
      (∀ kv ∈ kvs, kv.1 ∉ B.flatten.map Cell.key) →
      WellFormed abi (kvs.foldl (fun t kv => Hash.insertNode abi B.length t kv.1 kv.2) s)
          (chainsAfter abi B s.heap.length kvs)
        ∧ (kvs.foldl (fun t kv => Hash.insertNode abi B.length t kv.1 kv.2) s).length
            = s.length + kvs.length
        ∧ (kvs.foldl (fun t kv => Hash.insertNode abi B.length t kv.1 kv.2) s).counter
            = s.counter
        ∧ (chainsAfter abi B s.heap.length kvs).length = B.length
        ∧ (∀ k, k ∈ (chainsAfter abi B s.heap.length kvs).flatten.map Cell.key →
            k ∈ B.flatten.map Cell.key ∨ k ∈ kvs.map Prod.fst) := by
  induction kvs with
  | nil =>
    intro s B h _ _
    exact ⟨h, rfl, rfl, rfl, fun k hk => Or.inl hk⟩
  | cons kv rest ih =>
    intro s B h hnd hnew
    rw [List.map_cons, List.nodup_cons] at hnd
    have hk : kv.1 ∉ B.flatten.map Cell.key := hnew kv (List.mem_cons_self _ _)
    have h1 := h.insertNode kv.1 kv.2 hk
    have hperm := h.put_perm kv.1 { addr := s.heap.length, key := kv.1, val := kv.2 }
    have hlen1 : (B.set (SymTable_hash abi kv.1 B.length)
        ({ addr := s.heap.length, key := kv.1, val := kv.2 } :: chainOf abi B kv.1)).length
          = B.length := List.length_set _ _ _
    have hheap : (Hash.insertNode abi B.length s kv.1 kv.2).heap.length = s.heap.length + 1 := by
      simp [Hash.insertNode]
    have hnew1 : ∀ kv1 ∈ rest, kv1.1 ∉ (B.set (SymTable_hash abi kv.1 B.length)
        ({ addr := s.heap.length, key := kv.1, val := kv.2 } :: chainOf abi B kv.1)).flatten.map
          Cell.key := by
      intro kv1 hkv1 hm
      rw [(hperm.map Cell.key).mem_iff, List.map_cons, List.mem_cons] at hm
      rcases hm with hm | hm
      · have hm2 : kv1.1 = kv.1 := hm
        exact hnd.1 (by rw [← hm2]; exact List.mem_map_of_mem _ hkv1)
      · exact hnew kv1 (List.mem_cons_of_mem _ hkv1) hm
    obtain ⟨i1, i2, i3, i4, i5⟩ := ih _ _ h1 hnd.2 hnew1
    rw [hlen1] at i1 i2 i3
    rw [hheap] at i1 i4 i5
    refine ⟨i1, ?_, ?_, ?_, ?_⟩
    · rw [List.foldl_cons, i2]
      simp [Hash.insertNode]
      omega
    · rw [List.foldl_cons, i3]
      rfl
    · exact i4.trans hlen1
    · intro k hk1
      rcases i5 k hk1 with hm | hm
      · rw [(hperm.map Cell.key).mem_iff, List.map_cons, List.mem_cons] at hm
        rcases hm with hm | hm
        · right
          have hm2 : k = kv.1 := hm
          rw [hm2]
          exact List.mem_cons_self _ _
        · left; exact hm
      · right; exact List.mem_cons_of_mem _ hm

/-- The table given by `n` buckets at stage `c` and distinct keys is well-formed,
whatever the number of bindings. -/
theorem tableOf_repr (abi : ABI) (c n : Nat) (hn : auBucketCounts[c]? = some n)
    (kvs : List (Key × Val)) (hnd : (kvs.map Prod.fst).Nodup) :
    WellFormed abi (tableOf abi c n kvs) (chainsAfter abi (List.replicate n []) 0 kvs)
      ∧ (tableOf abi c n kvs).length = kvs.length
      ∧ (tableOf abi c n kvs).counter = c
      ∧ (chainsAfter abi (List.replicate n []) 0 kvs).length = n
      ∧ (∀ k, k ∈ (chainsAfter abi (List.replicate n []) 0 kvs).flatten.map Cell.key →
            k ∈ kvs.map Prod.fst) := by
  have hflat : (List.replicate n ([] : List Cell)).flatten = [] := by
    rw [List.flatten_eq_nil_iff]
    intro L hL
    exact List.eq_of_mem_replicate hL
  have hl : (List.replicate n ([] : List Cell)).length = n := List.length_replicate _ _
  have h0 := WellFormed.empty abi c n [] hn
  obtain ⟨i1, i2, i3, i4, i5⟩ := WellFormed.foldl_insert kvs _ _ h0 hnd
    (fun kv _ hm => by rw [hflat] at hm; cases hm)
  rw [hl] at i1 i2 i3 i4
  refine ⟨i1, ?_, i3, i4, ?_⟩
  · exact i2.trans (Nat.zero_add _)
  · intro k hk
    rcases i5 k hk with hm | hm
    · rw [hflat] at hm; cases hm
    · exact hm

end Hash
end SymTable

namespace SymTable
namespace Hash

/-! ### Every call that returns keeps the table well-formed -/

theorem WellFormed.keys_set_subset {abi : ABI} {s : State} {B : List (List Cell)}
    (h : WellFormed abi s B) (k : Key) (L1 : List Cell)
    (hsub : ∀ x ∈ L1.map Cell.key, x ∈ (chainOf abi B k).map Cell.key) :
    ∀ x ∈ (B.set (SymTable_hash abi k B.length) L1).flatten.map Cell.key,
      x ∈ B.flatten.map Cell.key := by
  intro x hx
  have h1 := (flatten_set_perm (hash_lt abi k h.length_pos) L1).map Cell.key
  have h2 := (flatten_perm_of_get (h.get_chain k)).map Cell.key
  rw [h1.mem_iff, List.map_append, List.mem_append] at hx
  rw [h2.mem_iff, List.map_append, List.mem_append]
  rcases hx with hx | hx
  · exact Or.inl (hsub x hx)
  · exact Or.inr hx

/-- The outcomes of a `SymTable_put` that returns: the state is untouched and the
value is 0, or the key was absent, the node has been inserted and the value is 1. -/
theorem WellFormed.put_ok {abi : ABI} {s : State} {B : List (List Cell)}
    (h : WellFormed abi s B) (al : Alloc) (k : Key) (v : Val) (fuel : Nat)
    (hf : s.length ≤ fuel) (s1 : State) (r : Int)
    (hput : SymTable_put abi al fuel s k v = .ok (s1, r)) :
    (s1 = s ∧ r = 0)
      ∨ (k ∉ B.flatten.map Cell.key ∧ s1 = Hash.insertNode abi B.length s k v ∧ r = 1) := by
  have tail : SymTable_put abi al fuel s k v
      = .ok (if al.node = true ∧ al.key = true then (Hash.insertNode abi B.length s k v, 1)
             else (s, 0)) → k ∉ B.flatten.map Cell.key →
      (s1 = s ∧ r = 0)
        ∨ (k ∉ B.flatten.map Cell.key ∧ s1 = Hash.insertNode abi B.length s k v ∧ r = 1) := by
    intro he hk
    rw [he] at hput
    by_cases hc : al.node = true ∧ al.key = true
    · rw [if_pos hc] at hput
      cases hput
      exact Or.inr ⟨hk, rfl, rfl⟩
    · rw [if_neg hc] at hput
      cases hput
      exact Or.inl ⟨rfl, rfl⟩
  by_cases hk : k ∈ B.flatten.map Cell.key
  · rw [h.put_present al k v hk fuel hf] at hput
    cases hput
    exact Or.inl ⟨rfl, rfl⟩
  · by_cases hbig : B.length < s.length
    · by_cases hal : al.bucketArray = true
      · exact absurd hput (h.put_grow_fails k v hk hbig al hal fuel _)
      · cases hm : auBucketCounts[s.counter + 1]? with
        | none =>
          rw [h.put_no_stage k v hk hbig hm al fuel hf] at hput
          cases hput
        | some m =>
          exact tail (h.put_absent_any k v hk al fuel hf
            (Or.inr ⟨by simpa using hal, m, hm⟩)) hk
    · exact tail (h.put_absent_any k v hk al fuel hf (Or.inl (by omega))) hk

theorem WellFormed.step_ok {abi : ABI} {s : State} {B : List (List Cell)}
    (h : WellFormed abi s B) (al : Alloc) (op : Op) (fuel : Nat) (hf : s.length ≤ fuel)
    (s1 : State) (r : Res) (hstep : step abi al fuel s op = .ok (s1, r)) :
    ∃ B1, WellFormed abi s1 B1 ∧ B1.length = B.length ∧ s1.counter = s.counter
      ∧ s1.length ≤ s.length + 1
      ∧ (∀ x ∈ B1.flatten.map Cell.key,
          x ∈ B.flatten.map Cell.key ∨ x ∈ putKeys [(al, op)]) := by
  have same : s1 = s → ∃ B1, WellFormed abi s1 B1 ∧ B1.length = B.length
      ∧ s1.counter = s.counter ∧ s1.length ≤ s.length + 1
      ∧ (∀ x ∈ B1.flatten.map Cell.key,
          x ∈ B.flatten.map Cell.key ∨ x ∈ putKeys [(al, op)]) := by
    intro e
    subst e
    exact ⟨B, h, rfl, rfl, Nat.le_succ _, fun x hx => Or.inl hx⟩
  cases op with
  | put k v =>
    simp only [step, bind, Except.bind] at hstep
    cases hp : SymTable_put abi al fuel s k v with
    | error e => rw [hp] at hstep; cases hstep
    | ok x =>
      obtain ⟨s2, r2⟩ := x
      rw [hp] at hstep
      cases hstep
      rcases h.put_ok al k v fuel hf _ _ hp with ⟨e, _⟩ | ⟨hk, e, _⟩
      · exact same e
      · subst e
        refine ⟨_, h.insertNode k v hk, List.length_set _ _ _, rfl, ?_, ?_⟩
        · simp [Hash.insertNode]
        · intro x hx
          rw [((h.put_perm k _).map Cell.key).mem_iff, List.map_cons, List.mem_cons] at hx
          rcases hx with hx | hx
          · right
            have hx2 : x = k := hx
            simp [putKeys, hx2]
          · exact Or.inl hx
  | replace k v =>
    simp only [step, bind, Except.bind] at hstep
    by_cases hk : k ∈ B.flatten.map Cell.key
    · obtain ⟨c, hc, hck⟩ := List.mem_map.1 hk
      have hl := h.chain_lookup_of_mem hc
      rw [hck] at hl
      obtain ⟨s2, h1, h2, h3, h4⟩ := h.replace_present k v c hl fuel hf
      rw [h1] at hstep
      cases hstep
      refine ⟨_, h2, List.length_set _ _ _, h4, (by show s2.length ≤ s.length + 1; omega), ?_⟩
      intro x hx
      exact Or.inl (h.keys_set_subset k _ (by rw [map_key_replaceFirst]; exact fun y hy => hy) x hx)
    · rw [h.replace_absent k v hk fuel hf] at hstep
      cases hstep
      exact same rfl
  | remove k =>
    simp only [step, bind, Except.bind] at hstep
    by_cases hk : k ∈ B.flatten.map Cell.key
    · obtain ⟨c, hc, hck⟩ := List.mem_map.1 hk
      have hl := h.chain_lookup_of_mem hc
      rw [hck] at hl
      obtain ⟨s2, h1, h2, h3, h4⟩ := h.remove_present k c hl fuel hf
      rw [h1] at hstep
      cases hstep
      refine ⟨_, h2, List.length_set _ _ _, h4, (by show s2.length ≤ s.length + 1; omega), ?_⟩
      intro x hx
      exact Or.inl (h.keys_set_subset k _
        (fun y hy => ((removeFirst_sublist k _).map Cell.key).subset hy) x hx)
    · rw [h.remove_absent k hk fuel hf] at hstep
      cases hstep
      exact same rfl
  | get k =>
    simp only [step, bind, Except.bind] at hstep
    split at hstep
    · cases hstep
    · cases hstep; exact same rfl
  | contains k =>
    simp only [step, bind, Except.bind] at hstep
    split at hstep
    · cases hstep
    · cases hstep; exact same rfl
  | getLength =>
    simp only [step] at hstep
    cases hstep
    exact same rfl

theorem putKeys_cons (a : Alloc × Op) (ops : List (Alloc × Op)) :
    putKeys (a :: ops) = putKeys [a] ++ putKeys ops := by
  obtain ⟨al, op⟩ := a
  cases op <;> simp [putKeys]

/-- A run that returns ends in a well-formed table with the same stage, whose keys
are among the keys it started with and the keys of the puts. -/
theorem WellFormed.runWith_ok {abi : ABI} (fuel : Nat) (ops : List (Alloc × Op)) :
    ∀ (s : State) (B : List (List Cell)), WellFormed abi s B → s.length + ops.length ≤ fuel →
      ∀ (s1 : State) (rs : List Res), runWith abi fuel s ops = .ok (s1, rs) →
        ∃ B1, WellFormed abi s1 B1 ∧ B1.length = B.length ∧ s1.counter = s.counter
          ∧ s1.length ≤ s.length + ops.length
          ∧ (∀ x ∈ B1.flatten.map Cell.key,
              x ∈ B.flatten.map Cell.key ∨ x ∈ putKeys ops) := by
  induction ops with
  | nil =>
    intro s B h _ s1 rs hrun
    simp only [runWith] at hrun
    cases hrun
    exact ⟨B, h, rfl, rfl, Nat.le_refl _, fun x hx => Or.inl hx⟩
  | cons a ops ih =>
    intro s B h hf s1 rs hrun
    obtain ⟨al, op⟩ := a
    simp only [runWith, bind, Except.bind, List.length_cons] at hrun hf
    cases hst : step abi al fuel s op with
    | error e => rw [hst] at hrun; cases hrun
    | ok x =>
      obtain ⟨s2, r2⟩ := x
      rw [hst] at hrun
      simp only at hrun
      obtain ⟨B2, w1, w2, w3, w4, w5⟩ := h.step_ok al op fuel (by omega) s2 r2 hst
      cases hrest : runWith abi fuel s2 ops with
      | error e => rw [hrest] at hrun; cases hrun
      | ok y =>
        obtain ⟨s3, rs3⟩ := y
        rw [hrest] at hrun
        cases hrun
        obtain ⟨B3, u1, u2, u3, u4, u5⟩ := ih s2 B2 w1 (by omega) _ _ hrest
        refine ⟨B3, u1, u2.trans w2, u3.trans w3, by simp only [List.length_cons]; omega, ?_⟩
        intro x hx
        rw [putKeys_cons, List.mem_append]
        rcases u5 x hx with hx | hx
        · rcases w5 x hx with hx | hx
          · exact Or.inl hx
          · exact Or.inr (Or.inl hx)
        · exact Or.inr (Or.inr hx)

end Hash
end SymTable

namespace SymTable
namespace Hash

/-- Every call on a well-formed table whose length does not exceed the bucket
count returns. -/
theorem WellFormed.step_total {abi : ABI} {s : State} {B : List (List Cell)}
    (h : WellFormed abi s B) (al : Alloc) (op : Op) (fuel : Nat) (hf : s.length ≤ fuel)
    (hsmall : s.length ≤ B.length) : ∃ s1 r, step abi al fuel s op = .ok (s1, r) := by
  cases op with
  | put k v =>
    by_cases hk : k ∈ B.flatten.map Cell.key
    · exact ⟨s, .int 0, by simp only [step, bind, Except.bind, h.put_present al k v hk fuel hf]⟩
    · exact ⟨_, _, by
        simp only [step, bind, Except.bind,
          h.put_absent_any k v hk al fuel hf (Or.inl hsmall)]
        rfl⟩
  | replace k v =>
    by_cases hk : k ∈ B.flatten.map Cell.key
    · obtain ⟨c, hc, hck⟩ := List.mem_map.1 hk
      have hl := h.chain_lookup_of_mem hc
      rw [hck] at hl
      obtain ⟨s2, h1, _⟩ := h.replace_present k v c hl fuel hf
      exact ⟨s2, .ptr c.val, by simp only [step, bind, Except.bind, h1]⟩
    · exact ⟨s, .ptr 0, by simp only [step, bind, Except.bind, h.replace_absent k v hk fuel hf]⟩
  | remove k =>
    by_cases hk : k ∈ B.flatten.map Cell.key
    · obtain ⟨c, hc, hck⟩ := List.mem_map.1 hk
      have hl := h.chain_lookup_of_mem hc
      rw [hck] at hl
      obtain ⟨s2, h1, _⟩ := h.remove_present k c hl fuel hf
      exact ⟨s2, .ptr c.val, by simp only [step, bind, Except.bind, h1]⟩
    · exact ⟨s, .ptr 0, by simp only [step, bind, Except.bind, h.remove_absent k hk fuel hf]⟩
  | get k => exact ⟨s, _, by simp only [step, bind, Except.bind, h.get k fuel hf]; rfl⟩
  | contains k => exact ⟨s, _, by simp only [step, bind, Except.bind, h.contains k fuel hf]; rfl⟩
  | getLength => exact ⟨s, _, rfl⟩

/-- A run on a well-formed table returns when the table cannot come to hold more
bindings than one above its bucket count. -/
theorem WellFormed.runWith_total {abi : ABI} (fuel : Nat) (ops : List (Alloc × Op)) :
    ∀ (s : State) (B : List (List Cell)), WellFormed abi s B → s.length + ops.length ≤ fuel →
      s.length + ops.length ≤ B.length + 1 →
      ∃ s1 rs, runWith abi fuel s ops = .ok (s1, rs) := by
  induction ops with
  | nil => intro s B _ _ _; exact ⟨s, [], rfl⟩
  | cons a ops ih =>
    intro s B h hf hsmall
    obtain ⟨al, op⟩ := a
    simp only [List.length_cons] at hf hsmall
    obtain ⟨s2, r2, hst⟩ := h.step_total al op fuel (by omega) (by omega)
    obtain ⟨B2, w1, w2, _, w4, _⟩ := h.step_ok al op fuel (by omega) s2 r2 hst
    obtain ⟨s3, rs3, hrest⟩ := ih s2 B2 w1 (by omega) (by omega)
    exact ⟨s3, r2 :: rs3, by simp only [runWith, bind, Except.bind, hst, hrest]⟩

end Hash

namespace LinkedList

theorem list_put_alloc (al : Alloc) (fuel : Nat) (s : State) (k : Key) (v : Val)
    (h1 : al.node = true) (h2 : al.key = true) :
    SymTable_put al fuel s k v = SymTable_put allocOK fuel s k v := by
  simp only [SymTable_put, h1, h2, allocOK]

theorem list_put_alloc_fails (al : Alloc) (fuel : Nat) (s : State) (k : Key) (v : Val)
    (hc : SymTable_contains fuel s k = .ok 0) (h1 : ¬ (al.node = true ∧ al.key = true)) :
    SymTable_put al fuel s k v = .ok (s, 0) := by
  simp only [SymTable_put, hc, bind, Except.bind]
  cases hn : al.node
  · simp
  · cases hk : al.key
    · simp
    · exact absurd ⟨hn, hk⟩ h1

/-- Every call on a well-formed list-backed table returns and leaves a well-formed
table whose keys are among the earlier ones and the key of the put. -/
theorem WellFormed.list_step {s : State} {L : List Cell} (h : WellFormed s L) (abi : ABI)
    (al : Alloc) (op : Op) (fuel : Nat) (hf : s.length ≤ fuel) :
    ∃ s1 r L1, step abi al fuel s op = .ok (s1, r) ∧ WellFormed s1 L1
      ∧ s1.length ≤ s.length + 1
      ∧ (∀ x ∈ L1.map Cell.key, x ∈ L.map Cell.key ∨ x ∈ putKeys [(al, op)]) := by
  cases op with
  | put k v =>
    by_cases hk : k ∈ L.map Cell.key
    · exact ⟨s, .int 0, L, by simp only [step, bind, Except.bind, h.list_put_present al k v hk fuel hf],
        h, Nat.le_succ _, fun x hx => Or.inl hx⟩
    · by_cases hal : al.node = true ∧ al.key = true
      · obtain ⟨s2, h1, h2, h3, _⟩ := h.list_put_absent k v hk fuel hf
        rw [← list_put_alloc al fuel s k v hal.1 hal.2] at h1
        refine ⟨s2, .int 1, _, by simp only [step, bind, Except.bind, h1], h2, by omega, ?_⟩
        intro x hx
        rw [List.map_cons, List.mem_cons] at hx
        rcases hx with hx | hx
        · right
          have hx2 : x = k := hx
          simp [putKeys, hx2]
        · exact Or.inl hx
      · have hc : SymTable_contains fuel s k = .ok 0 := by
          rw [h.list_contains k fuel hf, if_neg hk]
        exact ⟨s, .int 0, L,
          by simp only [step, bind, Except.bind, list_put_alloc_fails al fuel s k v hc hal],
          h, Nat.le_succ _, fun x hx => Or.inl hx⟩
  | replace k v =>
    by_cases hk : k ∈ L.map Cell.key
    · obtain ⟨c, hc, hck⟩ := List.mem_map.1 hk
      have hl := lookup_of_mem h.keys hc
      rw [hck] at hl
      obtain ⟨s2, h1, h2⟩ := h.list_replace_present k v c hl fuel hf
      refine ⟨s2, .ptr c.val, _, by simp only [step, bind, Except.bind, h1], h2, ?_, ?_⟩
      · rw [h2.count, h.count, length_replaceFirst]; omega
      · intro x hx
        rw [map_key_replaceFirst] at hx
        exact Or.inl hx
    · exact ⟨s, .ptr 0, L, by simp only [step, bind, Except.bind, h.list_replace_absent k v hk fuel hf],
        h, Nat.le_succ _, fun x hx => Or.inl hx⟩
  | remove k =>
    by_cases hk : k ∈ L.map Cell.key
    · obtain ⟨c, hc, hck⟩ := List.mem_map.1 hk
      have hl := lookup_of_mem h.keys hc
      rw [hck] at hl
      obtain ⟨s2, h1, h2, h3⟩ := h.list_remove_present abi k c hl fuel hf
      refine ⟨s2, .ptr c.val, _, by simp only [step, bind, Except.bind, h1], h2, by omega, ?_⟩
      intro x hx
      exact Or.inl (((removeFirst_sublist k L).map Cell.key).subset hx)
    · exact ⟨s, .ptr 0, L, by simp only [step, bind, Except.bind, h.list_remove_absent abi k hk fuel hf],
        h, Nat.le_succ _, fun x hx => Or.inl hx⟩
  | get k =>
    exact ⟨s, _, L, by simp only [step, bind, Except.bind, h.list_get k fuel hf]; rfl, h,
      Nat.le_succ _, fun x hx => Or.inl hx⟩
  | contains k =>
    exact ⟨s, _, L, by simp only [step, bind, Except.bind, h.list_contains k fuel hf]; rfl, h,
      Nat.le_succ _, fun x hx => Or.inl hx⟩
  | getLength => exact ⟨s, _, L, rfl, h, Nat.le_succ _, fun x hx => Or.inl hx⟩

/-- Every run on a well-formed list-backed table returns, and ends in a
well-formed table whose keys are among the earlier ones and the keys of the puts. -/
theorem WellFormed.list_runWith (abi : ABI) (fuel : Nat) (ops : List (Alloc × Op)) :
    ∀ (s : State) (L : List Cell), WellFormed s L → s.length + ops.length ≤ fuel →
      ∃ s1 rs L1, runWith abi fuel s ops = .ok (s1, rs) ∧ WellFormed s1 L1
        ∧ s1.length ≤ s.length + ops.length
        ∧ (∀ x ∈ L1.map Cell.key, x ∈ L.map Cell.key ∨ x ∈ putKeys ops) := by
  induction ops with
  | nil =>
    intro s L h _
    exact ⟨s, [], L, rfl, h, Nat.le_refl _, fun x hx => Or.inl hx⟩
  | cons a ops ih =>
    intro s L h hf
    obtain ⟨al, op⟩ := a
    simp only [List.length_cons] at hf
    obtain ⟨s2, r2, L2, hst, w1, w2, w3⟩ := h.list_step abi al op fuel (by omega)
    obtain ⟨s3, rs3, L3, hrest, u1, u2, u3⟩ := ih s2 L2 w1 (by omega)
    refine ⟨s3, r2 :: rs3, L3, by simp only [runWith, bind, Except.bind, hst, hrest], u1,
      by simp only [List.length_cons]; omega, ?_⟩
    intro x hx
    rw [Hash.putKeys_cons, List.mem_append]
    rcases u3 x hx with hx | hx
    · rcases w3 x hx with hx | hx
      · exact Or.inl hx
      · exact Or.inr (Or.inl hx)
    · exact Or.inr (Or.inr hx)

end LinkedList
end SymTable

namespace SymTable

/-! ### The hash of the specification -/

theorem hashLoop_eq_spec (abi : ABI) (key : Key) :
    ∀ h, hashLoop abi h key = specAccumulate abi.sizeBits h (key.map (charToSize abi)) := by
  induction key with
  | nil => intro h; rfl
  | cons b rest ih =>
    intro h
    simp only [hashLoop, List.map_cons, specAccumulate]
    exact ih _

theorem map_charToSize (abi : ABI) (key : Key)
    (hb : abi.charSigned = false ∨ ∀ b ∈ key, b < 128) : key.map (charToSize abi) = key := by
  have : ∀ b ∈ key, charToSize abi b = b := by
    intro b hbk
    unfold charToSize
    rw [if_neg]
    rintro ⟨h1, h2⟩
    rcases hb with hb | hb
    · rw [hb] at h1; cases h1
    · have := hb b hbk; omega
  calc key.map (charToSize abi) = key.map id := List.map_congr_left this
    _ = key := List.map_id _

namespace Hash

/-! ### An expansion that runs forever -/

theorem deleteLoop_step (abi : ABI) (g : Nat) (s : State) (hc x : Nat) (k : Key) (nd : Node)
    (hx : s.heap[x]? = some (some nd)) (hk : nd.pcKey ≠ k) :
    deleteLoop abi (g + 1) s hc (some x) k = deleteLoop abi g s hc nd.psNextNode k := by
  simp only [deleteLoop, bind, Except.bind, readNode_of_get hx, if_neg hk]

/-- The scan of `SymTable_delete` never ends on two nodes that link to each other
when neither holds the key. -/
theorem deleteLoop_cycle (abi : ABI) (s : State) (hc : Nat) (k : Key) (a b : Nat)
    (na nb : Node) (ha : s.heap[a]? = some (some na)) (hb : s.heap[b]? = some (some nb))
    (hna : na.psNextNode = some b) (hnb : nb.psNextNode = some a)
    (hka : na.pcKey ≠ k) (hkb : nb.pcKey ≠ k) :
    ∀ fuel, deleteLoop abi fuel s hc (some a) k = .error .fuel
      ∧ deleteLoop abi fuel s hc (some b) k = .error .fuel := by
  intro fuel
  induction fuel with
  | zero => exact ⟨rfl, rfl⟩
  | succ g ih =>
    rw [deleteLoop_step abi g s hc a k na ha hka, deleteLoop_step abi g s hc b k nb hb hkb,
      hna, hnb]
    exact ⟨ih.2, ih.1⟩

theorem rehashChain_step (abi : ABI) (k : Key) (f : Nat) (t : State) (N : Buckets) (x : Nat)
    (nd : Node) (n m : Nat) (p : Option Nat) (hx : t.heap[x]? = some (some nd))
    (hn : stageCount (t.counter - 1) = .ok n) (hm : stageCount t.counter = .ok m)
    (hp : readBucket N (SymTable_hash abi nd.pcKey m) = .ok p) :
    rehashChain abi k (f + 1) t N (some x)
      = (do
          let r ← SymTable_delete abi f
            { t with heap := t.heap.set x (some { nd with psNextNode := p }) } k
            (SymTable_hash abi nd.pcKey n)
          let node1 ← readNode r.1.heap x
          rehashChain abi k f r.1 (N.set (SymTable_hash abi nd.pcKey m) (some x))
            node1.psNextNode) := by
  simp only [rehashChain, bind, Except.bind, readNode_of_get hx, hn, hm, SymTable_insert, hp]
  cases p <;> rfl

theorem deleteLoop_none (abi : ABI) (g : Nat) (s : State) (hc : Nat) (k : Key) :
    deleteLoop abi g s hc none k = .ok (s, 0) := by
  cases g <;> rfl

theorem rehashChain_none (abi : ABI) (k : Key) (g : Nat) (s : State) (N : Buckets) :
    rehashChain abi k g s N none = .ok (s, N) := by
  cases g <;> rfl

/-- The walk of the rehash over an old chain whose head `A` goes to an empty bucket
of the new array: the head is entered in the new array with its link cleared, and
the walk ends there, whatever followed the head in the old chain. -/
theorem rehashChain_head_only (abi : ABI) (k : Key) (cnt : Nat) (heap : Heap) (arr : Buckets)
    (len n m A i : Nat) (na : Node) (N : Buckets)
    (hn : stageCount cnt = .ok n) (hm : stageCount (cnt + 1) = .ok m)
    (hA : heap[A]? = some (some na)) (harr : arr[i]? = some (some A))
    (hh : SymTable_hash abi na.pcKey n = i)
    (hN : readBucket N (SymTable_hash abi na.pcKey m) = .ok none)
    (hk : na.pcKey ≠ k) (g : Nat) :
    rehashChain abi k (g + 2)
      { counter := cnt + 1, heap := heap, ppsSymNode := arr, length := len } N (some A)
      = .ok ({ counter := cnt + 1, heap := heap.set A (some { na with psNextNode := none }),
               ppsSymNode := arr, length := len },
             N.set (SymTable_hash abi na.pcKey m) (some A)) := by
  have hAlt : A < heap.length := (List.getElem?_eq_some.1 hA).1
  have hb : readBucket arr i = .ok (some A) := by simp [readBucket, harr]
  have h1A : (heap.set A (some { na with psNextNode := none }))[A]?
      = some (some { na with psNextNode := none }) := List.getElem?_set_self hAlt
  rw [rehashChain_step abi k (g + 1) _ _ A na n m none hA (by simpa using hn) hm hN]
  simp only [hh, SymTable_delete, bind, Except.bind, hb]
  rw [deleteLoop_step abi g _ i A k { na with psNextNode := none } h1A hk]
  simp only [deleteLoop_none, readNode_of_get h1A, rehashChain_none]

theorem rehash_collision_loops (abi : ABI) (k : Key) (cnt : Nat) (heap : Heap) (arr : Buckets)
    (len n m A C : Nat) (na nc : Node)
    (hn : stageCount cnt = .ok n) (hm : stageCount (cnt + 1) = .ok m) (hmpos : 0 < m)
    (hA : heap[A]? = some (some na)) (hC : heap[C]? = some (some nc)) (hAC : A ≠ C)
    (harr0 : arr[0]? = some (some A)) (harr1 : arr[1]? = some (some C))
    (hhA : SymTable_hash abi na.pcKey n = 0) (hhC : SymTable_hash abi nc.pcKey n = 1)
    (hcol : SymTable_hash abi nc.pcKey m = SymTable_hash abi na.pcKey m)
    (hkA : na.pcKey ≠ k) (hkC : nc.pcKey ≠ k) (fuel todo : Nat) :
    rehashBuckets abi k fuel (todo + 2) 0
      { counter := cnt + 1, heap := heap, ppsSymNode := arr, length := len }
      (List.replicate m none) = .error .fuel := by
  have hAlt : A < heap.length := (List.getElem?_eq_some.1 hA).1
  have hClt : C < heap.length := (List.getElem?_eq_some.1 hC).1
  have hjlt : SymTable_hash abi na.pcKey m < m := Nat.mod_lt _ hmpos
  have hb0 : readBucket arr 0 = .ok (some A) := by simp [readBucket, harr0]
  have hb1 : readBucket arr 1 = .ok (some C) := by simp [readBucket, harr1]
  have hN0 : readBucket (List.replicate m (none : Option Nat)) (SymTable_hash abi na.pcKey m)
      = .ok none := by
    simp [readBucket, List.getElem?_replicate, hjlt]
  obtain ⟨heap1, e1⟩ : ∃ x, x = heap.set A (some { na with psNextNode := none }) := ⟨_, rfl⟩
  have h1A : heap1[A]? = some (some { na with psNextNode := none }) := by
    rw [e1]; exact List.getElem?_set_self hAlt
  have h1C : heap1[C]? = some (some nc) := by
    rw [e1, List.getElem?_set_ne hAC]; exact hC
  have h1len : heap1.length = heap.length := by rw [e1]; exact List.length_set _ _ _
  obtain ⟨N1, f1⟩ : ∃ x, x = (List.replicate m (none : Option Nat)).set
      (SymTable_hash abi na.pcKey m) (some A) := ⟨_, rfl⟩
  have hN1 : readBucket N1 (SymTable_hash abi nc.pcKey m) = .ok (some A) := by
    rw [hcol, f1]
    simp [readBucket, List.getElem?_set_self, hjlt]
  have hN1len : N1.length = m := by rw [f1]; simp
  have hS1 : ∀ g, rehashChain abi k (g + 2)
      { counter := cnt + 1, heap := heap, ppsSymNode := arr, length := len }
      (List.replicate m none) (some A)
      = .ok ({ counter := cnt + 1, heap := heap1, ppsSymNode := arr, length := len }, N1) := by
    intro g
    rw [e1, f1]
    exact rehashChain_head_only abi k cnt heap arr len n m A 0 na _ hn hm hA harr0 hhA hN0 hkA g
  have hS1a : rehashChain abi k 0
      { counter := cnt + 1, heap := heap, ppsSymNode := arr, length := len }
      (List.replicate m none) (some A) = .error .fuel := rfl
  have hS1b : rehashChain abi k 1
      { counter := cnt + 1, heap := heap, ppsSymNode := arr, length := len }
      (List.replicate m none) (some A) = .error .fuel := by
    rw [rehashChain_step abi k 0 _ _ A na n m none hA (by simpa using hn) hm hN0]
    simp only [hhA, SymTable_delete, bind, Except.bind, hb0]
    rfl
  obtain ⟨heap2, e2⟩ : ∃ x, x = heap1.set C (some { nc with psNextNode := some A }) := ⟨_, rfl⟩
  have h2C : heap2[C]? = some (some { nc with psNextNode := some A }) := by
    rw [e2]; exact List.getElem?_set_self (by rw [h1len]; exact hClt)
  have h2A : heap2[A]? = some (some { na with psNextNode := none }) := by
    rw [e2, List.getElem?_set_ne (fun e => hAC e.symm)]; exact h1A
  obtain ⟨N2, f2⟩ : ∃ x, x = N1.set (SymTable_hash abi nc.pcKey m) (some C) := ⟨_, rfl⟩
  have hN2 : readBucket N2 (SymTable_hash abi na.pcKey m) = .ok (some C) := by
    rw [f2, hcol]
    simp [readBucket, List.getElem?_set_self, hjlt, hN1len]
  obtain ⟨heap3, e3⟩ : ∃ x, x = heap2.set A (some { na with psNextNode := some C }) := ⟨_, rfl⟩
  have h2len : heap2.length = heap.length := by rw [e2, List.length_set, h1len]
  have h3A : heap3[A]? = some (some { na with psNextNode := some C }) := by
    rw [e3]; exact List.getElem?_set_self (by rw [h2len]; exact hAlt)
  have h3C : heap3[C]? = some (some { nc with psNextNode := some A }) := by
    rw [e3, List.getElem?_set_ne hAC]; exact h2C
  have hS2 : ∀ f, rehashChain abi k f
      { counter := cnt + 1, heap := heap1, ppsSymNode := arr, length := len } N1 (some C)
      = .error .fuel := by
    intro f
    cases f with
    | zero => rfl
    | succ g =>
      rw [rehashChain_step abi k g _ _ C nc n m (some A) h1C (by simpa using hn) hm hN1]
      simp only [hhC, ← e2, ← f2, SymTable_delete, bind, Except.bind, hb1]
      cases g with
      | zero => rfl
      | succ g1 =>
        rw [deleteLoop_step abi g1 _ 1 C k { nc with psNextNode := some A } h2C hkC]
        cases g1 with
        | zero => rfl
        | succ g2 =>
          rw [deleteLoop_step abi g2 _ 1 A k { na with psNextNode := none } h2A hkA]
          simp only [deleteLoop_none, readNode_of_get h2C]
          rw [rehashChain_step abi k (g2 + 1) _ _ A { na with psNextNode := none } n m (some C)
            h2A (by simpa using hn) hm hN2]
          simp only [hhA, ← e3, SymTable_delete, bind, Except.bind, hb0]
          rw [(deleteLoop_cycle abi _ 0 k A C { na with psNextNode := some C }
            { nc with psNextNode := some A } h3A h3C rfl rfl hkA hkC (g2 + 1)).1]
  cases fuel with
  | zero => simp only [rehashBuckets, bind, Except.bind, hb0, hS1a]
  | succ f =>
    cases f with
    | zero => simp only [rehashBuckets, bind, Except.bind, hb0, hS1b]
    | succ g => simp only [rehashBuckets, bind, Except.bind, hb0, hS1 g, hb1, hS2]

/-- A put that expands a well-formed table in which the heads of buckets 0 and 1
fall into the same bucket of the next stage never ends: the second head is linked
in front of the first, the walk returns to the first and links it in front of
the second, and the scan of `SymTable_delete` then goes round the two nodes. -/
theorem WellFormed.put_loops {abi : ABI} {s : State} {B : List (List Cell)}
    (h : WellFormed abi s B) (k : Key) (v : Val) (hk : k ∉ B.flatten.map Cell.key)
    (hbig : B.length < s.length) (m : Nat) (hm : auBucketCounts[s.counter + 1]? = some m)
    (a c : Cell) (La Lc : List Cell) (h0 : B[0]? = some (a :: La))
    (h1 : B[1]? = some (c :: Lc))
    (hcol : SymTable_hash abi c.key m = SymTable_hash abi a.key m)
    (al : Alloc) (hal : al.bucketArray = true) (fuel : Nat) :
    SymTable_put abi al fuel s k v = .error .fuel := by
  have hlt := stage_strict h.stage hm
  have hB2 : 1 < B.length := (List.getElem?_eq_some.1 h1).1
  obtain ⟨todo, rfl⟩ : ∃ todo, m = todo + 2 := ⟨m - 2, by omega⟩
  have hla := h.linked 0 _ h0
  have hlc := h.linked 1 _ h1
  have hA := hla.1
  have hC := hlc.1
  have ha0 := h.placed 0 _ h0 a (List.mem_cons_self _ _)
  have hc1 := h.placed 1 _ h1 c (List.mem_cons_self _ _)
  have hkeys : a.key ≠ c.key := by
    intro e
    rw [e, hc1] at ha0
    cases ha0
  have hAC : a.addr ≠ c.addr := by
    intro e
    rw [e, hC] at hA
    simp only [Option.some.injEq, Node.mk.injEq] at hA
    exact hkeys hA.1.symm
  have hka : a.key ≠ k := by
    intro e
    exact hk (by rw [← e]; exact List.mem_map_of_mem _ (mem_flatten_of_get h0 (List.mem_cons_self _ _)))
  have hkc : c.key ≠ k := by
    intro e
    exact hk (by rw [← e]; exact List.mem_map_of_mem _ (mem_flatten_of_get h1 (List.mem_cons_self _ _)))
  have harr0 : s.ppsSymNode[0]? = some (some a.addr) := by
    simp [h.heads, List.getElem?_map, h0, headOf_cons]
  have harr1 : s.ppsSymNode[1]? = some (some c.addr) := by
    simp [h.heads, List.getElem?_map, h1, headOf_cons]
  have hst1 : Hash.stageCount (s.counter + 1) = .ok (todo + 2) := by
    simp [Hash.stageCount, hm]
  have hloop := rehash_collision_loops abi k s.counter s.heap s.ppsSymNode s.length B.length
    (todo + 2) a.addr c.addr _ _ h.stageCount hst1 (by omega) hA hC hAC harr0 harr1 ha0 hc1
    hcol hka hkc fuel todo
  unfold SymTable_put
  rcases h.contains_any k fuel with hc | hc
  · rw [hc]; rfl
  · rw [hc, if_neg hk]
    have hg : SymTable_getLength s > B.length := hbig
    have h01 : ¬ ((0 : Int) = 1) := by decide
    simp only [bind, Except.bind, h.stageCount, h01, if_false, hg, if_true, expand, hst1, hal,
      Bool.true_eq_false, hloop]

end Hash
end SymTable

namespace SymTable

theorem sampleKey_length (i : Nat) : (sampleKey i).length = 2 := rfl

theorem sampleBindings_key_length (n : Nat) :
    ∀ k ∈ (sampleBindings n).map Prod.fst, k.length = 2 := by
  intro k hk
  simp only [sampleBindings, List.map_map, List.mem_map, List.mem_range, Function.comp] at hk
  obtain ⟨i, _, rfl⟩ := hk
  rfl

theorem collidingBindings_length : collidingBindings.length = 510 := by
  simp only [collidingBindings, List.length_append, sampleBindings_length]
  rfl

theorem collidingBindings_keys :
    collidingBindings.map Prod.fst = (sampleBindings 508).map Prod.fst ++ [keyA, keyC] := by
  simp only [collidingBindings, List.map_append, List.map_cons, List.map_nil]

theorem collidingBindings_nodup : (collidingBindings.map Prod.fst).Nodup := by
  rw [collidingBindings_keys, List.nodup_append]
  refine ⟨sampleBindings_keys_nodup 508, by decide, ?_⟩
  intro k hk hk2
  have h2 := sampleBindings_key_length 508 k hk
  simp only [List.mem_cons, List.mem_singleton, List.not_mem_nil, or_false] at hk2
  rcases hk2 with rfl | rfl
  · cases h2
  · cases h2

theorem keyNew_not_colliding : keyNew ∉ collidingBindings.map Prod.fst := by
  rw [collidingBindings_keys, List.mem_append]
  rintro (hk | hk)
  · have h2 := sampleBindings_key_length 508 _ hk
    cases h2
  · revert hk
    decide

namespace Hash

theorem stage_index_zero {c : Nat} (h : auBucketCounts[c]? = some 509) : c = 0 := by
  have hc : c < 8 := by
    by_contra hn
    rw [List.getElem?_eq_none (by simpa [auBucketCounts] using hn)] at h
    cases h
  interval_cases c <;> simp [auBucketCounts] at h
  rfl

theorem fullTable_counter : fullTable.counter = 0 := by
  have h := fullTable_facts
  have hs := h.1.stage
  rw [h.2.1] at hs
  exact stage_index_zero hs

theorem chainsAfter_append (abi : ABI) (xs ys : List (Key × Val)) :
    ∀ (B : List (List Cell)) (a : Nat),
      chainsAfter abi B a (xs ++ ys) = chainsAfter abi (chainsAfter abi B a xs) (a + xs.length) ys := by
  induction xs with
  | nil => intro B a; rfl
  | cons kv rest ih =>
    intro B a
    rw [List.cons_append, chainsAfter, chainsAfter, ih, List.length_cons]
    congr 1
    omega

theorem collidingTable_facts :
    WellFormed abi64 collidingTable collidingChains
      ∧ collidingChains.length = 509
      ∧ collidingTable.length = 510
      ∧ collidingTable.counter = 0
      ∧ (∀ k, k ∈ collidingChains.flatten.map Cell.key → k ∈ collidingBindings.map Prod.fst)
      ∧ run abi64 allocOK 510 freshTable (putOps collidingBindings)
          = .ok (collidingTable, List.replicate 510 (Res.int 1))
      ∧ (∃ La, collidingChains[0]? = some ({ addr := 508, key := keyA, val := 509 } :: La))
      ∧ (∃ Lc, collidingChains[1]? = some ({ addr := 509, key := keyC, val := 510 } :: Lc)) := by
  obtain ⟨h1, h2, h3, h4, _, h6⟩ :=
    built_repr abi64 collidingBindings collidingBindings_nodup
      (by rw [collidingBindings_length]) 510 (by rw [collidingBindings_length])
  rw [collidingBindings_length] at h4 h1
  have hc : collidingTable.counter = 0 := by
    have hs := h2.stage
    rw [h3] at hs
    exact stage_index_zero hs
  obtain ⟨_, _, _, g4, _⟩ := tableOf_repr abi64 0 509 rfl (sampleBindings 508)
    (sampleBindings_keys_nodup 508)
  have hA : SymTable_hash abi64 keyA 509 = 0 := by decide
  have hC : SymTable_hash abi64 keyC 509 = 1 := by decide
  have hshape : collidingChains
      = ((chainsAfter abi64 (List.replicate 509 []) 0 (sampleBindings 508)).set 0
          ({ addr := 508, key := keyA, val := 509 }
            :: chainOf abi64 (chainsAfter abi64 (List.replicate 509 []) 0 (sampleBindings 508))
                keyA)).set 1
          ({ addr := 509, key := keyC, val := 510 }
            :: chainOf abi64
                ((chainsAfter abi64 (List.replicate 509 []) 0 (sampleBindings 508)).set 0
                  ({ addr := 508, key := keyA, val := 509 }
                    :: chainOf abi64
                        (chainsAfter abi64 (List.replicate 509 []) 0 (sampleBindings 508)) keyA))
                keyC) := by
    unfold collidingChains collidingBindings
    rw [chainsAfter_append, sampleBindings_length, Nat.zero_add]
    generalize chainsAfter abi64 (List.replicate 509 []) 0 (sampleBindings 508) = X at g4 ⊢
    simp only [chainsAfter, List.length_set, g4, hA, hC]
  refine ⟨h2, h3, h4, hc, h6, h1, ?_, ?_⟩
  · rw [hshape, List.getElem?_set_ne (by decide)]
    exact ⟨_, List.getElem?_set_self (by rw [g4]; decide)⟩
  · rw [hshape]
    exact ⟨_, List.getElem?_set_self (by rw [List.length_set, g4]; decide)⟩

/-- In an expansion of a well-formed table, the walk over an old chain `a :: La`
enters only the head `a` in the still empty new array and clears its link; the
nodes of `La` are entered in no bucket, and `length` is not changed. -/
theorem WellFormed.rehash_head_only {abi : ABI} {s : State} {B : List (List Cell)}
    (h : WellFormed abi s B) (k : Key) (hk : k ∉ B.flatten.map Cell.key) (m : Nat)
    (hm : auBucketCounts[s.counter + 1]? = some m) (i : Nat) (a : Cell) (La : List Cell)
    (hi : B[i]? = some (a :: La)) (g : Nat) :
    rehashChain abi k (g + 2)
      { counter := s.counter + 1, heap := s.heap, ppsSymNode := s.ppsSymNode,
        length := s.length }
      (List.replicate m none) (some a.addr)
      = .ok ({ counter := s.counter + 1,
               heap := s.heap.set a.addr
                 (some { pcKey := a.key, pvValue := a.val, psNextNode := none }),
               ppsSymNode := s.ppsSymNode, length := s.length },
             (List.replicate m none).set (SymTable_hash abi a.key m) (some a.addr)) := by
  have hlt := stage_strict h.stage hm
  have hmpos : 0 < m := by omega
  have hA := (h.linked i _ hi).1
  have hai := h.placed i _ hi a (List.mem_cons_self _ _)
  have hka : a.key ≠ k := by
    intro e
    exact hk (by rw [← e]; exact List.mem_map_of_mem _ (mem_flatten_of_get hi (List.mem_cons_self _ _)))
  have harr : s.ppsSymNode[i]? = some (some a.addr) := by
    simp [h.heads, List.getElem?_map, hi, headOf_cons]
  have hst1 : Hash.stageCount (s.counter + 1) = .ok m := by simp [Hash.stageCount, hm]
  have hN : SymTable.readBucket (List.replicate m (none : Option Nat)) (SymTable_hash abi a.key m)
      = .ok none := by
    simp [SymTable.readBucket, List.getElem?_replicate, Nat.mod_lt _ hmpos, SymTable_hash]
  exact rehashChain_head_only abi k s.counter s.heap s.ppsSymNode s.length B.length m a.addr i
    _ _ h.stageCount hst1 hA harr hai hN hka g

/-- A put of a new key whose expansion is abandoned because the new bucket array
cannot be allocated, at a stage that has a successor: the stage and the bucket
array stay, the node is prepended to its bucket, the value is 1, and every
binding, old and new, is retrievable. -/
theorem WellFormed.put_failed_growth {abi : ABI} {s : State} {B : List (List Cell)}
    (h : WellFormed abi s B) (k : Key) (v : Val) (hk : k ∉ B.flatten.map Cell.key)
    (m : Nat) (hm : auBucketCounts[s.counter + 1]? = some m)
    (al : Alloc) (hal : al.bucketArray = false) (hn : al.node = true) (hkey : al.key = true)
    (fuel : Nat) (hf : s.length + 1 ≤ fuel) :
    ∃ s1, SymTable_put abi al fuel s k v = .ok (s1, 1)
      ∧ s1.counter = s.counter
      ∧ s1.ppsSymNode = s.ppsSymNode.set (SymTable_hash abi k B.length) (some s.heap.length)
      ∧ s1.heap[s.heap.length]?
          = some (some { pcKey := k, pvValue := v,
                         psNextNode := (s.ppsSymNode[SymTable_hash abi k B.length]?).getD none })
      ∧ SymTable_getLength s1 = SymTable_getLength s + 1
      ∧ WellFormed abi s1 (B.set (SymTable_hash abi k B.length)
          ({ addr := s.heap.length, key := k, val := v } :: chainOf abi B k))
      ∧ SymTable_get abi fuel s1 k = .ok v
      ∧ (∀ c ∈ B.flatten, SymTable_get abi fuel s1 c.key = .ok c.val) := by
  have hput := h.put_absent_any k v hk al fuel (by omega) (Or.inr ⟨hal, m, hm⟩)
  rw [if_pos ⟨hn, hkey⟩] at hput
  have hw := h.insertNode k v hk
  have hl : (Hash.insertNode abi B.length s k v).length = s.length + 1 := rfl
  have hperm := h.put_perm k { addr := s.heap.length, key := k, val := v }
  refine ⟨_, hput, rfl, rfl, ?_, rfl, hw, ?_, ?_⟩
  · simp [Hash.insertNode]
  · exact hw.get_of_mem ⟨_, hperm.mem_iff.2 (List.mem_cons_self _ _), rfl, rfl⟩ fuel
      (by rw [hl]; exact hf)
  · intro c hc
    exact hw.get_of_mem ⟨c, hperm.mem_iff.2 (List.mem_cons_of_mem _ hc), rfl, rfl⟩ fuel
      (by rw [hl]; exact hf)

/-- After a run that returns, a key that the table did not hold at the start and
that no put of the run carried is absent. -/
theorem WellFormed.absent_after_run {abi : ABI} {s : State} {B : List (List Cell)}
    (h : WellFormed abi s B) (fuel : Nat) (ops : List (Alloc × Op))
    (hf : s.length + ops.length ≤ fuel) (s1 : State) (rs : List Res)
    (hrun : runWith abi fuel s ops = .ok (s1, rs)) (k : Key)
    (hk0 : k ∉ B.flatten.map Cell.key) (hk : k ∉ putKeys ops) :
    SymTable_contains abi fuel s1 k = .ok 0 ∧ SymTable_get abi fuel s1 k = .ok 0 := by
  obtain ⟨B1, w1, _, _, w4, w5⟩ := WellFormed.runWith_ok fuel ops s B h hf s1 rs hrun
  have hk1 : k ∉ B1.flatten.map Cell.key := by
    intro hm
    rcases w5 k hm with hm | hm
    · exact hk0 hm
    · exact hk hm
  have hf1 : s1.length ≤ fuel := by omega
  refine ⟨by rw [w1.contains k fuel hf1, if_neg hk1], ?_⟩
  rw [w1.get k fuel hf1, w1.lookup_absent hk1]

end Hash

namespace LinkedList

/-- After a run on the list backend, which always returns, a key that the table
did not hold at the start and that no put of the run carried is absent. -/
theorem WellFormed.list_absent_after_run {s : State} {L : List Cell} (h : WellFormed s L)
    (abi : ABI) (fuel : Nat) (ops : List (Alloc × Op)) (hf : s.length + ops.length ≤ fuel)
    (k : Key) (hk0 : k ∉ L.map Cell.key) (hk : k ∉ putKeys ops) :
    ∃ s1 rs, runWith abi fuel s ops = .ok (s1, rs)
      ∧ SymTable_contains fuel s1 k = .ok 0 ∧ SymTable_get fuel s1 k = .ok 0 := by
  obtain ⟨s1, rs, L1, hrun, w1, w2, w3⟩ := WellFormed.list_runWith abi fuel ops s L h hf
  have hk1 : k ∉ L1.map Cell.key := by
    intro hm
    rcases w3 k hm with hm | hm
    · exact hk0 hm
    · exact hk hm
  have hf1 : s1.length ≤ fuel := by omega
  refine ⟨s1, rs, hrun, by rw [w1.list_contains k fuel hf1, if_neg hk1], ?_⟩
  rw [w1.list_get k fuel hf1, (lookup_eq_none_iff k L1).2 hk1]

end LinkedList
end SymTable

namespace SymTable

theorem putKeys_withAlloc (al : Alloc) (kvs : List (Key × Val)) :
    putKeys (withAlloc al (putOps kvs)) = kvs.map Prod.fst := by
  induction kvs with
  | nil => rfl
  | cons kv rest ih =>
    simp only [withAlloc, putOps, List.map_cons, putKeys] at ih ⊢
    rw [ih]

namespace Hash

theorem runWith_withAlloc (abi : ABI) (al : Alloc) (fuel : Nat) (ops : List Op) :
    ∀ s, runWith abi fuel s (withAlloc al ops) = run abi al fuel s ops := by
  induction ops with
  | nil => intro s; rfl
  | cons op ops ih =>
    intro s
    simp only [withAlloc, List.map_cons, runWith, run, bind, Except.bind] at ih ⊢
    cases step abi al fuel s op with
    | error e => rfl
    | ok x => simp only [ih]

/-- A put of a new key whose node or key copy cannot be allocated returns 0 and
leaves the state as it was, when no expansion is due or the bucket array cannot be
allocated either (at a stage that has a successor). -/
theorem WellFormed.put_alloc_fails {abi : ABI} {s : State} {B : List (List Cell)}
    (h : WellFormed abi s B) (k : Key) (v : Val) (hk : k ∉ B.flatten.map Cell.key)
    (al : Alloc) (hal : al.node = false ∨ al.key = false) (fuel : Nat) (hf : s.length ≤ fuel)
    (hgo : s.length ≤ B.length
      ∨ (al.bucketArray = false ∧ ∃ m, auBucketCounts[s.counter + 1]? = some m)) :
    SymTable_put abi al fuel s k v = .ok (s, 0) := by
  rw [h.put_absent_any k v hk al fuel hf hgo, if_neg]
  rintro ⟨h1, h2⟩
  rcases hal with hal | hal
  · rw [hal] at h1; cases h1
  · rw [hal] at h2; cases h2

/-- Every table a run of calls reaches from a freshly created one, whatever the
allocations of each call do, is well-formed at stage 0 with 509 buckets: a call
that returns changes neither `counter` nor the size of the bucket array, so both
reads of the stage table that `SymTable_put` makes, at `counter` and at
`counter + 1`, stay inside its eight entries. -/
theorem reached_stage_zero (abi : ABI) (heap0 : Heap) (s0 : State)
    (hnew : SymTable_new true true 0 heap0 = some s0) (fuel : Nat) (ops : List (Alloc × Op))
    (hf : ops.length ≤ fuel) (s : State) (rs : List Res)
    (hrun : runWith abi fuel s0 ops = .ok (s, rs)) :
    ∃ B, WellFormed abi s B ∧ B.length = 509 ∧ s.counter = 0 ∧ s.ppsSymNode.length = 509
      ∧ s.counter + 1 < auBucketCounts.length ∧ s.length ≤ ops.length := by
  obtain ⟨t, e1, w0, l0, c0, _⟩ := WellFormed.new abi heap0
  rw [hnew] at e1
  cases e1
  obtain ⟨B, w1, w2, w3, w4, _⟩ := WellFormed.runWith_ok fuel ops s0 _ w0
    (by rw [l0]; omega) s rs hrun
  rw [List.length_replicate] at w2
  refine ⟨B, w1, w2, w3.trans c0, ?_, ?_, by omega⟩
  · rw [w1.heads, List.length_map, w2]
  · rw [w3, c0]; decide

end Hash

/-! ### Claims C11 to C18 -/

/-- C11 fails on the code. On the well-formed table of 510 bindings on 509
buckets, a `SymTable_put` of a new key whose node (or key copy) cannot be allocated
while the new bucket array can does not return 0: the expansion comes before the
allocation of the node and never returns, whatever the step budget. When the
bucket array cannot be allocated either, the call returns 0 and leaves the state
as it was. -/
theorem failed_insert_after_expansion_never_returns :
    Hash.WellFormed abi64 Hash.fullTable Hash.fullChains
      ∧ Hash.fullChains.length < Hash.fullTable.length
      ∧ sampleKey 510 ∉ Hash.fullChains.flatten.map Cell.key
      ∧ (∀ fuel r, Hash.SymTable_put abi64 allocNoNode fuel Hash.fullTable (sampleKey 510) 511
          ≠ .ok r)
      ∧ (∀ fuel r, Hash.SymTable_put abi64 allocNoKey fuel Hash.fullTable (sampleKey 510) 511
          ≠ .ok r)
      ∧ Hash.SymTable_put abi64 allocNothing 510 Hash.fullTable (sampleKey 510) 511
          = .ok (Hash.fullTable, 0) := by
  have h := Hash.fullTable_facts
  have hk := Hash.sampleKey_not_in_full 510 (Nat.le_refl 510)
  have hbig : Hash.fullChains.length < Hash.fullTable.length := by
    rw [h.2.1, h.2.2.1]; decide
  refine ⟨h.1, hbig, hk, ?_, ?_, ?_⟩
  · intro fuel
    exact h.1.put_grow_fails _ _ hk hbig allocNoNode rfl fuel
  · intro fuel
    exact h.1.put_grow_fails _ _ hk hbig allocNoKey rfl fuel
  · exact h.1.put_alloc_fails _ _ hk allocNothing (Or.inl rfl) 510 (by rw [h.2.2.1])
      (Or.inr ⟨rfl, 1021, by rw [Hash.fullTable_counter]; rfl⟩)

/-- C12. For every well-formed table whose length exceeds its bucket count, at a
stage that has a successor in `auBucketCounts`, and every key `k` not in the table:
when the bucket array of the next stage cannot be allocated while the node and the
copy of the key can, the expansion block gives the table back as it was and
`SymTable_put` returns 1; `counter` is what it was, the bucket array is the old one
with entry `hash(k)` modulo the old bucket count leading to the new node, that node
has been prepended to the chain of this bucket, the length has grown by one, the
new binding is retrievable and so is every earlier binding, with its value. Every
table a run reaches is at stage 0 (`Hash.reached_stage_zero`), which has a
successor. -/
theorem failed_growth_is_not_fatal (abi : ABI) (s : Hash.State) (B : List (List Cell))
    (hs : Hash.WellFormed abi s B) (_hbig : B.length < Hash.SymTable_getLength s)
    (hnext : s.counter + 1 < Hash.auBucketCounts.length)
    (k : Key) (v : Val) (hk : k ∉ B.flatten.map Cell.key)
    (al : Alloc) (harr : al.bucketArray = false) (hnode : al.node = true)
    (hkey : al.key = true) (fuel : Nat) (hf : s.length + 1 ≤ fuel) :
    Hash.expand abi al fuel s k = .ok s
      ∧ ∃ s1, Hash.SymTable_put abi al fuel s k v = .ok (s1, 1)
      ∧ s1.counter = s.counter
      ∧ s1.ppsSymNode = s.ppsSymNode.set (SymTable_hash abi k B.length) (some s.heap.length)
      ∧ s1.ppsSymNode.length = s.ppsSymNode.length
      ∧ s1.heap[s.heap.length]? = some (some
          { pcKey := k, pvValue := v,
            psNextNode := (s.ppsSymNode[SymTable_hash abi k B.length]?).getD none })
      ∧ Hash.WellFormed abi s1 (B.set (SymTable_hash abi k B.length)
          ({ addr := s.heap.length, key := k, val := v } :: Hash.chainOf abi B k))
      ∧ Hash.SymTable_getLength s1 = Hash.SymTable_getLength s + 1
      ∧ Hash.SymTable_get abi fuel s1 k = .ok v
      ∧ (∀ c ∈ B.flatten, Hash.SymTable_get abi fuel s1 c.key = .ok c.val) := by
  obtain ⟨s1, h1, h2, h3, h4, h5, h6, h7, h8⟩ := hs.put_failed_growth k v hk _
    (List.getElem?_eq_getElem hnext) al harr hnode hkey fuel hf
  exact ⟨Hash.expand_alloc_fail abi al fuel s k harr (List.getElem?_eq_getElem hnext),
    s1, h1, h2, h3, by rw [h3, List.length_set], h4, h6, h5, h7, h8⟩

theorem failed_growth_is_not_fatal_witness :
    (Hash.WellFormed abi64 Hash.fullTable Hash.fullChains
      ∧ Hash.fullChains.length < Hash.SymTable_getLength Hash.fullTable
      ∧ Hash.fullTable.counter + 1 < Hash.auBucketCounts.length
      ∧ sampleKey 510 ∉ Hash.fullChains.flatten.map Cell.key
      ∧ allocNoArray.bucketArray = false ∧ allocNoArray.node = true ∧ allocNoArray.key = true
      ∧ Hash.fullTable.length + 1 ≤ 511)
    ∧ Hash.expand abi64 allocNoArray 511 Hash.fullTable (sampleKey 510) = .ok Hash.fullTable
    ∧ ∃ s1, Hash.SymTable_put abi64 allocNoArray 511 Hash.fullTable (sampleKey 510) 511
          = .ok (s1, 1)
      ∧ s1.counter = Hash.fullTable.counter
      ∧ s1.ppsSymNode = Hash.fullTable.ppsSymNode.set
          (SymTable_hash abi64 (sampleKey 510) Hash.fullChains.length)
          (some Hash.fullTable.heap.length)
      ∧ s1.ppsSymNode.length = Hash.fullTable.ppsSymNode.length
      ∧ s1.heap[Hash.fullTable.heap.length]? = some (some
          { pcKey := sampleKey 510, pvValue := 511,
            psNextNode := (Hash.fullTable.ppsSymNode[SymTable_hash abi64 (sampleKey 510)
              Hash.fullChains.length]?).getD none })
      ∧ Hash.WellFormed abi64 s1 (Hash.fullChains.set
          (SymTable_hash abi64 (sampleKey 510) Hash.fullChains.length)
          ({ addr := Hash.fullTable.heap.length, key := sampleKey 510, val := 511 }
            :: Hash.chainOf abi64 Hash.fullChains (sampleKey 510)))
      ∧ Hash.SymTable_getLength s1 = Hash.SymTable_getLength Hash.fullTable + 1
      ∧ Hash.SymTable_get abi64 511 s1 (sampleKey 510) = .ok 511
      ∧ (∀ c ∈ Hash.fullChains.flatten, Hash.SymTable_get abi64 511 s1 c.key = .ok c.val) := by
  have h := Hash.fullTable_facts
  have hk := Hash.sampleKey_not_in_full 510 (Nat.le_refl 510)
  have hbig : Hash.fullChains.length < Hash.SymTable_getLength Hash.fullTable := by
    rw [Hash.getLength_eq, h.2.1, h.2.2.1]; decide
  have hnext : Hash.fullTable.counter + 1 < Hash.auBucketCounts.length := by
    rw [Hash.fullTable_counter]; decide
  have hf : Hash.fullTable.length + 1 ≤ 511 := by rw [h.2.2.1]
  exact ⟨⟨h.1, hbig, hnext, hk, rfl, rfl, rfl, hf⟩,
    failed_growth_is_not_fatal abi64 Hash.fullTable Hash.fullChains h.1 hbig hnext
      (sampleKey 510) 511 hk allocNoArray rfl rfl rfl 511 hf⟩

/-- C13 fails on the hash backend. Fresh tables have length 0 in both backends, and
on the list backend the key `sampleKey 600` is absent after the 511 puts of
`sampleKey 0 .. sampleKey 510`; on the hash backend this run of puts never
returns, whatever the step budget, so that no query can follow it. -/
theorem absent_key_query_after_511_puts :
    Hash.SymTable_getLength Hash.freshTable = 0
      ∧ LinkedList.SymTable_getLength LinkedList.freshTable = 0
      ∧ sampleKey 600 ∉ putKeys (withAlloc allocOK (putOps (sampleBindings 511)))
      ∧ (∃ t rs, LinkedList.runWith abi64 511 LinkedList.freshTable
            (withAlloc allocOK (putOps (sampleBindings 511))) = .ok (t, rs)
          ∧ LinkedList.SymTable_contains 511 t (sampleKey 600) = .ok 0
          ∧ LinkedList.SymTable_get 511 t (sampleKey 600) = .ok 0)
      ∧ ∀ fuel r, Hash.runWith abi64 fuel Hash.freshTable
          (withAlloc allocOK (putOps (sampleBindings 511))) ≠ .ok r := by
  have hlen : (withAlloc allocOK (putOps (sampleBindings 511))).length = 511 := by
    simp only [withAlloc, putOps, List.length_map, sampleBindings_length]
  have hk : sampleKey 600 ∉ putKeys (withAlloc allocOK (putOps (sampleBindings 511))) := by
    rw [putKeys_withAlloc]
    intro hm
    simp only [sampleBindings, List.map_map, List.mem_map, List.mem_range] at hm
    obtain ⟨j, hj, he⟩ := hm
    have := sampleKey_injective he
    omega
  refine ⟨rfl, rfl, hk, ?_, ?_⟩
  · exact LinkedList.list_freshTable_repr.list_absent_after_run abi64 511 _
      (by rw [hlen]; exact Nat.le_refl _) _ (by intro hm; cases hm) hk
  · intro fuel
    rw [Hash.runWith_withAlloc]
    have hflat : (List.replicate 509 ([] : List Cell)).flatten = [] := by
      rw [List.flatten_eq_nil_iff]
      intro L hL
      exact List.eq_of_mem_replicate hL
    have hl509 : (List.replicate 509 ([] : List Cell)).length = 509 :=
      List.length_replicate _ _
    have h0 : Hash.freshTable.length = 0 := rfl
    exact Hash.WellFormed.run_puts_overflow fuel (sampleBindings 511) _ _
      (Hash.freshTable_repr abi64) (sampleBindings_keys_nodup 511)
      (fun kv _ hm => by rw [hflat] at hm; cases hm)
      (by rw [h0]; omega) (by rw [hl509, h0, sampleBindings_length]; omega)

end SymTable

namespace SymTable

/-- C14 as stated fails where plain `char` is signed. On the x86-64 target the
one-byte key `0x80` hashes, for 509 buckets, to `(2^64 - 128) mod 509 = 174`,
whereas the accumulator over the byte value 128 gives `128`. -/
theorem hash_of_high_byte_on_signed_char_target :
    SymTable_hash abiSigned64 [128] 509 = 174 ∧ specHash 64 [128] 509 = 128
      ∧ SymTable_hash abiSigned64 [128] 509 ≠ specHash abiSigned64.sizeBits [128] 509 := by
  decide

/-- C14, amended. `SymTable_hash` is the accumulator of the specification over the
bytes converted from plain `char` to `size_t` (`charToSize`: the byte value, plus
`2^w - 256` for a byte of 128 or more where plain `char` is signed), reduced
modulo the bucket count; the result is below the bucket count; and it equals the
accumulator over the byte values themselves where plain `char` is unsigned or all
bytes are below 128. -/
theorem hash_is_accumulator_of_converted_bytes (abi : ABI) (key : Key) (m : Nat) (hm : 0 < m) :
    SymTable_hash abi key m = specHash abi.sizeBits (key.map (charToSize abi)) m
      ∧ SymTable_hash abi key m < m
      ∧ ((abi.charSigned = false ∨ ∀ b ∈ key, b < 128) →
          SymTable_hash abi key m = specHash abi.sizeBits key m) := by
  have h1 : SymTable_hash abi key m = specHash abi.sizeBits (key.map (charToSize abi)) m := by
    simp only [SymTable_hash, specHash, hashLoop_eq_spec]
  refine ⟨h1, Nat.mod_lt _ hm, ?_⟩
  intro hb
  rw [h1, map_charToSize abi key hb]

theorem hash_is_accumulator_of_converted_bytes_witness :
    0 < 509
      ∧ (SymTable_hash abiSigned64 [200, 65] 509
            = specHash abiSigned64.sizeBits ([200, 65].map (charToSize abiSigned64)) 509
          ∧ SymTable_hash abiSigned64 [200, 65] 509 < 509
          ∧ ((abiSigned64.charSigned = false ∨ ∀ b ∈ [200, 65], b < 128) →
              SymTable_hash abiSigned64 [200, 65] 509
                = specHash abiSigned64.sizeBits [200, 65] 509)) :=
  ⟨by decide, hash_is_accumulator_of_converted_bytes abiSigned64 [200, 65] 509 (by decide)⟩

/-- C15 fails on the code. The table reached from the fresh table by the 510 puts
of `collidingBindings` is well-formed and does not bind the key `"new"`; the heads
of its buckets 0 and 1 (keys `"rhhw"` and `"gjuj"`) both hash to bucket 2 of 1021.
With every allocation succeeding, `SymTable_put` of `"new"` exhausts every step
budget: the rehash links the two heads to each other and the scan of
`SymTable_delete` circles between them. -/
theorem expansion_with_colliding_heads_never_ends :
    Hash.run abi64 allocOK 510 Hash.freshTable (putOps collidingBindings)
        = .ok (Hash.collidingTable, List.replicate 510 (Res.int 1))
      ∧ Hash.WellFormed abi64 Hash.collidingTable Hash.collidingChains
      ∧ Hash.SymTable_contains abi64 510 Hash.collidingTable keyNew = .ok 0
      ∧ SymTable_hash abi64 keyA 1021 = SymTable_hash abi64 keyC 1021
      ∧ ∀ fuel, Hash.SymTable_put abi64 allocOK fuel Hash.collidingTable keyNew 511
          = .error .fuel := by
  obtain ⟨h1, h2, h3, h4, h5, h6, ⟨La, h7⟩, ⟨Lc, h8⟩⟩ := Hash.collidingTable_facts
  have hk : keyNew ∉ Hash.collidingChains.flatten.map Cell.key :=
    fun hm => keyNew_not_colliding (h5 _ hm)
  refine ⟨h6, h1, ?_, by decide, ?_⟩
  · rw [h1.contains _ 510 (by rw [h3]), if_neg hk]
  · intro fuel
    exact h1.put_loops keyNew 511 hk (by rw [h2, h3]; decide) 1021 (by rw [h4]; rfl)
      _ _ La Lc h7 h8 (by decide) allocOK rfl fuel

/-- C16 fails on the code for a put that expands the table. For every well-formed
table whose length exceeds its bucket count and every chain `a :: La` of it, the
walk of the rehash over this chain (started on the empty new array) enters the
head `a` alone in the new array, with its link cleared, and leaves `length` as it
was: the nodes of `La` are in no bucket of the new array though `length` still
counts them. And the put itself returns nothing, whatever the step budget, when
the new bucket array is allocated. -/
theorem growing_put_drops_chain_tails (abi : ABI) (s : Hash.State) (B : List (List Cell))
    (hs : Hash.WellFormed abi s B) (k : Key) (v : Val) (hk : k ∉ B.flatten.map Cell.key)
    (hbig : B.length < s.length) (m : Nat) (hm : Hash.auBucketCounts[s.counter + 1]? = some m)
    (i : Nat) (a : Cell) (La : List Cell) (hi : B[i]? = some (a :: La))
    (al : Alloc) (hal : al.bucketArray = true) :
    (∀ g, Hash.rehashChain abi k (g + 2)
        { counter := s.counter + 1, heap := s.heap, ppsSymNode := s.ppsSymNode,
          length := s.length }
        (List.replicate m none) (some a.addr)
        = .ok ({ counter := s.counter + 1,
                 heap := s.heap.set a.addr
                   (some { pcKey := a.key, pvValue := a.val, psNextNode := none }),
                 ppsSymNode := s.ppsSymNode, length := s.length },
               (List.replicate m none).set (SymTable_hash abi a.key m) (some a.addr)))
      ∧ ∀ fuel r, Hash.SymTable_put abi al fuel s k v ≠ .ok r :=
  ⟨hs.rehash_head_only k hk m hm i a La hi, fun fuel => hs.put_grow_fails k v hk hbig al hal fuel⟩

theorem growing_put_drops_chain_tails_witness :
    (Hash.WellFormed abi64 Hash.collidingTable Hash.collidingChains
      ∧ keyNew ∉ Hash.collidingChains.flatten.map Cell.key
      ∧ Hash.collidingChains.length < Hash.collidingTable.length
      ∧ Hash.auBucketCounts[Hash.collidingTable.counter + 1]? = some 1021
      ∧ Hash.collidingChains[0]?
          = some ({ addr := 508, key := keyA, val := 509 }
              :: ((Hash.collidingChains[0]?).getD []).tail)
      ∧ allocOK.bucketArray = true)
    ∧ ((∀ g, Hash.rehashChain abi64 keyNew (g + 2)
          { counter := Hash.collidingTable.counter + 1, heap := Hash.collidingTable.heap,
            ppsSymNode := Hash.collidingTable.ppsSymNode,
            length := Hash.collidingTable.length }
          (List.replicate 1021 none) (some 508)
          = .ok ({ counter := Hash.collidingTable.counter + 1,
                   heap := Hash.collidingTable.heap.set 508
                     (some { pcKey := keyA, pvValue := 509, psNextNode := none }),
                   ppsSymNode := Hash.collidingTable.ppsSymNode,
                   length := Hash.collidingTable.length },
                 (List.replicate 1021 none).set (SymTable_hash abi64 keyA 1021) (some 508)))
      ∧ ∀ fuel r, Hash.SymTable_put abi64 allocOK fuel Hash.collidingTable keyNew 511 ≠ .ok r) := by
  obtain ⟨h1, h2, h3, h4, h5, _, ⟨La, h7⟩, _⟩ := Hash.collidingTable_facts
  have hk : keyNew ∉ Hash.collidingChains.flatten.map Cell.key :=
    fun hm => keyNew_not_colliding (h5 _ hm)
  have hbig : Hash.collidingChains.length < Hash.collidingTable.length := by
    rw [h2, h3]; decide
  have hm : Hash.auBucketCounts[Hash.collidingTable.counter + 1]? = some 1021 := by
    rw [h4]; rfl
  have h0 : Hash.collidingChains[0]?
      = some ({ addr := 508, key := keyA, val := 509 }
          :: ((Hash.collidingChains[0]?).getD []).tail) := by
    rw [h7]; rfl
  exact ⟨⟨h1, hk, hbig, hm, h0, rfl⟩,
    growing_put_drops_chain_tails abi64 Hash.collidingTable Hash.collidingChains h1 keyNew 511
      hk hbig 1021 hm 0 { addr := 508, key := keyA, val := 509 } _ h0 allocOK rfl⟩

/-- C17 fails on the code for a put that expands the table. For every well-formed
table whose length exceeds its bucket count and every outcome of the allocations,
`SymTable_put` of a new key never ends in a table of the next stage: when the new
bucket array is allocated the call returns nothing, whatever the step budget, and
when it returns (the array allocation having failed) the stage and the number of
buckets are those from before the call. -/
theorem growing_put_never_reaches_next_stage (abi : ABI) (s : Hash.State)
    (B : List (List Cell)) (hs : Hash.WellFormed abi s B) (k : Key) (v : Val)
    (hk : k ∉ B.flatten.map Cell.key) (hbig : B.length < s.length) (al : Alloc) (fuel : Nat)
    (hf : s.length ≤ fuel) :
    (al.bucketArray = true → ∀ r, Hash.SymTable_put abi al fuel s k v ≠ .ok r)
      ∧ (∀ s1 r, Hash.SymTable_put abi al fuel s k v = .ok (s1, r) →
          s1.counter = s.counter ∧ s1.ppsSymNode.length = B.length
            ∧ Hash.stageCount s1.counter = .ok B.length) := by
  have hlen : s.ppsSymNode.length = B.length := by rw [hs.heads, List.length_map]
  refine ⟨fun hal => hs.put_grow_fails k v hk hbig al hal fuel, ?_⟩
  intro s1 r hput
  rcases hs.put_ok al k v fuel hf s1 r hput with ⟨e, _⟩ | ⟨_, e, _⟩
  · subst e
    exact ⟨rfl, hlen, hs.stageCount⟩
  · subst e
    exact ⟨rfl, by simp only [Hash.insertNode, List.length_set, hlen], hs.stageCount⟩

theorem growing_put_never_reaches_next_stage_witness :
    (Hash.WellFormed abi64 Hash.fullTable Hash.fullChains
      ∧ sampleKey 510 ∉ Hash.fullChains.flatten.map Cell.key
      ∧ Hash.fullChains.length < Hash.fullTable.length
      ∧ Hash.fullTable.length ≤ 510)
    ∧ ((allocOK.bucketArray = true →
          ∀ r, Hash.SymTable_put abi64 allocOK 510 Hash.fullTable (sampleKey 510) 511 ≠ .ok r)
      ∧ (∀ s1 r, Hash.SymTable_put abi64 allocOK 510 Hash.fullTable (sampleKey 510) 511
            = .ok (s1, r) →
          s1.counter = Hash.fullTable.counter ∧ s1.ppsSymNode.length = Hash.fullChains.length
            ∧ Hash.stageCount s1.counter = .ok Hash.fullChains.length)) := by
  have h := Hash.fullTable_facts
  have hk := Hash.sampleKey_not_in_full 510 (Nat.le_refl 510)
  have hbig : Hash.fullChains.length < Hash.fullTable.length := by
    rw [h.2.1, h.2.2.1]; decide
  have hf : Hash.fullTable.length ≤ 510 := by rw [h.2.2.1]
  exact ⟨⟨h.1, hk, hbig, hf⟩,
    growing_put_never_reaches_next_stage abi64 Hash.fullTable Hash.fullChains h.1
      (sampleKey 510) 511 hk hbig allocOK 510 hf⟩

end SymTable

namespace SymTable

theorem bindings_keys (L : List Cell) : (bindings L).map Prod.fst = L.map Cell.key := by
  simp only [bindings, List.map_map]
  rfl

/-- C18. In both backends, every table reached from a freshly created one by a run
of interface calls, with any outcome of the allocations of each call, is
well-formed: the bindings that `SymTable_map` visits, which in the hash backend
are those of all buckets, have pairwise distinct keys. On the list backend every
run returns; on the hash backend every run of at most 510 calls returns. -/
theorem keys_unique_in_reachable_tables (abi : ABI) (heapH heapL : Heap) (h0 : Hash.State)
    (l0 : LinkedList.State) (hnewH : Hash.SymTable_new true true 0 heapH = some h0)
    (hnewL : LinkedList.SymTable_new true heapL = some l0) (fuel : Nat)
    (ops : List (Alloc × Op)) (hf : ops.length ≤ fuel) :
    (∀ s rs, Hash.runWith abi fuel h0 ops = .ok (s, rs) →
        ∃ B, Hash.WellFormed abi s B
          ∧ Hash.SymTable_map fuel s = .ok (bindings B.flatten)
          ∧ ((bindings B.flatten).map Prod.fst).Nodup)
      ∧ (ops.length ≤ 510 → ∃ s rs, Hash.runWith abi fuel h0 ops = .ok (s, rs))
      ∧ (∃ s rs L, LinkedList.runWith abi fuel l0 ops = .ok (s, rs)
          ∧ LinkedList.WellFormed s L
          ∧ LinkedList.SymTable_map fuel s = .ok (bindings L)
          ∧ ((bindings L).map Prod.fst).Nodup) := by
  obtain ⟨sH, e1, wH, lH, _, _⟩ := Hash.WellFormed.new abi heapH
  rw [hnewH] at e1
  cases e1
  obtain ⟨sL, e2, wL⟩ := LinkedList.WellFormed.list_new heapL
  rw [hnewL] at e2
  cases e2
  have lL : l0.length = 0 := by rw [wL.count]; rfl
  have hl509 : (List.replicate 509 ([] : List Cell)).length = 509 := List.length_replicate _ _
  refine ⟨?_, ?_, ?_⟩
  · intro s rs hrun
    obtain ⟨B, w1, _, _, w4, _⟩ := Hash.WellFormed.runWith_ok fuel ops h0 _ wH
      (by rw [lH]; omega) s rs hrun
    exact ⟨B, w1, w1.map fuel (by omega), by rw [bindings_keys]; exact w1.keys⟩
  · intro h510
    exact Hash.WellFormed.runWith_total fuel ops h0 _ wH (by rw [lH]; omega)
      (by rw [lH, hl509]; omega)
  · obtain ⟨s, rs, L, hrun, w1, w2, _⟩ := LinkedList.WellFormed.list_runWith abi fuel ops l0 _ wL
      (by rw [lL]; omega)
    exact ⟨s, rs, L, hrun, w1, w1.list_map fuel (by omega),
      by rw [bindings_keys]; exact w1.keys⟩

theorem keys_unique_in_reachable_tables_witness :
    (Hash.SymTable_new true true 0 [] = some Hash.freshTable
      ∧ LinkedList.SymTable_new true [] = some LinkedList.freshTable
      ∧ mixedOps.length ≤ 6)
    ∧ ((∀ s rs, Hash.runWith abi64 6 Hash.freshTable mixedOps = .ok (s, rs) →
          ∃ B, Hash.WellFormed abi64 s B
            ∧ Hash.SymTable_map 6 s = .ok (bindings B.flatten)
            ∧ ((bindings B.flatten).map Prod.fst).Nodup)
      ∧ (mixedOps.length ≤ 510 → ∃ s rs, Hash.runWith abi64 6 Hash.freshTable mixedOps = .ok (s, rs))
      ∧ (∃ s rs L, LinkedList.runWith abi64 6 LinkedList.freshTable mixedOps = .ok (s, rs)
          ∧ LinkedList.WellFormed s L
          ∧ LinkedList.SymTable_map 6 s = .ok (bindings L)
          ∧ ((bindings L).map Prod.fst).Nodup)) :=
  ⟨⟨rfl, rfl, by decide⟩,
   keys_unique_in_reachable_tables abi64 [] [] Hash.freshTable LinkedList.freshTable rfl rfl 6
     mixedOps (by decide)⟩

end SymTable

namespace SymTable
namespace Hash

/-! ### The rehash loop up to the end of the old bucket array -/

theorem WellFormed.heads_differ {abi : ABI} {s : State} {B : List (List Cell)}
    (h : WellFormed abi s B) {i j : Nat} {a b : Cell} {La Lb : List Cell}
    (hi : B[i]? = some (a :: La)) (hj : B[j]? = some (b :: Lb)) (hij : i ≠ j) :
    a.addr ≠ b.addr := by
  intro e
  have hA := (h.linked i _ hi).1
  have hB := (h.linked j _ hj).1
  rw [e, hB] at hA
  simp only [Option.some.injEq, Node.mk.injEq] at hA
  have ha := h.placed i _ hi a (List.mem_cons_self _ _)
  have hb := h.placed j _ hj b (List.mem_cons_self _ _)
  rw [← hA.1, hb] at ha
  exact hij ha.symm

theorem Rehashed.start {abi : ABI} {s : State} {B : List (List Cell)}
    (h : WellFormed abi s B) (m : Nat) :
    Rehashed abi s B m 0
      { counter := s.counter + 1, heap := s.heap, ppsSymNode := s.ppsSymNode,
        length := s.length }
      (List.replicate m none) := by
  refine ⟨rfl, rfl, rfl, ?_, List.length_replicate _ _, ?_⟩
  · intro j a La _ hj
    exact (h.linked j _ hj).1
  · intro idx x hx
    rw [List.getElem?_replicate] at hx
    split at hx
    · cases hx
    · cases hx

theorem Rehashed.step {abi : ABI} {s : State} {B : List (List Cell)} {m i : Nat} {t : State}
    {N : Buckets} (r : Rehashed abi s B m i t N) (h : WellFormed abi s B) (k : Key)
    (hk : k ∉ B.flatten.map Cell.key) (hm : auBucketCounts[s.counter + 1]? = some m)
    (hap : HeadsApart abi B m) (hi : i < B.length) (g todo : Nat) :
    ∃ t1 N1, rehashBuckets abi k (g + 2) (todo + 1) i t N
        = rehashBuckets abi k (g + 2) todo (i + 1) t1 N1
      ∧ Rehashed abi s B m (i + 1) t1 N1 := by
  have hget : B[i]? = some B[i] := List.getElem?_eq_getElem hi
  have hlt := stage_strict h.stage hm
  have hmpos : 0 < m := by omega
  have hrb : SymTable.readBucket t.ppsSymNode i = .ok (headOf B[i]) := by
    simp [SymTable.readBucket, r.array, h.heads, List.getElem?_map, hget]
  cases hL : B[i] with
  | nil =>
    rw [hL] at hrb hget
    refine ⟨t, N, ?_, r.counter, r.array, r.length, ?_, r.size, ?_⟩
    · simp only [rehashBuckets, bind, Except.bind, hrb, headOf_nil, rehashChain_none]
    · intro j a La hj hB
      exact r.heads j a La (by omega) hB
    · intro idx x hx
      obtain ⟨j, a, La, hj, hB, he⟩ := r.entries idx x hx
      exact ⟨j, a, La, by omega, hB, he⟩
  | cons a La =>
    rw [hL] at hrb hget
    have hA := r.heads i a La (Nat.le_refl _) hget
    have hai := h.placed i _ hget a (List.mem_cons_self _ _)
    have hka : a.key ≠ k := by
      intro e
      exact hk (by
        rw [← e]
        exact List.mem_map_of_mem _ (mem_flatten_of_get hget (List.mem_cons_self _ _)))
    have hjlt : SymTable_hash abi a.key m < m := Nat.mod_lt _ hmpos
    have hN : SymTable.readBucket N (SymTable_hash abi a.key m) = .ok none := by
      cases hy : N[SymTable_hash abi a.key m]? with
      | none =>
        have := List.getElem?_eq_none_iff.1 hy
        rw [r.size] at this
        omega
      | some y =>
        cases y with
        | none => simp [SymTable.readBucket, hy]
        | some x =>
          obtain ⟨j, b, Lb, hj, hB, he⟩ := r.entries _ x hy
          have := hap j i b a Lb La hB hget he
          omega
    have harr : t.ppsSymNode[i]? = some (some a.addr) := by
      simp [r.array, h.heads, List.getElem?_map, hget, headOf_cons]
    have hst0 : Hash.stageCount s.counter = .ok B.length := h.stageCount
    have hst1 : Hash.stageCount (s.counter + 1) = .ok m := by simp [Hash.stageCount, hm]
    have hhead := rehashChain_head_only abi k s.counter t.heap t.ppsSymNode t.length B.length m
      a.addr i _ N hst0 hst1 hA harr hai hN hka g
    have ht : t = { counter := s.counter + 1, heap := t.heap, ppsSymNode := t.ppsSymNode,
                    length := t.length } := by
      cases t
      simp only [State.mk.injEq, and_true, true_and]
      exact r.counter
    refine ⟨{ counter := s.counter + 1,
              heap := t.heap.set a.addr
                (some { pcKey := a.key, pvValue := a.val, psNextNode := none }),
              ppsSymNode := t.ppsSymNode, length := t.length },
            N.set (SymTable_hash abi a.key m) (some a.addr),
            ?_, rfl, r.array, r.length, ?_, ?_, ?_⟩
    · rw [rehashBuckets]
      simp only [bind, Except.bind, hrb, headOf_cons]
      rw [ht, hhead]
    · intro j b Lb hj hB
      have hne : a.addr ≠ b.addr := h.heads_differ hget hB (by omega)
      show (t.heap.set a.addr _)[b.addr]? = _
      rw [List.getElem?_set_ne hne]
      exact r.heads j b Lb (by omega) hB
    · rw [List.length_set]; exact r.size
    · intro idx x hx
      rw [List.getElem?_set] at hx
      by_cases he : SymTable_hash abi a.key m = idx
      · exact ⟨i, a, La, Nat.lt_succ_self _, hget, he⟩
      · rw [if_neg he] at hx
        obtain ⟨j, b, Lb, hj, hB, he2⟩ := r.entries idx x hx
        exact ⟨j, b, Lb, by omega, hB, he2⟩

theorem Rehashed.run {abi : ABI} {s : State} {B : List (List Cell)} {m : Nat}
    (h : WellFormed abi s B) (k : Key) (hk : k ∉ B.flatten.map Cell.key)
    (hm : auBucketCounts[s.counter + 1]? = some m) (hap : HeadsApart abi B m) (g todo : Nat) :
    ∀ (d i : Nat) (t : State) (N : Buckets), i + d = B.length → Rehashed abi s B m i t N →
      ∃ t1 N1, rehashBuckets abi k (g + 2) (d + todo) i t N
          = rehashBuckets abi k (g + 2) todo B.length t1 N1
        ∧ Rehashed abi s B m B.length t1 N1 := by
  intro d
  induction d with
  | zero =>
    intro i t N hi r
    have : i = B.length := by omega
    subst this
    exact ⟨t, N, by rw [Nat.zero_add], r⟩
  | succ d ih =>
    intro i t N hi r
    obtain ⟨t1, N1, e1, r1⟩ := r.step h k hk hm hap (by omega) g (d + todo)
    obtain ⟨t2, N2, e2, r2⟩ := ih (i + 1) t1 N1 (by omega) r1
    refine ⟨t2, N2, ?_, r2⟩
    rw [← e2, ← e1]
    congr 1
    omega

end Hash
end SymTable

namespace SymTable

theorem crowdedKey_injective : Function.Injective crowdedKey := by
  intro i j h
  simp only [crowdedKey, List.cons.injEq, and_true] at h
  omega

theorem crowdedBindings_nodup : (crowdedBindings.map Prod.fst).Nodup := by
  have h1 : crowdedBindings.Sublist ((List.range 1016).map (fun j => (crowdedKey j, j + 1))) :=
    List.filter_sublist _
  have hsub : (crowdedBindings.map Prod.fst).Sublist ((List.range 1016).map crowdedKey) := by
    have h2 := h1.map Prod.fst
    rw [List.map_map] at h2
    exact h2
  exact ((List.nodup_range 1016).map crowdedKey_injective).sublist hsub

theorem crowdedBindings_length : crowdedBindings.length = 510 := by decide!

theorem crowdedBindings_bucket :
    ∀ k ∈ crowdedBindings.map Prod.fst, SymTable_hash abi64 k 509 = 0 := by
  intro k hk
  obtain ⟨kv, hkv, rfl⟩ := List.mem_map.1 hk
  have := (List.mem_filter.1 hkv).2
  exact (of_decide_eq_true this).1

namespace Hash

/-- An expansion of a well-formed table whose chain heads fall into pairwise
different buckets of the next stage: the rehash loop passes all buckets of the old
array and goes on, its counter at the old bucket count, where its read of the old
array is out of bounds. -/
theorem WellFormed.put_reads_past_array {abi : ABI} {s : State} {B : List (List Cell)}
    (h : WellFormed abi s B) (k : Key) (v : Val) (hk : k ∉ B.flatten.map Cell.key)
    (hbig : B.length < s.length) (m : Nat) (hm : auBucketCounts[s.counter + 1]? = some m)
    (hap : HeadsApart abi B m) (al : Alloc) (hal : al.bucketArray = true) (fuel : Nat)
    (hf : s.length ≤ fuel) :
    (∃ t N, rehashBuckets abi k fuel m 0
          { counter := s.counter + 1, heap := s.heap, ppsSymNode := s.ppsSymNode,
            length := s.length }
          (List.replicate m none)
        = rehashBuckets abi k fuel (m - B.length) B.length t N
      ∧ t.ppsSymNode = s.ppsSymNode
      ∧ SymTable.readBucket t.ppsSymNode B.length = .error .fault
      ∧ rehashBuckets abi k fuel (m - B.length) B.length t N = .error .fault)
      ∧ s.ppsSymNode.length = B.length
      ∧ 0 < m - B.length
      ∧ SymTable_put abi al fuel s k v = .error .fault := by
  have hlt := stage_strict h.stage hm
  have hpos := h.length_pos
  have hlen : s.ppsSymNode.length = B.length := by rw [h.heads, List.length_map]
  obtain ⟨g, rfl⟩ : ∃ g, fuel = g + 2 := ⟨fuel - 2, by omega⟩
  obtain ⟨todo, htodo⟩ : ∃ todo, m - B.length = todo + 1 := ⟨m - B.length - 1, by omega⟩
  obtain ⟨t, N, e, r⟩ := Rehashed.run h k hk hm hap g (m - B.length) B.length 0 _ _
    (Nat.zero_add _) (Rehashed.start h m)
  have hm2 : B.length + (m - B.length) = m := by omega
  rw [hm2] at e
  have hrb : SymTable.readBucket t.ppsSymNode B.length = .error .fault := by
    have hnone : t.ppsSymNode[B.length]? = none := by
      rw [r.array]
      exact List.getElem?_eq_none (by rw [hlen])
    simp only [SymTable.readBucket, hnone]
  have hrest : rehashBuckets abi k (g + 2) (m - B.length) B.length t N = .error .fault := by
    rw [htodo]
    simp only [rehashBuckets, bind, Except.bind, hrb]
  have hst1 : Hash.stageCount (s.counter + 1) = .ok m := by simp [Hash.stageCount, hm]
  refine ⟨⟨t, N, e, r.array, hrb, hrest⟩, hlen, by omega, ?_⟩
  have hg : SymTable_getLength s > B.length := hbig
  have h01 : ¬ ((0 : Int) = 1) := by decide
  unfold SymTable_put
  rw [h.contains k _ hf, if_neg hk]
  simp only [bind, Except.bind, h.stageCount, h01, if_false, hg, if_true, expand, hst1, hal,
    Bool.true_eq_false, e, hrest]

/-- On a well-formed table every bucket index computed from a key is below the
number of entries of the bucket array, and this number is the count of the
current stage. -/
theorem WellFormed.index_in_bounds {abi : ABI} {s : State} {B : List (List Cell)}
    (h : WellFormed abi s B) :
    Hash.stageCount s.counter = .ok s.ppsSymNode.length
      ∧ ∀ k, SymTable_hash abi k s.ppsSymNode.length < s.ppsSymNode.length := by
  have hlen : s.ppsSymNode.length = B.length := by rw [h.heads, List.length_map]
  rw [hlen]
  exact ⟨h.stageCount, fun k => hash_lt abi k h.length_pos⟩

theorem crowdedTable_facts :
    WellFormed abi64 crowdedTable crowdedChains
      ∧ crowdedChains.length = 509
      ∧ crowdedTable.length = 510
      ∧ crowdedTable.counter = 0
      ∧ (∀ k, k ∈ crowdedChains.flatten.map Cell.key → k ∈ crowdedBindings.map Prod.fst)
      ∧ run abi64 allocOK 510 freshTable (putOps crowdedBindings)
          = .ok (crowdedTable, List.replicate 510 (Res.int 1))
      ∧ HeadsApart abi64 crowdedChains 1021
      ∧ keyNew ∉ crowdedChains.flatten.map Cell.key := by
  obtain ⟨h1, h2, h3, h4, _, h6⟩ :=
    built_repr abi64 crowdedBindings crowdedBindings_nodup
      (by rw [crowdedBindings_length]) 510 (by rw [crowdedBindings_length])
  rw [crowdedBindings_length] at h4 h1
  have hc : crowdedTable.counter = 0 := by
    have hs := h2.stage
    rw [h3] at hs
    exact stage_index_zero hs
  have hzero : ∀ (i : Nat) (a : Cell) (La : List Cell),
      crowdedChains[i]? = some (a :: La) → i = 0 := by
    intro i a La hi
    have hp := h2.placed i _ hi a (List.mem_cons_self _ _)
    have hmem := h6 _ (List.mem_map_of_mem Cell.key
      (mem_flatten_of_get hi (List.mem_cons_self _ _)))
    have hb := crowdedBindings_bucket _ hmem
    have hp2 : SymTable_hash abi64 a.key 509 = i := by
      rw [← hp]
      exact congrArg _ h3.symm
    omega
  refine ⟨h2, h3, h4, hc, h6, h1, ?_, ?_⟩
  · intro i j a b La Lb hi hj _
    rw [hzero i a La hi, hzero j b Lb hj]
  · intro hm
    have hb := crowdedBindings_bucket _ (h6 _ hm)
    revert hb
    decide

end Hash
end SymTable

namespace SymTable

/-! ### Removal and the other bindings -/

theorem removeFirst_eq_filter {k : Key} {L : List Cell} (hnd : (L.map Cell.key).Nodup) :
    removeFirst k L = L.filter (fun c => decide (c.key ≠ k)) := by
  induction L with
  | nil => rfl
  | cons d rest ih =>
    rw [List.map_cons, List.nodup_cons] at hnd
    by_cases hd : d.key = k
    · have hrest : rest.filter (fun c => decide (c.key ≠ k)) = rest := by
        rw [List.filter_eq_self]
        intro c hc
        have : c.key ≠ k := by
          intro e
          exact hnd.1 (by rw [hd, ← e]; exact List.mem_map_of_mem _ hc)
        simpa using this
      simp only [removeFirst, hd, if_true, List.filter_cons, ne_eq, not_true_eq_false,
        decide_False, Bool.false_eq_true, if_false, hrest]
    · simp only [removeFirst, hd, if_false, List.filter_cons, ne_eq, not_false_eq_true,
        decide_True, if_true, ih hnd.2]

theorem bindings_filter (k : Key) (L : List Cell) :
    bindings (L.filter (fun c => decide (c.key ≠ k)))
      = (bindings L).filter (fun kv => decide (kv.1 ≠ k)) := by
  simp only [bindings, List.filter_map]
  rfl

theorem mem_keys_filter {k k1 : Key} (hne : k1 ≠ k) (L : List Cell) :
    k1 ∈ (L.filter (fun c => decide (c.key ≠ k))).map Cell.key ↔ k1 ∈ L.map Cell.key := by
  simp only [List.mem_map, List.mem_filter, decide_eq_true_eq]
  constructor
  · rintro ⟨c, ⟨hc, _⟩, e⟩
    exact ⟨c, hc, e⟩
  · rintro ⟨c, hc, e⟩
    exact ⟨c, ⟨hc, by rw [e]; exact hne⟩, e⟩

namespace Hash

theorem WellFormed.flatten_remove {abi : ABI} {s : State} {B : List (List Cell)}
    (h : WellFormed abi s B) (k : Key) :
    (B.set (SymTable_hash abi k B.length) (removeFirst k (chainOf abi B k))).flatten
      = B.flatten.filter (fun c => decide (c.key ≠ k)) := by
  rw [List.filter_flatten]
  congr 1
  apply List.ext_getElem?
  intro i
  rw [List.getElem?_set, List.getElem?_map]
  by_cases hi : SymTable_hash abi k B.length = i
  · subst hi
    rw [if_pos rfl, if_pos (hash_lt abi k h.length_pos), h.get_chain k,
      removeFirst_eq_filter (h.chain_keys_nodup k)]
    rfl
  · rw [if_neg hi]
    cases hB : B[i]? with
    | none => rfl
    | some L =>
      have : L.filter (fun c => decide (c.key ≠ k)) = L := by
        rw [List.filter_eq_self]
        intro c hc
        have hp := h.placed i L hB c hc
        have : c.key ≠ k := by
          intro e
          rw [e] at hp
          exact hi hp
        simpa using this
      simp only [Option.map_some', this]

/-- Removal of a present key on the hash backend: every other key keeps its
`SymTable_contains` and `SymTable_get` results, and `SymTable_map` visits the
bindings it visited before, in the same order, without the one of the key. -/
theorem WellFormed.remove_frame {abi : ABI} {s : State} {B : List (List Cell)}
    (hs : WellFormed abi s B) {k : Key} {v : Val}
    (hb : ∃ c ∈ B.flatten, c.key = k ∧ c.val = v) (fuel : Nat) (hf : s.length ≤ fuel) :
    ∃ s1, SymTable_remove abi fuel s k = .ok (s1, v)
      ∧ (∀ k1, k1 ≠ k → ∃ c g, SymTable_contains abi fuel s k1 = .ok c
          ∧ SymTable_contains abi fuel s1 k1 = .ok c
          ∧ SymTable_get abi fuel s k1 = .ok g ∧ SymTable_get abi fuel s1 k1 = .ok g)
      ∧ (∃ kvs, SymTable_map fuel s = .ok kvs
          ∧ SymTable_map fuel s1 = .ok (kvs.filter (fun kv => decide (kv.1 ≠ k)))
          ∧ (kvs.filter (fun kv => decide (kv.1 ≠ k))).length + 1 = kvs.length) := by
  obtain ⟨c, hc, rfl, rfl⟩ := hb
  obtain ⟨s1, hrem, hrep, hlen, _⟩ :=
    hs.remove_present c.key c (hs.chain_lookup_of_mem hc) fuel hf
  have hf1 : s1.length ≤ fuel := by omega
  have hlt := hash_lt abi c.key hs.length_pos
  have hflat := hs.flatten_remove c.key
  refine ⟨s1, hrem, ?_, ?_⟩
  · intro k1 hne
    refine ⟨_, _, hs.contains k1 fuel hf, ?_, hs.get k1 fuel hf, ?_⟩
    · rw [hrep.contains k1 fuel hf1, hflat]
      by_cases hm : k1 ∈ B.flatten.map Cell.key
      · rw [if_pos hm, if_pos ((mem_keys_filter hne _).2 hm)]
      · rw [if_neg hm, if_neg (fun h2 => hm ((mem_keys_filter hne _).1 h2))]
    · rw [hrep.get k1 fuel hf1, chainOf_set abi B _ hlt]
      by_cases hh : SymTable_hash abi k1 B.length = SymTable_hash abi c.key B.length
      · rw [if_pos hh, lookup_removeFirst_ne hne]
        have : chainOf abi B k1 = chainOf abi B c.key := by
          unfold chainOf; rw [hh]
        rw [this]
      · rw [if_neg hh]
  · refine ⟨_, hs.map fuel hf, ?_, ?_⟩
    · rw [hrep.map fuel hf1, hflat, bindings_filter]
    · have h1 : (bindings B.flatten).length = s.length := by
        simp only [bindings, List.length_map, hs.count]
      have h2 : ((bindings B.flatten).filter (fun kv => decide (kv.1 ≠ c.key))).length
          = s1.length := by
        rw [← bindings_filter, ← hflat]
        simp only [bindings, List.length_map, hrep.count]
      rw [h1, h2]
      exact hlen

theorem threeTable_facts :
    WellFormed abi64 threeTable threeChains ∧ threeTable.length = 3
      ∧ (∀ kv ∈ threeBindings, ∃ c ∈ threeChains.flatten, c.key = kv.1 ∧ c.val = kv.2) := by
  obtain ⟨_, h2, _, h4, h5, _⟩ :=
    built_repr abi64 threeBindings (by decide) (by decide) 3 (by decide)
  exact ⟨h2, h4, h5⟩

end Hash

namespace LinkedList

/-- Removal of a present key on the list backend: every other key keeps its
`SymTable_contains` and `SymTable_get` results, and `SymTable_map` visits the
bindings it visited before, in the same order, without the one of the key. -/
theorem WellFormed.list_remove_frame {s : State} {L : List Cell} (hs : WellFormed s L)
    (abi : ABI) {k : Key} {v : Val} (hb : ∃ c ∈ L, c.key = k ∧ c.val = v) (fuel : Nat)
    (hf : s.length ≤ fuel) :
    ∃ s1, SymTable_remove abi fuel s k = .ok (s1, v)
      ∧ (∀ k1, k1 ≠ k → ∃ c g, SymTable_contains fuel s k1 = .ok c
          ∧ SymTable_contains fuel s1 k1 = .ok c
          ∧ SymTable_get fuel s k1 = .ok g ∧ SymTable_get fuel s1 k1 = .ok g)
      ∧ (∃ kvs, SymTable_map fuel s = .ok kvs
          ∧ SymTable_map fuel s1 = .ok (kvs.filter (fun kv => decide (kv.1 ≠ k)))
          ∧ (kvs.filter (fun kv => decide (kv.1 ≠ k))).length + 1 = kvs.length) := by
  obtain ⟨c, hc, rfl, rfl⟩ := hb
  obtain ⟨s1, hrem, hrep, hlen⟩ :=
    hs.list_remove_present abi c.key c (lookup_of_mem hs.keys hc) fuel hf
  have hf1 : s1.length ≤ fuel := by omega
  have hfil := @removeFirst_eq_filter c.key L hs.keys
  refine ⟨s1, hrem, ?_, ?_⟩
  · intro k1 hne
    refine ⟨_, _, hs.list_contains k1 fuel hf, ?_, hs.list_get k1 fuel hf, ?_⟩
    · rw [hrep.list_contains k1 fuel hf1, hfil]
      by_cases hm : k1 ∈ L.map Cell.key
      · rw [if_pos hm, if_pos ((mem_keys_filter hne _).2 hm)]
      · rw [if_neg hm, if_neg (fun h2 => hm ((mem_keys_filter hne _).1 h2))]
    · rw [hrep.list_get k1 fuel hf1, lookup_removeFirst_ne hne]
  · refine ⟨_, hs.list_map fuel hf, ?_, ?_⟩
    · rw [hrep.list_map fuel hf1, hfil, bindings_filter]
    · have h1 : (bindings L).length = s.length := by
        simp only [bindings, List.length_map, hs.count]
      have h2 : ((bindings L).filter (fun kv => decide (kv.1 ≠ c.key))).length = s1.length := by
        rw [← bindings_filter, ← hfil]
        simp only [bindings, List.length_map, hrep.count]
      rw [h1, h2]
      exact hlen

theorem list_threeTable_facts :
    WellFormed threeTable threeChain ∧ threeTable.length = 3
      ∧ (∀ kv ∈ threeBindings, ∃ c ∈ threeChain, c.key = kv.1 ∧ c.val = kv.2) := by
  obtain ⟨_, h2, h3, h4⟩ := list_built_repr abi64 threeBindings (by decide) 3 (by decide)
  exact ⟨h2, h3, h4⟩

end LinkedList
end SymTable

namespace SymTable

/-- The chain of the three nodes of `threeTable`, in both backends: the node of
`[2, 125]` is the head, that of `[1, 63]` the middle and that of `[1]` the last. -/
theorem threeChains_shape :
    Hash.threeChains[1]? = some [⟨2, [2, 125], 30⟩, ⟨1, [1, 63], 20⟩, ⟨0, [1], 10⟩]
      ∧ LinkedList.threeChain = [⟨2, [2, 125], 30⟩, ⟨1, [1, 63], 20⟩, ⟨0, [1], 10⟩] := by
  decide!

/-- C21 fails on the code in the expansion of `SymTable_put`. On a well-formed
table every index computed from a key is below the number of buckets, which is the
count of the current stage. But when a put expands a table whose chain heads fall
into pairwise different buckets of the next stage (`m` buckets), the rehash loop,
having passed the buckets of the old array, goes on with `m - n` iterations left
at the old bucket count `n`, and its read of the old array there is out of
bounds: the call faults. -/
theorem rehash_loop_reads_past_old_array (abi : ABI) (s : Hash.State) (B : List (List Cell))
    (hs : Hash.WellFormed abi s B) (k : Key) (v : Val) (hk : k ∉ B.flatten.map Cell.key)
    (hbig : B.length < s.length) (m : Nat) (hm : Hash.auBucketCounts[s.counter + 1]? = some m)
    (hap : Hash.HeadsApart abi B m) (al : Alloc) (hal : al.bucketArray = true) (fuel : Nat)
    (hf : s.length ≤ fuel) :
    (Hash.stageCount s.counter = .ok s.ppsSymNode.length
      ∧ ∀ k1, SymTable_hash abi k1 s.ppsSymNode.length < s.ppsSymNode.length)
    ∧ (∃ t N, Hash.rehashBuckets abi k fuel m 0
          { counter := s.counter + 1, heap := s.heap, ppsSymNode := s.ppsSymNode,
            length := s.length }
          (List.replicate m none)
        = Hash.rehashBuckets abi k fuel (m - B.length) B.length t N
      ∧ t.ppsSymNode = s.ppsSymNode
      ∧ readBucket t.ppsSymNode B.length = .error .fault
      ∧ Hash.rehashBuckets abi k fuel (m - B.length) B.length t N = .error .fault)
    ∧ s.ppsSymNode.length = B.length
    ∧ 0 < m - B.length
    ∧ Hash.SymTable_put abi al fuel s k v = .error .fault :=
  ⟨hs.index_in_bounds, hs.put_reads_past_array k v hk hbig m hm hap al hal fuel hf⟩

theorem rehash_loop_reads_past_old_array_witness :
    (Hash.WellFormed abi64 Hash.crowdedTable Hash.crowdedChains
      ∧ keyNew ∉ Hash.crowdedChains.flatten.map Cell.key
      ∧ Hash.crowdedChains.length < Hash.crowdedTable.length
      ∧ Hash.auBucketCounts[Hash.crowdedTable.counter + 1]? = some 1021
      ∧ Hash.HeadsApart abi64 Hash.crowdedChains 1021
      ∧ allocOK.bucketArray = true
      ∧ Hash.crowdedTable.length ≤ 510)
    ∧ ((Hash.stageCount Hash.crowdedTable.counter = .ok Hash.crowdedTable.ppsSymNode.length
        ∧ ∀ k1, SymTable_hash abi64 k1 Hash.crowdedTable.ppsSymNode.length
            < Hash.crowdedTable.ppsSymNode.length)
      ∧ (∃ t N, Hash.rehashBuckets abi64 keyNew 510 1021 0
            { counter := Hash.crowdedTable.counter + 1, heap := Hash.crowdedTable.heap,
              ppsSymNode := Hash.crowdedTable.ppsSymNode,
              length := Hash.crowdedTable.length }
            (List.replicate 1021 none)
          = Hash.rehashBuckets abi64 keyNew 510 (1021 - Hash.crowdedChains.length)
              Hash.crowdedChains.length t N
        ∧ t.ppsSymNode = Hash.crowdedTable.ppsSymNode
        ∧ readBucket t.ppsSymNode Hash.crowdedChains.length = .error .fault
        ∧ Hash.rehashBuckets abi64 keyNew 510 (1021 - Hash.crowdedChains.length)
            Hash.crowdedChains.length t N = .error .fault)
      ∧ Hash.crowdedTable.ppsSymNode.length = Hash.crowdedChains.length
      ∧ 0 < 1021 - Hash.crowdedChains.length
      ∧ Hash.SymTable_put abi64 allocOK 510 Hash.crowdedTable keyNew 511 = .error .fault) := by
  obtain ⟨h1, h2, h3, h4, _, _, h7, h8⟩ := Hash.crowdedTable_facts
  have hbig : Hash.crowdedChains.length < Hash.crowdedTable.length := by
    rw [h2, h3]; decide
  have hm : Hash.auBucketCounts[Hash.crowdedTable.counter + 1]? = some 1021 := by
    rw [h4]; rfl
  have hf : Hash.crowdedTable.length ≤ 510 := by rw [h3]
  exact ⟨⟨h1, h8, hbig, hm, h7, rfl, hf⟩,
    rehash_loop_reads_past_old_array abi64 Hash.crowdedTable Hash.crowdedChains h1 keyNew 511
      h8 hbig 1021 hm h7 allocOK rfl 510 hf⟩

/-- C22. In both backends, `SymTable_remove` of a key `k` that a well-formed table
binds returns its value and touches no other binding: every other key has the
same `SymTable_contains` and `SymTable_get` results after the call as before, and
`SymTable_map` visits afterwards the bindings it visited before, in the same
order, without the binding of `k` (one binding less). The node of `k` may be at
any place of its chain. -/
theorem remove_touches_only_removed_binding (abi : ABI) (fuel : Nat) (k : Key) (v : Val)
    (sH : Hash.State) (B : List (List Cell)) (hH : Hash.WellFormed abi sH B)
    (hbH : ∃ c ∈ B.flatten, c.key = k ∧ c.val = v) (hfH : sH.length ≤ fuel)
    (sL : LinkedList.State) (L : List Cell) (hL : LinkedList.WellFormed sL L)
    (hbL : ∃ c ∈ L, c.key = k ∧ c.val = v) (hfL : sL.length ≤ fuel) :
    (∃ s1, Hash.SymTable_remove abi fuel sH k = .ok (s1, v)
      ∧ (∀ k1, k1 ≠ k → ∃ c g, Hash.SymTable_contains abi fuel sH k1 = .ok c
          ∧ Hash.SymTable_contains abi fuel s1 k1 = .ok c
          ∧ Hash.SymTable_get abi fuel sH k1 = .ok g
          ∧ Hash.SymTable_get abi fuel s1 k1 = .ok g)
      ∧ (∃ kvs, Hash.SymTable_map fuel sH = .ok kvs
          ∧ Hash.SymTable_map fuel s1 = .ok (kvs.filter (fun kv => decide (kv.1 ≠ k)))
          ∧ (kvs.filter (fun kv => decide (kv.1 ≠ k))).length + 1 = kvs.length))
    ∧ (∃ s1, LinkedList.SymTable_remove abi fuel sL k = .ok (s1, v)
      ∧ (∀ k1, k1 ≠ k → ∃ c g, LinkedList.SymTable_contains fuel sL k1 = .ok c
          ∧ LinkedList.SymTable_contains fuel s1 k1 = .ok c
          ∧ LinkedList.SymTable_get fuel sL k1 = .ok g
          ∧ LinkedList.SymTable_get fuel s1 k1 = .ok g)
      ∧ (∃ kvs, LinkedList.SymTable_map fuel sL = .ok kvs
          ∧ LinkedList.SymTable_map fuel s1 = .ok (kvs.filter (fun kv => decide (kv.1 ≠ k)))
          ∧ (kvs.filter (fun kv => decide (kv.1 ≠ k))).length + 1 = kvs.length)) :=
  ⟨hH.remove_frame hbH fuel hfH, hL.list_remove_frame abi hbL fuel hfL⟩

theorem remove_touches_only_removed_binding_witness :
    (Hash.WellFormed abi64 Hash.threeTable Hash.threeChains
      ∧ Hash.threeChains[1]? = some [⟨2, [2, 125], 30⟩, ⟨1, [1, 63], 20⟩, ⟨0, [1], 10⟩]
      ∧ (∃ c ∈ Hash.threeChains.flatten, c.key = [1, 63] ∧ c.val = 20)
      ∧ Hash.threeTable.length ≤ 3
      ∧ LinkedList.WellFormed LinkedList.threeTable LinkedList.threeChain
      ∧ LinkedList.threeChain = [⟨2, [2, 125], 30⟩, ⟨1, [1, 63], 20⟩, ⟨0, [1], 10⟩]
      ∧ (∃ c ∈ LinkedList.threeChain, c.key = [1, 63] ∧ c.val = 20)
      ∧ LinkedList.threeTable.length ≤ 3)
    ∧ ((∃ s1, Hash.SymTable_remove abi64 3 Hash.threeTable [1, 63] = .ok (s1, 20)
        ∧ (∀ k1, k1 ≠ [1, 63] → ∃ c g, Hash.SymTable_contains abi64 3 Hash.threeTable k1 = .ok c
            ∧ Hash.SymTable_contains abi64 3 s1 k1 = .ok c
            ∧ Hash.SymTable_get abi64 3 Hash.threeTable k1 = .ok g
            ∧ Hash.SymTable_get abi64 3 s1 k1 = .ok g)
        ∧ (∃ kvs, Hash.SymTable_map 3 Hash.threeTable = .ok kvs
            ∧ Hash.SymTable_map 3 s1 = .ok (kvs.filter (fun kv => decide (kv.1 ≠ [1, 63])))
            ∧ (kvs.filter (fun kv => decide (kv.1 ≠ [1, 63]))).length + 1 = kvs.length))
      ∧ (∃ s1, LinkedList.SymTable_remove abi64 3 LinkedList.threeTable [1, 63] = .ok (s1, 20)
        ∧ (∀ k1, k1 ≠ [1, 63] → ∃ c g, LinkedList.SymTable_contains 3 LinkedList.threeTable k1 = .ok c
            ∧ LinkedList.SymTable_contains 3 s1 k1 = .ok c
            ∧ LinkedList.SymTable_get 3 LinkedList.threeTable k1 = .ok g
            ∧ LinkedList.SymTable_get 3 s1 k1 = .ok g)
        ∧ (∃ kvs, LinkedList.SymTable_map 3 LinkedList.threeTable = .ok kvs
            ∧ LinkedList.SymTable_map 3 s1 = .ok (kvs.filter (fun kv => decide (kv.1 ≠ [1, 63])))
            ∧ (kvs.filter (fun kv => decide (kv.1 ≠ [1, 63]))).length + 1 = kvs.length))) := by
  have hH := Hash.threeTable_facts
  have hL := LinkedList.list_threeTable_facts
  have hbH := hH.2.2 ([1, 63], 20) (by decide)
  have hbL := hL.2.2 ([1, 63], 20) (by decide)
  have hfH : Hash.threeTable.length ≤ 3 := by rw [hH.2.1]
  have hfL : LinkedList.threeTable.length ≤ 3 := by rw [hL.2.1]
  exact ⟨⟨hH.1, threeChains_shape.1, hbH, hfH, hL.1, threeChains_shape.2, hbL, hfL⟩,
    remove_touches_only_removed_binding abi64 3 [1, 63] 20 Hash.threeTable Hash.threeChains
      hH.1 hbH hfH LinkedList.threeTable LinkedList.threeChain hL.1 hbL hfL⟩

end SymTable

namespace SymTable
namespace Hash

/-! ### Two tables of one program -/

theorem WellFormed.chain_addr_mem {abi : ABI} {s : State} {B : List (List Cell)}
    (h : WellFormed abi s B) (k : Key) {a : Nat} (ha : a ∈ (chainOf abi B k).map Cell.addr) :
    a ∈ B.flatten.map Cell.addr := by
  rw [((flatten_perm_of_get (h.get_chain k)).map Cell.addr).mem_iff, List.map_append]
  exact List.mem_append_left _ ha

theorem WellFormed.addrs_set_subset {abi : ABI} {s : State} {B : List (List Cell)}
    (h : WellFormed abi s B) (k : Key) (L1 : List Cell)
    (hsub : ∀ x ∈ L1.map Cell.addr, x ∈ (chainOf abi B k).map Cell.addr) :
    ∀ x ∈ (B.set (SymTable_hash abi k B.length) L1).flatten.map Cell.addr,
      x ∈ B.flatten.map Cell.addr := by
  intro x hx
  have h1 := (flatten_set_perm (hash_lt abi k h.length_pos) L1).map Cell.addr
  have h2 := (flatten_perm_of_get (h.get_chain k)).map Cell.addr
  rw [h1.mem_iff, List.map_append, List.mem_append] at hx
  rw [h2.mem_iff, List.map_append, List.mem_append]
  rcases hx with hx | hx
  · exact Or.inl (hsub x hx)
  · exact Or.inr hx

theorem WellFormed.node_addr_lt {abi : ABI} {s : State} {B : List (List Cell)}
    (h : WellFormed abi s B) : ∀ a ∈ B.flatten.map Cell.addr, a < s.heap.length := by
  intro a ha
  obtain ⟨c, hc, rfl⟩ := List.mem_map.1 ha
  obtain ⟨i, L, hi, hcL⟩ := exists_get_of_mem_flatten hc
  exact (h.linked i L hi).addr_lt c hcL

/-- A `SymTable_replace` that returns changes no cell of the storage but cells of
nodes of the table. -/
theorem WellFormed.replace_heap {abi : ABI} {s : State} {B : List (List Cell)}
    (h : WellFormed abi s B) (k : Key) (v : Val) (fuel : Nat) (hf : s.length ≤ fuel)
    (s1 : State) (r : Val) (hrep : SymTable_replace abi fuel s k v = .ok (s1, r)) :
    ∀ a, a ∉ B.flatten.map Cell.addr → s1.heap[a]? = s.heap[a]? := by
  by_cases hk : k ∈ B.flatten.map Cell.key
  · obtain ⟨c, hc, hck⟩ := List.mem_map.1 hk
    have hl := h.chain_lookup_of_mem hc
    rw [hck] at hl
    have hlen : (chainOf abi B k).length ≤ fuel := le_trans (h.chain_length_le k) hf
    obtain ⟨heap1, h1, _, h3⟩ := replaceLoop_linked (h.linked _ _ (h.get_chain k))
      (h.chain_addrs_nodup k) k v fuel hlen
    have he : SymTable_replace abi fuel s k v = .ok ({ s with heap := heap1 }, c.val) := by
      unfold SymTable_replace
      rw [h.contains k fuel hf, if_pos hk]
      simp [bind, Except.bind, h.stageCount, h.readBucket k, h1, hl]
    rw [he] at hrep
    cases hrep
    intro a ha
    exact h3 a (fun hm => ha (h.chain_addr_mem k hm))
  · rw [h.replace_absent k v hk fuel hf] at hrep
    cases hrep
    intro a _
    rfl

/-- A `SymTable_remove` that returns changes no cell of the storage but cells of
nodes of the table. -/
theorem WellFormed.remove_heap {abi : ABI} {s : State} {B : List (List Cell)}
    (h : WellFormed abi s B) (k : Key) (fuel : Nat) (hf : s.length ≤ fuel)
    (s1 : State) (r : Val) (hrem : SymTable_remove abi fuel s k = .ok (s1, r)) :
    ∀ a, a ∉ B.flatten.map Cell.addr → s1.heap[a]? = s.heap[a]? := by
  by_cases hk : k ∈ B.flatten.map Cell.key
  · obtain ⟨c, hc, hck⟩ := List.mem_map.1 hk
    have hl := h.chain_lookup_of_mem hc
    rw [hck] at hl
    have hlen : (chainOf abi B k).length ≤ fuel := le_trans (h.chain_length_le k) hf
    obtain ⟨heap1, h1, _, h3⟩ := removeLoop_linked (h.linked _ _ (h.get_chain k))
      (h.chain_addrs_nodup k) k c hl fuel hlen
    have he : SymTable_remove abi fuel s k
        = .ok ({ s with heap := heap1,
                        ppsSymNode := s.ppsSymNode.set (SymTable_hash abi k B.length)
                          (headOf (removeFirst k (chainOf abi B k))),
                        length := sizeDec abi s.length }, c.val) := by
      unfold SymTable_remove
      rw [h.contains k fuel hf, if_pos hk]
      simp [bind, Except.bind, h.stageCount, h.readBucket k, h1]
    rw [he] at hrem
    cases hrem
    intro a ha
    exact h3 a (fun hm => ha (h.chain_addr_mem k hm))
  · rw [h.remove_absent k hk fuel hf] at hrem
    cases hrem
    intro a _
    rfl

/-- What a call that returns does to the table and to the node storage: the table
stays well-formed at its stage, its nodes are nodes it had or the one new cell,
and no other cell that existed is changed. -/
theorem WellFormed.step_frame {abi : ABI} {s : State} {B : List (List Cell)}
    (h : WellFormed abi s B) (al : Alloc) (op : Op) (fuel : Nat) (hf : s.length ≤ fuel)
    (s1 : State) (r : Res) (hstep : step abi al fuel s op = .ok (s1, r)) :
    ∃ B1, WellFormed abi s1 B1 ∧ B1.length = B.length ∧ s1.counter = s.counter
      ∧ s1.length ≤ s.length + 1
      ∧ (∀ a ∈ B1.flatten.map Cell.addr, a ∈ B.flatten.map Cell.addr ∨ a = s.heap.length)
      ∧ (∀ a, a < s.heap.length → a ∉ B.flatten.map Cell.addr → s1.heap[a]? = s.heap[a]?) := by
  have same : s1 = s → ∃ B1, WellFormed abi s1 B1 ∧ B1.length = B.length
      ∧ s1.counter = s.counter ∧ s1.length ≤ s.length + 1
      ∧ (∀ a ∈ B1.flatten.map Cell.addr, a ∈ B.flatten.map Cell.addr ∨ a = s.heap.length)
      ∧ (∀ a, a < s.heap.length → a ∉ B.flatten.map Cell.addr →
          s1.heap[a]? = s.heap[a]?) := by
    intro e
    subst e
    exact ⟨B, h, rfl, rfl, Nat.le_succ _, fun a ha => Or.inl ha, fun _ _ _ => rfl⟩
  cases op with
  | put k v =>
    simp only [step, bind, Except.bind] at hstep
    cases hp : SymTable_put abi al fuel s k v with
    | error e => rw [hp] at hstep; cases hstep
    | ok x =>
      obtain ⟨s2, r2⟩ := x
      rw [hp] at hstep
      cases hstep
      rcases h.put_ok al k v fuel hf _ _ hp with ⟨e, _⟩ | ⟨hk, e, _⟩
      · exact same e
      · subst e
        refine ⟨_, h.insertNode k v hk, List.length_set _ _ _, rfl, ?_, ?_, ?_⟩
        · simp [Hash.insertNode]
        · intro a ha
          rw [((h.put_perm k _).map Cell.addr).mem_iff, List.map_cons, List.mem_cons] at ha
          rcases ha with ha | ha
          · exact Or.inr ha
          · exact Or.inl ha
        · intro a ha _
          simp only [Hash.insertNode]
          exact List.getElem?_append_left ha
  | replace k v =>
    simp only [step, bind, Except.bind] at hstep
    cases hp : SymTable_replace abi fuel s k v with
    | error e => rw [hp] at hstep; cases hstep
    | ok x =>
      obtain ⟨s2, r2⟩ := x
      rw [hp] at hstep
      cases hstep
      have hheap := h.replace_heap k v fuel hf _ _ hp
      by_cases hk : k ∈ B.flatten.map Cell.key
      · obtain ⟨c, hc, hck⟩ := List.mem_map.1 hk
        have hl := h.chain_lookup_of_mem hc
        rw [hck] at hl
        obtain ⟨s3, h1, h2, h3, h4⟩ := h.replace_present k v c hl fuel hf
        rw [h1] at hp
        cases hp
        refine ⟨_, h2, List.length_set _ _ _, h4, (by show s2.length ≤ s.length + 1; omega), ?_, fun a _ ha => hheap a ha⟩
        intro a ha
        exact Or.inl (h.addrs_set_subset k _
          (by rw [map_addr_replaceFirst]; exact fun y hy => hy) a ha)
      · rw [h.replace_absent k v hk fuel hf] at hp
        cases hp
        exact same rfl
  | remove k =>
    simp only [step, bind, Except.bind] at hstep
    cases hp : SymTable_remove abi fuel s k with
    | error e => rw [hp] at hstep; cases hstep
    | ok x =>
      obtain ⟨s2, r2⟩ := x
      rw [hp] at hstep
      cases hstep
      have hheap := h.remove_heap k fuel hf _ _ hp
      by_cases hk : k ∈ B.flatten.map Cell.key
      · obtain ⟨c, hc, hck⟩ := List.mem_map.1 hk
        have hl := h.chain_lookup_of_mem hc
        rw [hck] at hl
        obtain ⟨s3, h1, h2, h3, h4⟩ := h.remove_present k c hl fuel hf
        rw [h1] at hp
        cases hp
        refine ⟨_, h2, List.length_set _ _ _, h4, (by show s2.length ≤ s.length + 1; omega), ?_, fun a _ ha => hheap a ha⟩
        intro a ha
        exact Or.inl (h.addrs_set_subset k _
          (fun y hy => ((removeFirst_sublist k _).map Cell.addr).subset hy) a ha)
      · rw [h.remove_absent k hk fuel hf] at hp
        cases hp
        exact same rfl
  | get k =>
    simp only [step, bind, Except.bind] at hstep
    split at hstep
    · cases hstep
    · cases hstep; exact same rfl
  | contains k =>
    simp only [step, bind, Except.bind] at hstep
    split at hstep
    · cases hstep
    · cases hstep; exact same rfl
  | getLength =>
    simp only [step] at hstep
    cases hstep
    exact same rfl

/-- A table stays well-formed, with the same chains, when `counter` is kept and
the storage is changed outside its nodes only. -/
theorem WellFormed.other_storage {abi : ABI} {s : State} {B : List (List Cell)}
    (h : WellFormed abi s B) (heap1 : Heap)
    (hsame : ∀ a ∈ B.flatten.map Cell.addr, heap1[a]? = s.heap[a]?) :
    WellFormed abi { counter := s.counter, heap := heap1, ppsSymNode := s.ppsSymNode,
                     length := s.length } B := by
  refine ⟨h.stage, h.heads, ?_, h.addrs, h.keys, h.placed, h.count⟩
  intro i L hL
  refine (h.linked i L hL).congr (fun c hc => hsame _ ?_)
  exact List.mem_map_of_mem _ (List.mem_flatten.2 ⟨L, List.getElem?_mem hL, hc⟩)

end Hash
end SymTable

namespace SymTable
namespace Hash

theorem Pair.tableA_afterA (w : Pair) (s : State) : (w.afterA s).tableA = s := rfl

theorem Pair.afterA_afterA (w : Pair) (s t : State) : (w.afterA s).afterA t = w.afterA t := rfl

theorem Pair.afterA_tableA (w : Pair) : w.afterA w.tableA = w := rfl

theorem runOn_append (abi : ABI) (fuel : Nat) (xs ys : List (Tab × Alloc × Op)) :
    ∀ w : Pair, runOn abi fuel w (xs ++ ys)
      = (match runOn abi fuel w xs with
         | .ok (w1, rs1) =>
           (match runOn abi fuel w1 ys with
            | .ok (w2, rs2) => .ok (w2, rs1 ++ rs2)
            | .error e => .error e)
         | .error e => .error e) := by
  induction xs with
  | nil =>
    intro w
    simp only [List.nil_append, runOn]
    cases runOn abi fuel w ys with
    | error e => rfl
    | ok x => rfl
  | cons x xs ih =>
    intro w
    obtain ⟨t, al, op⟩ := x
    rw [List.cons_append]
    simp only [runOn, bind, Except.bind]
    cases stepOn abi al fuel w t op with
    | error e => rfl
    | ok y =>
      obtain ⟨w1, r⟩ := y
      simp only
      rw [ih w1]
      cases runOn abi fuel w1 xs with
      | error e => rfl
      | ok z =>
        obtain ⟨w2, rs⟩ := z
        simp only
        cases runOn abi fuel w2 ys with
        | error e => rfl
        | ok u => rfl

/-- A run of calls that are all made on table `A` is the run of these calls on the
view of table `A`; the `struct SymTable` of table `B` is not touched. -/
theorem runOn_onA (abi : ABI) (fuel : Nat) (ops : List (Alloc × Op)) :
    ∀ w : Pair, runOn abi fuel w (onA ops)
      = (match runWith abi fuel w.tableA ops with
         | .ok (s, rs) => .ok (w.afterA s, rs)
         | .error e => .error e) := by
  induction ops with
  | nil => intro w; rfl
  | cons x ops ih =>
    intro w
    obtain ⟨al, op⟩ := x
    simp only [onA, List.map_cons, runOn, stepOn, runWith, bind, Except.bind] at ih ⊢
    cases step abi al fuel w.tableA op with
    | error e => rfl
    | ok y =>
      obtain ⟨s1, r⟩ := y
      simp only [ih (w.afterA s1), Pair.tableA_afterA, Pair.afterA_afterA]
      cases runWith abi fuel s1 ops with
      | error e => rfl
      | ok z => rfl

/-- A call on table `A` that returns leaves both tables well-formed, table `B`
with the chains it had. -/
theorem PairWF.stepA {abi : ABI} {w : Pair} {BA BB : List (List Cell)}
    (h : PairWF abi w BA BB) (al : Alloc) (op : Op) (fuel : Nat) (hf : w.lengthA ≤ fuel)
    (s1 : State) (r : Res) (hstep : step abi al fuel w.tableA op = .ok (s1, r)) :
    ∃ BA1, PairWF abi (w.afterA s1) BA1 BB ∧ BA1.length = BA.length
      ∧ s1.counter = w.counter ∧ s1.length ≤ w.lengthA + 1 := by
  obtain ⟨BA1, w1, w2, w3, w4, w5, w6⟩ := h.tableA.step_frame al op fuel hf s1 r hstep
  refine ⟨BA1, ⟨w1, ?_, ?_⟩, w2, w3, w4⟩
  · have hb := h.tableB.other_storage s1.heap
      (fun a ha => w6 a (h.tableB.node_addr_lt a ha) (fun hm => h.apart a hm ha))
    have hc : s1.counter = w.counter := w3
    show WellFormed abi { counter := s1.counter, heap := s1.heap, ppsSymNode := w.arrayB,
                          length := w.lengthB } BB
    rw [hc]
    exact hb
  · intro a ha hb
    rcases w5 a ha with hm | hm
    · exact h.apart a hm hb
    · have hlt : a < w.heap.length := h.tableB.node_addr_lt a hb
      have hm2 : a = w.heap.length := hm
      omega

/-- A run of calls on table `A` that returns leaves both tables well-formed, table
`B` with the chains it had, and `counter` as it was. -/
theorem PairWF.runA {abi : ABI} (fuel : Nat) (ops : List (Alloc × Op)) :
    ∀ (w : Pair) (BA BB : List (List Cell)), PairWF abi w BA BB →
      w.lengthA + ops.length ≤ fuel →
      ∀ (s1 : State) (rs : List Res), runWith abi fuel w.tableA ops = .ok (s1, rs) →
        ∃ BA1, PairWF abi (w.afterA s1) BA1 BB ∧ BA1.length = BA.length
          ∧ s1.counter = w.counter := by
  induction ops with
  | nil =>
    intro w BA BB h _ s1 rs hrun
    simp only [runWith] at hrun
    cases hrun
    exact ⟨BA, h, rfl, rfl⟩
  | cons x ops ih =>
    intro w BA BB h hf s1 rs hrun
    obtain ⟨al, op⟩ := x
    simp only [runWith, bind, Except.bind, List.length_cons] at hrun hf
    cases hst : step abi al fuel w.tableA op with
    | error e => rw [hst] at hrun; cases hrun
    | ok y =>
      obtain ⟨s2, r2⟩ := y
      rw [hst] at hrun
      simp only at hrun
      obtain ⟨BA2, u1, u2, u3, u4⟩ := h.stepA al op fuel (by omega) s2 r2 hst
      cases hrest : runWith abi fuel s2 ops with
      | error e => rw [hrest] at hrun; cases hrun
      | ok z =>
        obtain ⟨s3, rs3⟩ := z
        rw [hrest] at hrun
        cases hrun
        have hlen : (w.afterA s2).lengthA + ops.length ≤ fuel := by
          show s2.length + ops.length ≤ fuel
          omega
        obtain ⟨BA3, v1, v2, v3⟩ := ih (w.afterA s2) BA2 BB u1 hlen s3 rs3 hrest
        exact ⟨BA3, v1, v2.trans u2, v3.trans u3⟩

/-- Calls on table `A` that return leave every result of a call on table `B`
as it was: the values of `SymTable_contains` and `SymTable_get` for every key, the
length, and the bindings `SymTable_map` visits, in their order. They leave
`counter` as it was, too. -/
theorem PairWF.calls_on_A_leave_B {abi : ABI} {w : Pair} {BA BB : List (List Cell)}
    (h : PairWF abi w BA BB) (fuel : Nat) (ops : List (Alloc × Op))
    (hf : w.lengthA + ops.length ≤ fuel) (hfB : w.lengthB ≤ fuel)
    (w1 : Pair) (rs : List Res) (hrun : runOn abi fuel w (onA ops) = .ok (w1, rs)) :
    (∃ BA1, PairWF abi w1 BA1 BB)
      ∧ w1.counter = w.counter
      ∧ (∀ k, SymTable_contains abi fuel w1.tableB k = SymTable_contains abi fuel w.tableB k)
      ∧ (∀ k, SymTable_get abi fuel w1.tableB k = SymTable_get abi fuel w.tableB k)
      ∧ SymTable_getLength w1.tableB = SymTable_getLength w.tableB
      ∧ SymTable_map fuel w1.tableB = SymTable_map fuel w.tableB := by
  rw [runOn_onA] at hrun
  cases hr : runWith abi fuel w.tableA ops with
  | error e => rw [hr] at hrun; cases hrun
  | ok y =>
    obtain ⟨s1, rs1⟩ := y
    rw [hr] at hrun
    cases hrun
    obtain ⟨BA1, u1, _, u3⟩ := PairWF.runA fuel ops w BA BB h hf s1 _ hr
    have hB0 := h.tableB
    have hB1 := u1.tableB
    have hl0 : w.tableB.length ≤ fuel := hfB
    have hl1 : (w.afterA s1).tableB.length ≤ fuel := hfB
    refine ⟨⟨BA1, u1⟩, u3, ?_, ?_, rfl, ?_⟩
    · intro k
      rw [hB1.contains k fuel hl1, hB0.contains k fuel hl0]
    · intro k
      rw [hB1.get k fuel hl1, hB0.get k fuel hl0]
    · rw [hB1.map fuel hl1, hB0.map fuel hl0]

/-- A table created after a run of calls on another table that has returned has
509 buckets and takes its bucket indices modulo 509. -/
theorem created_after_run (abi : ABI) (heap0 : Heap) (s0 : State)
    (hnew : SymTable_new true true 0 heap0 = some s0) (fuel : Nat) (ops : List (Alloc × Op))
    (hf : ops.length ≤ fuel) (s : State) (rs : List Res)
    (hrun : runWith abi fuel s0 ops = .ok (s, rs)) :
    ∃ t, SymTable_new true true s.counter s.heap = some t
      ∧ t.ppsSymNode.length = 509 ∧ stageCount t.counter = .ok 509
      ∧ WellFormed abi t (List.replicate 509 []) := by
  obtain ⟨B, _, _, hc, _⟩ := reached_stage_zero abi heap0 s0 hnew fuel ops hf s rs hrun
  rw [hc]
  exact ⟨_, rfl, List.length_replicate _ _, rfl, WellFormed.empty abi 0 509 s.heap rfl⟩

end Hash
end SymTable

namespace SymTable
namespace Hash

theorem Pair.afterB_tableB (w : Pair) : w.afterB w.tableB = w := rfl

theorem flatten_replicate_nil (n : Nat) : (List.replicate n ([] : List Cell)).flatten = [] := by
  rw [List.flatten_eq_nil_iff]
  intro L hL
  exact List.eq_of_mem_replicate hL

theorem keyX_not_in_fresh :
    keyX ∉ (List.replicate 509 ([] : List Cell)).flatten.map Cell.key := by
  rw [flatten_replicate_nil]
  intro hm
  cases hm

/-- The first call of `crossOps`, the put of `"x"` into table `B`, returns 1. -/
theorem crossOps_first (fuel : Nat) :
    stepOn abi64 allocOK fuel freshPair Tab.B (Op.put keyX 7)
      = .ok (freshPair.afterB (insertNode abi64 509 freshTable keyX 7), Res.int 1) := by
  have hp := (freshTable_repr abi64).put_absent_any keyX 7 keyX_not_in_fresh allocOK fuel
    (Nat.zero_le _) (Or.inl (Nat.zero_le _))
  rw [List.length_replicate] at hp
  have ht : freshPair.tableB = freshTable := rfl
  simp only [stepOn, step, bind, Except.bind, ht, hp]
  rfl

/-- After the first call of `crossOps` both tables are well-formed: table `A` is
empty and table `B` holds the node of `"x"`. -/
theorem crossOps_pair :
    ∃ BB, PairWF abi64 (freshPair.afterB (insertNode abi64 509 freshTable keyX 7))
        (List.replicate 509 []) BB
      ∧ ({ addr := 0, key := keyX, val := 7 } : Cell) ∈ BB.flatten := by
  have h := freshTable_repr abi64
  have hB := h.insertNode keyX 7 keyX_not_in_fresh
  have hmem := ((h.put_perm keyX { addr := 0, key := keyX, val := 7 }).mem_iff).2
    (List.mem_cons_self _ _)
  rw [List.length_replicate] at hB hmem
  refine ⟨_, ⟨?_, hB, ?_⟩, hmem⟩
  · exact WellFormed.empty abi64 0 509 (insertNode abi64 509 freshTable keyX 7).heap rfl
  · intro a ha
    rw [flatten_replicate_nil] at ha
    cases ha


/-- The run `crossOps n` after its first call. -/
theorem crossOps_run (fuel n : Nat) :
    runOn abi64 fuel freshPair (crossOps n)
      = (match runOn abi64 fuel (freshPair.afterB (insertNode abi64 509 freshTable keyX 7))
            (onA (withAlloc allocOK (putOps (sampleBindings n)))
              ++ [(Tab.B, allocOK, Op.contains keyX), (Tab.B, allocOK, Op.get keyX),
                  (Tab.B, allocOK, Op.getLength)]) with
         | .ok (w, rs) => .ok (w, Res.int 1 :: rs)
         | .error e => .error e) := by
  rw [crossOps]
  simp only [runOn, bind, Except.bind, crossOps_first]
  split <;> rename_i hx <;> simp only [hx]

/-- The calls on table `B` at the end of `crossOps`, on a pair in which table `B`
is well-formed and holds `"x"` bound to 7 in a table of length 1. -/
theorem crossOps_tail {w : Pair} {BA BB : List (List Cell)} (h : PairWF abi64 w BA BB)
    (hx : ({ addr := 0, key := keyX, val := 7 } : Cell) ∈ BB.flatten) (hl : w.lengthB = 1)
    (fuel : Nat) (hf : 1 ≤ fuel) :
    runOn abi64 fuel w [(Tab.B, allocOK, Op.contains keyX), (Tab.B, allocOK, Op.get keyX),
        (Tab.B, allocOK, Op.getLength)]
      = .ok (w, [Res.int 1, Res.ptr 7, Res.size 1]) := by
  have hlen : w.tableB.length ≤ fuel := by
    show w.lengthB ≤ fuel
    omega
  have hk : keyX ∈ BB.flatten.map Cell.key := List.mem_map.2 ⟨_, hx, rfl⟩
  have hc := h.tableB.contains keyX fuel hlen
  rw [if_pos hk] at hc
  have hg := h.tableB.get keyX fuel hlen
  have hlk : lookup keyX (chainOf abi64 BB keyX) = some { addr := 0, key := keyX, val := 7 } :=
    h.tableB.chain_lookup_of_mem hx
  rw [hlk] at hg
  have hgl : SymTable_getLength w.tableB = 1 := hl
  simp only [runOn, stepOn, step, bind, Except.bind, hc, hg, hgl, Pair.afterB_tableB]

end Hash

/-! ### Claim C20 -/

/-- C20 fails on the code. Two tables `A` and `B` are created at program start and
`"x"` is bound to 7 in `B`. After 510 puts of new keys into `A`, the calls
`SymTable_contains`, `SymTable_get` and `SymTable_getLength` on `B` return 1, 7 and
1, as before these puts. With one more put into `A`, the one that makes `A` grow,
the run never gets to the calls on `B`: the 511th put into `A` does not return,
whatever the step budget. -/
theorem calls_on_other_table_after_growth_never_answered :
    Hash.SymTable_new true true 0 [] = some Hash.freshTable
      ∧ Hash.SymTable_new true true Hash.freshTable.counter Hash.freshTable.heap
          = some Hash.freshTable
      ∧ Hash.freshPair = Hash.pairOf Hash.freshTable Hash.freshTable
      ∧ (∃ w, Hash.runOn abi64 512 Hash.freshPair (Hash.crossOps 510)
          = .ok (w, Hash.crossResults 510))
      ∧ ∀ fuel r, Hash.runOn abi64 fuel Hash.freshPair (Hash.crossOps 511) ≠ .ok r := by
  obtain ⟨BB, hp, hx⟩ := Hash.crossOps_pair
  have hnew : ∀ n, ∀ kv ∈ sampleBindings n,
      kv.1 ∉ (List.replicate 509 ([] : List Cell)).flatten.map Cell.key := by
    intro n kv _ hm
    rw [Hash.flatten_replicate_nil] at hm
    cases hm
  have hl0 : (Hash.freshPair.afterB
      (Hash.insertNode abi64 509 Hash.freshTable Hash.keyX 7)).tableA.length = 0 := rfl
  have hl509 : (List.replicate 509 ([] : List Cell)).length = 509 := List.length_replicate _ _
  refine ⟨rfl, rfl, rfl, ?_, ?_⟩
  · rw [Hash.crossOps_run, Hash.runOn_append, Hash.runOn_onA, Hash.runWith_withAlloc]
    rcases Hash.WellFormed.run_puts 512 (sampleBindings 510) _ _ hp.tableA
        (sampleBindings_keys_nodup 510) (hnew 510)
        (by rw [hl0, hl509, sampleBindings_length]) with ⟨_, hlt⟩ | ⟨s1, hr, _⟩
    · rw [hl0, sampleBindings_length] at hlt
      omega
    · have hr2 := hr
      rw [← Hash.runWith_withAlloc] at hr2
      have hlen : (Hash.freshPair.afterB
          (Hash.insertNode abi64 509 Hash.freshTable Hash.keyX 7)).lengthA
            + (withAlloc allocOK (putOps (sampleBindings 510))).length ≤ 512 := by
        have hA : (Hash.freshPair.afterB
            (Hash.insertNode abi64 509 Hash.freshTable Hash.keyX 7)).lengthA = 0 := rfl
        rw [hA]
        simp only [withAlloc, putOps, List.length_map, sampleBindings_length]
        omega
      obtain ⟨BA1, u1, _, _⟩ := Hash.PairWF.runA 512
        (withAlloc allocOK (putOps (sampleBindings 510))) _ _ _ hp hlen s1 _ hr2
      rw [hr]
      simp only
      rw [Hash.crossOps_tail u1 hx rfl 512 (by decide), sampleBindings_length]
      exact ⟨_, rfl⟩
  · intro fuel r
    rw [Hash.crossOps_run, Hash.runOn_append, Hash.runOn_onA, Hash.runWith_withAlloc]
    have hno := Hash.WellFormed.run_puts_overflow fuel (sampleBindings 511) _ _ hp.tableA
      (sampleBindings_keys_nodup 511) (hnew 511) (by rw [hl0]; omega)
      (by rw [hl0, hl509, sampleBindings_length]; omega)
    cases hrun : Hash.run abi64 allocOK fuel
        (Hash.freshPair.afterB (Hash.insertNode abi64 509 Hash.freshTable Hash.keyX 7)).tableA
        (putOps (sampleBindings 511)) with
    | error e =>
      simp only
      intro hc
      cases hc
    | ok y => exact absurd hrun (hno y)

end SymTable
